import Mathlib

/-!
# Verification of the super-bowl-squares core

Shallow embedding of the repository's core (text parser, text serializer,
scoring engine) and proofs of the specification claims about it.

TypeScript strings are modelled as `List Char` (`Str` below); JavaScript
array indexing that can hit `undefined` (and subsequently throw on member
access) is modelled with `Option`; thrown `Error`s are modelled with
`Except Str`.  JS `number`s holding scores are modelled as `Int`,
quantities that are always non-negative in the source as `Nat`.
-/

set_option maxHeartbeats 1000000

namespace SBS

/-- TypeScript strings, modelled as lists of characters. -/
abbrev Str := List Char

/-- Lowercase a string character-wise (models `String.prototype.toLowerCase`
on the ASCII names used by the program). -/
def toLowerStr (s : Str) : Str := s.map Char.toLower

-- ── Data model (src: core/types.ts, reconstructed from its uses) ──────

/-- Digits assigned to one square for one quarter. -/
structure QuarterDigits where
  topDigits : List Nat
  leftDigits : List Nat
  deriving DecidableEq

/-- One tracked square: one `QuarterDigits` per quarter (length 1 or 4). -/
structure MySquare where
  quarters : List QuarterDigits
  deriving DecidableEq

/-- The full axis assignment for one quarter. -/
structure QuarterNumbers where
  topNumbers : List (List Nat)
  leftNumbers : List (List Nat)
  deriving DecidableEq

/-- Full-board data: quarters, owner grid, tracked owner names. -/
structure FullBoardData where
  quarters : List QuarterNumbers
  grid : List (List Str)
  mySquareNames : List Str
  deriving DecidableEq

/-- Board configuration record. -/
structure BoardConfig where
  name : Str
  buyIn : Option Int
  cols : Nat
  rows : Nat
  reroll : Bool
  topTeam : Str
  leftTeam : Str
  payouts : Option (List Int)
  deriving DecidableEq

/-- A board: config plus `fullBoard` or `mySquares` (optional fields,
as in the source's TypeScript type). -/
structure Board where
  config : BoardConfig
  fullBoard : Option FullBoardData := none
  mySquares : Option (List MySquare) := none
  deriving DecidableEq

/-- Running score. -/
structure Score where
  top : Int
  left : Int
  deriving DecidableEq

/-- Game state: quarter (0..3) and score. -/
structure GameState where
  quarter : Nat
  score : Score
  deriving DecidableEq

/-- A near miss: the named team is `points` away from making this square win. -/
structure NearMiss where
  team : Str
  points : Nat
  deriving DecidableEq

/-- Result of checking one tracked square. -/
structure SquareStatus where
  isWinner : Bool
  nearMisses : List NearMiss
  deriving DecidableEq

/-- A position on the full board. -/
structure BoardPosition where
  row : Int
  col : Int
  deriving DecidableEq

/-- One near-miss entry of a full-board check. -/
structure PosNearMiss where
  pos : BoardPosition
  nearMiss : NearMiss
  deriving DecidableEq

/-- Result of checking a full board. -/
structure FullBoardStatus where
  winnerPos : BoardPosition
  nearMissPositions : List PosNearMiss
  deriving DecidableEq

-- ── §3 invariants ─────────────────────────────────────────────────────

/-- §3 invariant 2 for a single digit-group on an axis with `axis` slots:
a 5-slot axis carries exactly 2 distinct digits in `[0,9]`, a 10-slot axis
exactly 1 digit. -/
def digitGroupOk (axis : Nat) (ds : List Nat) : Prop :=
  (∀ d ∈ ds, d < 10) ∧ (if axis = 5 then ds.length = 2 ∧ ds.Nodup else ds.length = 1)

instance (axis : Nat) (ds : List Nat) : Decidable (digitGroupOk axis ds) := by
  unfold digitGroupOk; infer_instance

/-- §3 invariant 3: quarters-list length is 1 for fixed digits, 4 for reroll. -/
def quartersLenOk (reroll : Bool) (n : Nat) : Prop :=
  n = if reroll then 4 else 1

instance (reroll : Bool) (n : Nat) : Decidable (quartersLenOk reroll n) := by
  unfold quartersLenOk; infer_instance

/-- §3 invariants 2 and 3 on the `mySquares` side. -/
def mySquaresOk (cols rows : Nat) (reroll : Bool) (sqs : List MySquare) : Prop :=
  ∀ sq ∈ sqs,
    quartersLenOk reroll sq.quarters.length ∧
    ∀ qd ∈ sq.quarters,
      digitGroupOk cols qd.topDigits ∧ digitGroupOk rows qd.leftDigits

instance (cols rows : Nat) (reroll : Bool) (sqs : List MySquare) :
    Decidable (mySquaresOk cols rows reroll sqs) := by
  unfold mySquaresOk; infer_instance

/-- §3 invariants 2–5 on the `fullBoard` side. -/
def fullBoardOk (cols rows : Nat) (reroll : Bool) (fb : FullBoardData) : Prop :=
  quartersLenOk reroll fb.quarters.length ∧
  (∀ qn ∈ fb.quarters,
    qn.topNumbers.length = cols ∧
    qn.leftNumbers.length = rows ∧
    (∀ g ∈ qn.topNumbers, digitGroupOk cols g) ∧
    (∀ g ∈ qn.leftNumbers, digitGroupOk rows g)) ∧
  fb.grid.length = rows ∧
  (∀ row ∈ fb.grid, row.length = cols)

instance (cols rows : Nat) (reroll : Bool) (fb : FullBoardData) :
    Decidable (fullBoardOk cols rows reroll fb) := by
  unfold fullBoardOk; infer_instance

/-- A property of the payload of an optional value (trivially true when
absent). -/
def optionProp (P : α → Prop) : Option α → Prop
  | some x => P x
  | none => True

instance (P : α → Prop) [DecidablePred P] :
    (o : Option α) → Decidable (optionProp P o)
  | some x => inferInstanceAs (Decidable (P x))
  | none => .isTrue trivial

/-- The six §3 invariants of a `Board`. -/
def ValidBoard (b : Board) : Prop :=
  (b.config.cols = 5 ∨ b.config.cols = 10) ∧
  (b.config.rows = 5 ∨ b.config.rows = 10) ∧
  optionProp (mySquaresOk b.config.cols b.config.rows b.config.reroll)
    b.mySquares ∧
  optionProp (fullBoardOk b.config.cols b.config.rows b.config.reroll)
    b.fullBoard ∧
  (b.fullBoard.isSome ↔ b.mySquares = none)

instance (b : Board) : Decidable (ValidBoard b) := by
  unfold ValidBoard; infer_instance

-- ── Scoring engine (src: core/scoring.ts) ─────────────────────────────

/-- `lastDigit(score)` — `Math.abs(score) % 10`. -/
def lastDigit (score : Int) : Nat :=
  score.natAbs % 10

/-- For reroll boards, use the quarter index directly; for non-reroll,
always use index 0. -/
def quarterIndex (board : Board) (quarter : Nat) : Nat :=
  if board.config.reroll then quarter else 0

/-- `checkMySquare` — winner/near-miss status of one square's digits
against the current score.  The two `for (const pts of [3, 7])` loops
are rendered as `filterMap` over `[3, 7]`. -/
def checkMySquare (digits : QuarterDigits) (topScore leftScore : Int)
    (topTeam leftTeam : Str) : SquareStatus :=
  let td := lastDigit topScore
  let ld := lastDigit leftScore
  let isWinner := digits.topDigits.contains td && digits.leftDigits.contains ld
  if isWinner then { isWinner := true, nearMisses := [] }
  else
    let topMisses := ([3, 7] : List Nat).filterMap fun (pts : Nat) =>
      let nd := lastDigit (topScore + (pts : Int))
      if digits.topDigits.contains nd && digits.leftDigits.contains ld then
        some { team := topTeam, points := pts }
      else none
    let leftMisses := ([3, 7] : List Nat).filterMap fun (pts : Nat) =>
      let nd := lastDigit (leftScore + (pts : Int))
      if digits.topDigits.contains td && digits.leftDigits.contains nd then
        some { team := leftTeam, points := pts }
      else none
    { isWinner := isWinner, nearMisses := topMisses ++ leftMisses }

/-- JS `Array.prototype.map` with a callback that may throw (modelled as
`Option`): the first failing element aborts the whole map. -/
def jsMapOption (f : α → Option β) : List α → Option (List β)
  | [] => some []
  | a :: t => (f a).bind fun b => (jsMapOption f t).map fun bs => b :: bs

/-- `checkAllMySquares` — map `checkMySquare` over the tracked squares.
`sq.quarters[qi]` may be `undefined` in JS (member access on it would
throw), so the lookup is `Option`al and the result is `none` when any
square lacks the active quarter. -/
def checkAllMySquares (board : Board) (state : GameState) :
    Option (List SquareStatus) :=
  match board.mySquares with
  | none => some []
  | some sqs =>
    let qi := quarterIndex board state.quarter
    jsMapOption (fun sq =>
      (sq.quarters.get? qi).map fun digits =>
        checkMySquare digits state.score.top state.score.left
          board.config.topTeam board.config.leftTeam) sqs

/-- `findPosition` — `numbers.findIndex(ds => ds.includes(digit))`:
first index whose group contains the digit, `-1` if none. -/
def findPosition (numbers : List (List Nat)) (digit : Nat) : Int :=
  match numbers.findIdx? (fun ds => ds.contains digit) with
  | some i => (i : Int)
  | none => -1

/-- `checkFullBoard` — winner position and near-miss positions for one
quarter's numbers. -/
def checkFullBoard (qn : QuarterNumbers) (topScore leftScore : Int)
    (topTeam leftTeam : Str) : FullBoardStatus :=
  let td := lastDigit topScore
  let ld := lastDigit leftScore
  let winCol := findPosition qn.topNumbers td
  let winRow := findPosition qn.leftNumbers ld
  let winnerPos : BoardPosition := { row := winRow, col := winCol }
  let topMisses := ([3, 7] : List Nat).filterMap fun (pts : Nat) =>
    let nd := lastDigit (topScore + (pts : Int))
    let nearCol := findPosition qn.topNumbers nd
    if nearCol ≠ -1 ∧ nearCol ≠ winCol then
      some { pos := { row := winRow, col := nearCol },
             nearMiss := { team := topTeam, points := pts } }
    else none
  let leftMisses := ([3, 7] : List Nat).filterMap fun (pts : Nat) =>
    let nd := lastDigit (leftScore + (pts : Int))
    let nearRow := findPosition qn.leftNumbers nd
    if nearRow ≠ -1 ∧ nearRow ≠ winRow then
      some { pos := { row := nearRow, col := winCol },
             nearMiss := { team := leftTeam, points := pts } }
    else none
  { winnerPos := winnerPos, nearMissPositions := topMisses ++ leftMisses }

/-- Per-cell display status. -/
structure CellStatus where
  isWinner : Bool
  isMine : Bool
  nearMisses : List NearMiss
  deriving DecidableEq

/-- The cell-status map.  The source keys a JS `Map` by the string
`"row,col"`; since that formatting is injective on positions, the map is
modelled as an insertion-ordered association list keyed by the pair. -/
abbrev CellMap := List ((Int × Int) × CellStatus)

/-- `board.fullBoard.grid[row]?.[col] ?? ''` — optional-chained grid
access; out-of-range (including negative) indices give `''`. -/
def gridGet (grid : List (List Str)) (row col : Int) : Str :=
  if 0 ≤ row ∧ 0 ≤ col then
    ((grid.get? row.toNat).bind fun r => r.get? col.toNat).getD []
  else []

/-- Loop body of `getFullBoardCellStatuses`: merge one near miss into the
cell map — push onto an existing entry's `nearMisses`, or `Map.set` a
fresh entry at the end. -/
def addNearMiss (grid : List (List Str)) (mineSet : List Str)
    (m : CellMap) (nm : PosNearMiss) : CellMap :=
  let nk := (nm.pos.row, nm.pos.col)
  let name := gridGet grid nm.pos.row nm.pos.col
  if (m.lookup nk).isSome then
    m.map fun e =>
      if e.1 = nk then
        (e.1, { e.2 with nearMisses := e.2.nearMisses ++ [nm.nearMiss] })
      else e
  else
    m ++ [(nk, { isWinner := false,
                 isMine := mineSet.contains (toLowerStr name),
                 nearMisses := [nm.nearMiss] })]

/-- `getFullBoardCellStatuses` — winner cell first, then each near miss
merged in by `addNearMiss`.  `fb.quarters[qi]` is the one unguarded index
access (member access on `undefined` would throw), hence the `Option`
result. -/
def getFullBoardCellStatuses (board : Board) (state : GameState) :
    Option CellMap :=
  match board.fullBoard with
  | none => some []
  | some fb =>
    let qi := quarterIndex board state.quarter
    (fb.quarters.get? qi).map fun qn =>
      let result := checkFullBoard qn state.score.top state.score.left
        board.config.topTeam board.config.leftTeam
      let mineSet := fb.mySquareNames.map toLowerStr
      let wk := (result.winnerPos.row, result.winnerPos.col)
      let winName := gridGet fb.grid result.winnerPos.row result.winnerPos.col
      let map0 : CellMap :=
        [(wk, { isWinner := true,
                isMine := mineSet.contains (toLowerStr winName),
                nearMisses := [] })]
      result.nearMissPositions.foldl (addNearMiss fb.grid mineSet) map0

/-- `formatDigits` — concatenate 1 or 2 digits into a token. -/
def formatDigits (digits : List Nat) : Str :=
  if digits.length = 2 then
    (Nat.toDigits 10 (digits.getD 0 0)) ++ (Nat.toDigits 10 (digits.getD 1 0))
  else
    Nat.toDigits 10 (digits.getD 0 0)

-- ── Scoring-engine claims ─────────────────────────────────────────────

/-- **C4**: `checkMySquare` reports a winner exactly when the top score's
last digit is among `digits.topDigits` and the left score's last digit is
among `digits.leftDigits` (`lastDigit s = |s| % 10`); and a winning square
reports no near misses. -/
theorem checkMySquare_winner_iff (digits : QuarterDigits)
    (topScore leftScore : Int) (topTeam leftTeam : Str) :
    ((checkMySquare digits topScore leftScore topTeam leftTeam).isWinner = true ↔
      (lastDigit topScore ∈ digits.topDigits ∧
       lastDigit leftScore ∈ digits.leftDigits)) ∧
    ((checkMySquare digits topScore leftScore topTeam leftTeam).isWinner = true →
      (checkMySquare digits topScore leftScore topTeam leftTeam).nearMisses = []) := by
  by_cases h : (digits.topDigits.contains (lastDigit topScore) &&
      digits.leftDigits.contains (lastDigit leftScore)) = true
  · simp only [checkMySquare, h, if_true]
    simp only [Bool.and_eq_true, List.elem_iff] at h
    simp [h]
  · simp only [checkMySquare, h, if_false]
    simp only [Bool.and_eq_true, List.elem_iff] at h
    constructor
    · constructor
      · intro hw
        exact absurd (by simpa using hw) h
      · intro hm
        exact absurd hm h
    · intro hw
      exact absurd (by simpa using hw) h

/-- Witness for C4 at a concrete input (the spec's "simple winner"
scenario: digits `{top:[4], left:[7]}`, score `14-7`). -/
theorem checkMySquare_winner_iff_witness :
    (checkMySquare ⟨[4], [7]⟩ 14 7 ['A'] ['B']).isWinner = true ∧
    (checkMySquare ⟨[4], [7]⟩ 14 7 ['A'] ['B']).nearMisses = [] := by
  have h := checkMySquare_winner_iff ⟨[4], [7]⟩ 14 7 ['A'] ['B']
  have hw : (checkMySquare ⟨[4], [7]⟩ 14 7 ['A'] ['B']).isWinner = true :=
    h.1.mpr (by decide)
  exact ⟨hw, h.2 hw⟩

/-- **C5 (counterexample)**: with identical team names the claimed iff
fails — on digits `{top:[0], left:[3]}`, score `0-0`, teams both `"A"`,
the left-team loop emits `{team: "A", points: 3}`, which is the literal
`{team: topTeam, points: 3}`, while the claim's top-team condition
(`lastDigit(0+3) ∈ topDigits ∧ lastDigit(0) ∈ leftDigits`) is false. -/
theorem checkMySquare_nearMiss_rule_cex :
    (({ team := ['A'], points := 3 } : NearMiss) ∈
      (checkMySquare ⟨[0], [3]⟩ 0 0 ['A'] ['A']).nearMisses) ∧
    ¬(lastDigit ((0 : Int) + 3) ∈ [0] ∧ lastDigit 0 ∈ [3]) ∧
    (checkMySquare ⟨[0], [3]⟩ 0 0 ['A'] ['A']).isWinner = false := by
  decide

/-- **C5 (amended)**: near-miss rule of `checkMySquare` on a non-winning
square, for distinct team names:
`{team := topTeam, points := delta}` (for `delta ∈ {3,7}`) is reported iff
`lastDigit (topScore + delta)` is among the top digits while the left
digit already matches, symmetrically for the left team; only such entries
occur, hence at most 4. -/
theorem checkMySquare_nearMiss_rule (digits : QuarterDigits)
    (topScore leftScore : Int) (topTeam leftTeam : Str)
    (hT : topTeam ≠ leftTeam)
    (hw : (checkMySquare digits topScore leftScore topTeam leftTeam).isWinner
        = false) :
    (∀ delta : Nat, (delta = 3 ∨ delta = 7) →
      (({ team := topTeam, points := delta } : NearMiss) ∈
          (checkMySquare digits topScore leftScore topTeam leftTeam).nearMisses ↔
        (lastDigit (topScore + (delta : Int)) ∈ digits.topDigits ∧
         lastDigit leftScore ∈ digits.leftDigits)) ∧
      (({ team := leftTeam, points := delta } : NearMiss) ∈
          (checkMySquare digits topScore leftScore topTeam leftTeam).nearMisses ↔
        (lastDigit topScore ∈ digits.topDigits ∧
         lastDigit (leftScore + (delta : Int)) ∈ digits.leftDigits))) ∧
    (∀ nm ∈ (checkMySquare digits topScore leftScore topTeam leftTeam).nearMisses,
      (nm.team = topTeam ∨ nm.team = leftTeam) ∧
      (nm.points = 3 ∨ nm.points = 7)) ∧
    (checkMySquare digits topScore leftScore topTeam leftTeam).nearMisses.length
      ≤ 4 := by
  by_cases h : (digits.topDigits.contains (lastDigit topScore) &&
      digits.leftDigits.contains (lastDigit leftScore)) = true
  · exfalso
    simp only [Bool.and_eq_true, List.elem_iff] at h
    simp [checkMySquare, h] at hw
  · simp only [checkMySquare, h, if_false, Bool.false_eq_true]
    simp only [Bool.and_eq_true, List.elem_iff] at h
    refine ⟨?_, ?_, ?_⟩
    · rintro delta (rfl | rfl) <;>
      · constructor <;>
        · simp only [List.filterMap_cons, List.filterMap_nil]
          split_ifs <;> simp_all <;> exact Ne.symm hT
    · intro nm hnm
      simp only [List.filterMap_cons, List.filterMap_nil] at hnm
      split_ifs at hnm <;> simp_all <;> rcases hnm with rfl | rfl <;> simp
    · simp only [List.filterMap_cons, List.filterMap_nil]
      split_ifs <;> simp

/-- Witness for C5 at the spec's "near miss, top +3" scenario: digits
`{top:[7], left:[7]}`, score `14-7` → near misses include
`{team: topTeam, points: 3}`. -/
theorem checkMySquare_nearMiss_rule_witness :
    ({ team := ['A'], points := 3 } : NearMiss) ∈
      (checkMySquare ⟨[7], [7]⟩ 14 7 ['A'] ['B']).nearMisses := by
  have h := checkMySquare_nearMiss_rule ⟨[7], [7]⟩ 14 7 ['A'] ['B']
    (by decide) (by decide)
  exact ((h.1 3 (Or.inl rfl)).1).mpr (by decide)

/-- `jsMapOption` succeeds when every element's callback succeeds. -/
theorem jsMapOption_isSome (f : α → Option β) (l : List α)
    (h : ∀ a ∈ l, (f a).isSome = true) : (jsMapOption f l).isSome = true := by
  induction l with
  | nil => rfl
  | cons a t ih =>
    obtain ⟨b, hb⟩ := Option.isSome_iff_exists.mp (h a (by simp))
    obtain ⟨bs, hbs⟩ :=
      Option.isSome_iff_exists.mp (ih fun x hx => h x (by simp [hx]))
    simp [jsMapOption, hb, hbs]

/-- **C3**: scoring-engine totality — on every board satisfying the §3
invariants and every game state with quarter in `{0,1,2,3}`,
`checkAllMySquares` and `getFullBoardCellStatuses` (and the
`checkMySquare`/`checkFullBoard` they call, which are total functions of
this model) never hit an out-of-range access: in the embedding, neither
returns `none`. -/
theorem engine_never_throws (board : Board) (state : GameState)
    (hv : ValidBoard board) (hq : state.quarter < 4) :
    (checkAllMySquares board state).isSome = true ∧
    (getFullBoardCellStatuses board state).isSome = true := by
  obtain ⟨-, -, hmy, hfull, -⟩ := hv
  constructor
  · unfold checkAllMySquares
    cases hms : board.mySquares with
    | none => rfl
    | some sqs =>
      simp only [hms, optionProp] at hmy
      apply jsMapOption_isSome
      intro sq hsq
      have hlen := (hmy sq hsq).1
      unfold quartersLenOk at hlen
      have hlt : quarterIndex board state.quarter < sq.quarters.length := by
        unfold quarterIndex
        cases hr : board.config.reroll <;> simp [hr] at hlen ⊢ <;> omega
      simp [Option.isSome_map', List.get?_eq_getElem?, List.getElem?_eq_getElem hlt]
  · unfold getFullBoardCellStatuses
    cases hfb : board.fullBoard with
    | none => rfl
    | some fb =>
      simp only [hfb, optionProp] at hfull
      have hlen := hfull.1
      unfold quartersLenOk at hlen
      have hlt : quarterIndex board state.quarter < fb.quarters.length := by
        unfold quarterIndex
        cases hr : board.config.reroll <;> simp [hr] at hlen ⊢ <;> omega
      simp [Option.isSome_map', List.get?_eq_getElem?, List.getElem?_eq_getElem hlt]

/-- Witness for C3: a concrete valid my-squares board at quarter 0. -/
theorem engine_never_throws_witness :
    (checkAllMySquares
        { config := { name := ['P'], buyIn := some 10, cols := 10, rows := 10,
                      reroll := false, topTeam := ['A'], leftTeam := ['B'],
                      payouts := none },
          mySquares := some [⟨[⟨[4], [7]⟩]⟩] }
        { quarter := 0, score := { top := 14, left := 7 } }).isSome = true ∧
    (getFullBoardCellStatuses
        { config := { name := ['P'], buyIn := some 10, cols := 10, rows := 10,
                      reroll := false, topTeam := ['A'], leftTeam := ['B'],
                      payouts := none },
          mySquares := some [⟨[⟨[4], [7]⟩]⟩] }
        { quarter := 0, score := { top := 14, left := 7 } }).isSome = true :=
  engine_never_throws _ _ (by decide) (by decide)

/-- **C6**: `checkFullBoard` near-miss gating — a top-team near miss for
`delta ∈ {3,7}` is emitted at `{row: winRow, col: nearCol}` exactly when
`nearCol = findPosition topNumbers (lastDigit (topScore+delta))` is not
`-1` and differs from `winCol`; symmetrically for the left team; and in
the spec's 5-axis slot-collapse scenario (score 0-0) the winner is
`{row:4, col:0}` and the top `+3` near miss is suppressed. -/
theorem checkFullBoard_nearMiss_gating (qn : QuarterNumbers)
    (topScore leftScore : Int) (topTeam leftTeam : Str) :
    (∀ delta : Nat, (delta = 3 ∨ delta = 7) →
      (({ pos := { row := findPosition qn.leftNumbers (lastDigit leftScore),
                   col := findPosition qn.topNumbers
                     (lastDigit (topScore + (delta : Int))) },
          nearMiss := { team := topTeam, points := delta } } : PosNearMiss) ∈
          (checkFullBoard qn topScore leftScore topTeam leftTeam).nearMissPositions ↔
        (findPosition qn.topNumbers (lastDigit (topScore + (delta : Int))) ≠ -1 ∧
         findPosition qn.topNumbers (lastDigit (topScore + (delta : Int))) ≠
           findPosition qn.topNumbers (lastDigit topScore))) ∧
      (({ pos := { row := findPosition qn.leftNumbers
                     (lastDigit (leftScore + (delta : Int))),
                   col := findPosition qn.topNumbers (lastDigit topScore) },
          nearMiss := { team := leftTeam, points := delta } } : PosNearMiss) ∈
          (checkFullBoard qn topScore leftScore topTeam leftTeam).nearMissPositions ↔
        (findPosition qn.leftNumbers (lastDigit (leftScore + (delta : Int))) ≠ -1 ∧
         findPosition qn.leftNumbers (lastDigit (leftScore + (delta : Int))) ≠
           findPosition qn.leftNumbers (lastDigit leftScore)))) ∧
    ((checkFullBoard
        ⟨[[0,3],[1,9],[2,8],[4,6],[5,7]], [[6,5],[1,2],[3,9],[4,7],[8,0]]⟩
        0 0 ['T'] ['L']).winnerPos = { row := 4, col := 0 } ∧
     ∀ e ∈ (checkFullBoard
        ⟨[[0,3],[1,9],[2,8],[4,6],[5,7]], [[6,5],[1,2],[3,9],[4,7],[8,0]]⟩
        0 0 ['T'] ['L']).nearMissPositions,
       ¬(e.nearMiss.team = ['T'] ∧ e.nearMiss.points = 3)) := by
  refine ⟨?_, by decide⟩
  rintro delta (rfl | rfl) <;>
  · constructor <;>
    · simp only [checkFullBoard, List.mem_append, List.filterMap_cons,
        List.filterMap_nil]
      split_ifs <;> simp_all [eq_comm]

/-- Witness for C6: the spec's "full-board winner lookup" scenario, score
`14-7`: a top `+3` near miss lands at `{row:3, col:4}`. -/
theorem checkFullBoard_nearMiss_gating_witness :
    ({ pos := { row := 3, col := 4 },
       nearMiss := { team := ['T'], points := 3 } } : PosNearMiss) ∈
      (checkFullBoard
        ⟨[[0,3],[1,9],[2,8],[4,6],[5,7]], [[6,5],[1,2],[3,9],[4,7],[8,0]]⟩
        14 7 ['T'] ['L']).nearMissPositions := by
  have h := checkFullBoard_nearMiss_gating
    ⟨[[0,3],[1,9],[2,8],[4,6],[5,7]], [[6,5],[1,2],[3,9],[4,7],[8,0]]⟩
    14 7 ['T'] ['L']
  have h3 := ((h.1 3 (Or.inl rfl)).1).mpr (by decide)
  exact h3

-- ── Cell-map lemmas for C7 ────────────────────────────────────────────

/-- The cell-map key of a near-miss entry. -/
def cellKey (nm : PosNearMiss) : Int × Int := (nm.pos.row, nm.pos.col)

/-- The near misses of a status list that resolve to cell `k`, in order. -/
def missesAt (ns : List PosNearMiss) (k : Int × Int) : List NearMiss :=
  ns.filterMap fun nm => if cellKey nm = k then some nm.nearMiss else none

theorem lookup_cons_self {κ ν : Type} [BEq κ] [LawfulBEq κ] (a : κ) (b : ν)
    (t : List (κ × ν)) : ((a, b) :: t).lookup a = some b := by
  simp [List.lookup]

theorem lookup_cons_ne {κ ν : Type} [BEq κ] [LawfulBEq κ] (a k : κ) (b : ν)
    (t : List (κ × ν)) (h : k ≠ a) : ((a, b) :: t).lookup k = t.lookup k := by
  have hb : (k == a) = false := by simpa using h
  simp [List.lookup, hb]

theorem lookup_map_update {κ ν : Type} [BEq κ] [LawfulBEq κ] [DecidableEq κ]
    (m : List (κ × ν)) (k nk : κ) (g : ν → ν) :
    (m.map fun e => if e.1 = nk then (e.1, g e.2) else e).lookup k =
      if k = nk then (m.lookup k).map g else m.lookup k := by
  induction m with
  | nil => by_cases h : k = nk <;> simp [h]
  | cons e t ih =>
    obtain ⟨a, b⟩ := e
    simp only [List.map_cons]
    by_cases h1 : a = nk
    · have hhead : (if (a, b).1 = nk then ((a, b).1, g (a, b).2) else (a, b))
          = (a, g b) := by simp [h1]
      rw [hhead]
      by_cases h2 : k = a
      · subst h2
        rw [lookup_cons_self, lookup_cons_self, if_pos h1, Option.map_some']
      · rw [lookup_cons_ne _ _ _ _ h2, ih]
        by_cases h3 : k = nk
        · exact absurd (h3.trans h1.symm) h2
        · rw [if_neg h3, if_neg h3, lookup_cons_ne _ _ _ _ h2]
    · have hhead : (if (a, b).1 = nk then ((a, b).1, g (a, b).2) else (a, b))
          = (a, b) := by simp [h1]
      rw [hhead]
      by_cases h2 : k = a
      · subst h2
        rw [lookup_cons_self, if_neg h1, lookup_cons_self]
      · rw [lookup_cons_ne _ _ _ _ h2, ih]
        by_cases h3 : k = nk
        · rw [if_pos h3, if_pos h3, lookup_cons_ne _ _ _ _ h2]
        · rw [if_neg h3, if_neg h3, lookup_cons_ne _ _ _ _ h2]

theorem lookup_append_single {κ ν : Type} [BEq κ] [LawfulBEq κ]
    [DecidableEq κ] (m : List (κ × ν)) (nk : κ) (v : ν) (k : κ) :
    (m ++ [(nk, v)]).lookup k =
      match m.lookup k with
      | some cs => some cs
      | none => if k = nk then some v else none := by
  induction m with
  | nil =>
    by_cases h : k = nk
    · subst h; simp [lookup_cons_self]
    · simp [lookup_cons_ne _ _ _ _ h, h]
  | cons e t ih =>
    obtain ⟨a, b⟩ := e
    by_cases h2 : k = a
    · subst h2
      rw [List.cons_append, lookup_cons_self, lookup_cons_self]
    · rw [List.cons_append, lookup_cons_ne _ _ _ _ h2, ih,
        lookup_cons_ne _ _ _ _ h2]

/-- `lookup_map_update` specialized to the push performed by `addNearMiss`. -/
theorem lookup_map_push (m : CellMap) (k nk : Int × Int) (x : NearMiss) :
    (m.map fun e => if e.1 = nk then
        (e.1, { e.2 with nearMisses := e.2.nearMisses ++ [x] }) else e).lookup k =
      if k = nk then (m.lookup k).map
        (fun cs => { cs with nearMisses := cs.nearMisses ++ [x] })
      else m.lookup k := by
  exact lookup_map_update m k nk
    (fun cs => { cs with nearMisses := cs.nearMisses ++ [x] })

theorem lookup_addNearMiss (grid : List (List Str)) (mineSet : List Str)
    (m : CellMap) (nm : PosNearMiss) (k : Int × Int) :
    (addNearMiss grid mineSet m nm).lookup k =
      if cellKey nm = k then
        match m.lookup k with
        | some cs => some { cs with nearMisses := cs.nearMisses ++ [nm.nearMiss] }
        | none =>
          some { isWinner := false,
                 isMine := mineSet.contains (toLowerStr (gridGet grid k.1 k.2)),
                 nearMisses := [nm.nearMiss] }
      else m.lookup k := by
  simp only [addNearMiss, cellKey]
  by_cases hs : (m.lookup (nm.pos.row, nm.pos.col)).isSome = true
  · rw [if_pos hs, lookup_map_push]
    by_cases hk : (nm.pos.row, nm.pos.col) = k
    · subst hk
      rw [if_pos rfl, if_pos rfl]
      obtain ⟨cs, hcs⟩ := Option.isSome_iff_exists.mp hs
      rw [hcs]
      rfl
    · rw [if_neg (fun h => hk h.symm), if_neg hk]
  · rw [if_neg hs, lookup_append_single]
    have hn : m.lookup (nm.pos.row, nm.pos.col) = none := by
      cases hx : m.lookup (nm.pos.row, nm.pos.col) with
      | none => rfl
      | some v => rw [hx] at hs; exact absurd rfl hs
    by_cases hk : (nm.pos.row, nm.pos.col) = k
    · subst hk
      rw [hn]
    · rw [if_neg hk]
      cases h : m.lookup k with
      | some cs => rfl
      | none => rw [if_neg (fun hh => hk hh.symm)]

theorem lookup_foldl_addNearMiss (grid : List (List Str)) (mineSet : List Str)
    (ns : List PosNearMiss) (m : CellMap) (k : Int × Int) :
    ((ns.foldl (addNearMiss grid mineSet) m).lookup k) =
      match m.lookup k with
      | some cs => some { cs with nearMisses := cs.nearMisses ++ missesAt ns k }
      | none =>
        if missesAt ns k = [] then none
        else some { isWinner := false,
                    isMine := mineSet.contains (toLowerStr (gridGet grid k.1 k.2)),
                    nearMisses := missesAt ns k } := by
  induction ns generalizing m with
  | nil =>
    cases h : m.lookup k <;> simp [missesAt, h]
  | cons nm rest ih =>
    rw [List.foldl_cons, ih, lookup_addNearMiss]
    by_cases hk : cellKey nm = k
    · rw [if_pos hk]
      cases h : m.lookup k with
      | some cs => simp [missesAt, hk, List.filterMap_cons]
      | none => simp [missesAt, hk, List.filterMap_cons]
    · rw [if_neg hk]
      cases h : m.lookup k <;> simp [missesAt, hk, List.filterMap_cons]

theorem mem_addNearMiss (grid : List (List Str)) (mineSet : List Str)
    (m : CellMap) (nm : PosNearMiss) :
    ∀ e ∈ addNearMiss grid mineSet m nm,
      (∃ cs0, (e.1, cs0) ∈ m ∧ cs0.isWinner = e.2.isWinner ∧
        cs0.isMine = e.2.isMine) ∨
      (e.2.isWinner = false ∧
        e.2.isMine = mineSet.contains (toLowerStr (gridGet grid e.1.1 e.1.2))) := by
  intro e he
  simp only [addNearMiss] at he
  by_cases hs : (m.lookup (nm.pos.row, nm.pos.col)).isSome = true
  · rw [if_pos hs] at he
    obtain ⟨e0, he0, hfe⟩ := List.mem_map.mp he
    left
    by_cases h : e0.1 = (nm.pos.row, nm.pos.col)
    · rw [if_pos h] at hfe
      refine ⟨e0.2, ?_, ?_, ?_⟩ <;> simp [← hfe, he0]
    · rw [if_neg h] at hfe
      exact ⟨e0.2, by simp [← hfe, he0], by rw [← hfe], by rw [← hfe]⟩
  · rw [if_neg hs] at he
    rcases List.mem_append.mp he with h | h
    · exact Or.inl ⟨e.2, h, rfl, rfl⟩
    · simp only [List.mem_singleton] at h
      subst h
      exact Or.inr ⟨rfl, rfl⟩

theorem mem_foldl_addNearMiss (grid : List (List Str)) (mineSet : List Str)
    (ns : List PosNearMiss) :
    ∀ m, ∀ e ∈ ns.foldl (addNearMiss grid mineSet) m,
      (∃ cs0, (e.1, cs0) ∈ m ∧ cs0.isWinner = e.2.isWinner ∧
        cs0.isMine = e.2.isMine) ∨
      (e.2.isWinner = false ∧
        e.2.isMine = mineSet.contains (toLowerStr (gridGet grid e.1.1 e.1.2))) := by
  induction ns with
  | nil =>
    intro m e he
    exact Or.inl ⟨e.2, by simpa using he, rfl, rfl⟩
  | cons nm rest ih =>
    intro m e he
    rw [List.foldl_cons] at he
    rcases ih _ e he with ⟨cs0, hm, hw, hmn⟩ | h
    · rcases mem_addNearMiss grid mineSet m nm (e.1, cs0) hm with
        ⟨cs1, hm1, hw1, hmn1⟩ | h1
      · exact Or.inl ⟨cs1, hm1, by rw [hw1, hw], by rw [hmn1, hmn]⟩
      · exact Or.inr ⟨by rw [← hw, h1.1], by rw [← hmn, h1.2]⟩
    · exact Or.inr h

/-- Every near-miss entry of `checkFullBoard` keys a cell different from
the winner cell (the `≠ winCol` / `≠ winRow` guards). -/
theorem checkFullBoard_nearKeys_ne (qn : QuarterNumbers)
    (topScore leftScore : Int) (topTeam leftTeam : Str) :
    ∀ nm ∈ (checkFullBoard qn topScore leftScore topTeam leftTeam).nearMissPositions,
      cellKey nm ≠
        ((checkFullBoard qn topScore leftScore topTeam leftTeam).winnerPos.row,
         (checkFullBoard qn topScore leftScore topTeam leftTeam).winnerPos.col) := by
  intro nm hnm
  simp only [checkFullBoard, List.mem_append, List.mem_filterMap] at hnm ⊢
  rcases hnm with ⟨pts, -, he⟩ | ⟨pts, -, he⟩ <;>
  · split_ifs at he with hg
    · cases he
      simp only [cellKey, ne_eq, Prod.mk.injEq, not_and]
      intro h1 h2
      first
      | exact hg.2 h2
      | exact hg.2 h1

theorem missesAt_eq_nil (ns : List PosNearMiss) (k : Int × Int)
    (h : ∀ nm ∈ ns, cellKey nm ≠ k) : missesAt ns k = [] := by
  induction ns with
  | nil => rfl
  | cons nm rest ih =>
    simp only [missesAt, List.filterMap_cons,
      if_neg (h nm (by simp)), ih fun x hx => h x (by simp [hx])]
    exact ih fun x hx => h x (by simp [hx])


/-- The full-board status computed inside `getFullBoardCellStatuses` for
one quarter's numbers. -/
def boardResult (board : Board) (state : GameState) (qn : QuarterNumbers) :
    FullBoardStatus :=
  checkFullBoard qn state.score.top state.score.left
    board.config.topTeam board.config.leftTeam

/-- The winner cell's map key (`"winRow,winCol"` in the source). -/
def winnerKey (st : FullBoardStatus) : Int × Int :=
  (st.winnerPos.row, st.winnerPos.col)

/-- Case-insensitive membership of an owner name in the tracked set. -/
def mineHas (fb : FullBoardData) (name : Str) : Bool :=
  (fb.mySquareNames.map toLowerStr).contains (toLowerStr name)

/-- **C7**: shape of the `getFullBoardCellStatuses` map — the winner cell's
key is always present with `isWinner = true` and an empty `nearMisses`
list; every other key holds an entry exactly when some near miss resolves
to it, that entry has `isWinner = false` and lists all near misses of that
cell in order (merging); and every entry's `isMine` is the
case-insensitive membership of that cell's owner name in `mySquareNames`. -/
theorem cellStatuses_map_shape (board : Board) (state : GameState)
    (fb : FullBoardData) (qn : QuarterNumbers) (m : CellMap)
    (hfb : board.fullBoard = some fb)
    (hqn : fb.quarters.get? (quarterIndex board state.quarter) = some qn)
    (hm : getFullBoardCellStatuses board state = some m) :
    (m.lookup (winnerKey (boardResult board state qn)) =
      some { isWinner := true,
             isMine := mineHas fb (gridGet fb.grid
               (boardResult board state qn).winnerPos.row
               (boardResult board state qn).winnerPos.col),
             nearMisses := [] }) ∧
    (∀ k : Int × Int, k ≠ winnerKey (boardResult board state qn) →
      m.lookup k =
        (if missesAt (boardResult board state qn).nearMissPositions k = []
         then none
         else some { isWinner := false,
                     isMine := mineHas fb (gridGet fb.grid k.1 k.2),
                     nearMisses :=
                       missesAt (boardResult board state qn).nearMissPositions
                         k })) ∧
    (∀ e ∈ m, e.1 ≠ winnerKey (boardResult board state qn) →
      e.2.isWinner = false) ∧
    (∀ e ∈ m, e.2.isMine = mineHas fb (gridGet fb.grid e.1.1 e.1.2)) := by
  simp only [getFullBoardCellStatuses, hfb, hqn, Option.map_some',
    Option.some.injEq] at hm
  subst hm
  simp only [boardResult, winnerKey, mineHas] at *
  have hkeys := checkFullBoard_nearKeys_ne qn state.score.top state.score.left
    board.config.topTeam board.config.leftTeam
  refine ⟨?_, ?_, ?_, ?_⟩
  · rw [lookup_foldl_addNearMiss, lookup_cons_self,
      missesAt_eq_nil _ _ hkeys]
    simp
  · intro k hk
    rw [lookup_foldl_addNearMiss,
      lookup_cons_ne _ _ _ _ hk, List.lookup_nil]
  · intro e he hne
    rcases mem_foldl_addNearMiss _ _ _ _ e he with ⟨cs0, hmem, hw, -⟩ | h
    · simp only [List.mem_singleton, Prod.mk.injEq] at hmem
      exact absurd hmem.1 hne
    · exact h.1
  · intro e he
    rcases mem_foldl_addNearMiss _ _ _ _ e he with ⟨cs0, hmem, -, hmn⟩ | h
    · simp only [List.mem_singleton, Prod.mk.injEq] at hmem
      rw [← hmn, hmem.2]
      rw [hmem.1]
    · exact h.2

/-- Witness for C7: a one-cell full board where the winner cell is present
with no near misses. -/
theorem cellStatuses_map_shape_witness :
    (getFullBoardCellStatuses
        { config := { name := ['P'], buyIn := none, cols := 1, rows := 1,
                      reroll := false, topTeam := ['T'], leftTeam := ['L'],
                      payouts := none },
          fullBoard := some ⟨[⟨[[0]], [[0]]⟩], [], []⟩ }
        { quarter := 0, score := { top := 0, left := 0 } } =
      some [(((0 : Int), (0 : Int)),
        { isWinner := true, isMine := false, nearMisses := [] })]) ∧
    (List.lookup ((0 : Int), (0 : Int))
        [(((0 : Int), (0 : Int)),
          ({ isWinner := true, isMine := false, nearMisses := [] } :
            CellStatus))] =
      some { isWinner := true, isMine := false, nearMisses := [] }) := by
  constructor
  · decide
  · have h := (cellStatuses_map_shape
      { config := { name := ['P'], buyIn := none, cols := 1, rows := 1,
                    reroll := false, topTeam := ['T'], leftTeam := ['L'],
                    payouts := none },
        fullBoard := some ⟨[⟨[[0]], [[0]]⟩], [], []⟩ }
      { quarter := 0, score := { top := 0, left := 0 } }
      ⟨[⟨[[0]], [[0]]⟩], [], []⟩ ⟨[[0]], [[0]]⟩
      [(((0 : Int), (0 : Int)),
        { isWinner := true, isMine := false, nearMisses := [] })]
      rfl rfl (by decide)).1
    exact h


-- ── String utilities for the parser (JS regex/string semantics) ───────

/-- JS `\\s` on the ASCII range. -/
def isWS (c : Char) : Bool :=
  c = ' ' || c = '\t' || c = '\n' || c = '\r' || c = '\x0b' || c = '\x0c'

/-- JS `\\w` (ASCII word character). -/
def isWordCh (c : Char) : Bool :=
  c.isAlphanum || c = '_'

/-- Value of a decimal digit character. -/
def digitVal (c : Char) : Nat := c.toNat - '0'.toNat

/-- `String.prototype.trim`. -/
def trimStr (s : Str) : Str :=
  ((s.dropWhile isWS).reverse.dropWhile isWS).reverse

/-- Numeric value of a digit string (`parseInt` on an all-digit token). -/
def natOfDigits (ds : Str) : Nat :=
  ds.foldl (fun n c => n * 10 + digitVal c) 0

/-- Decimal rendering of a natural number (JS number-to-string on the
non-negative integers this grammar carries). -/
def natToStr (n : Nat) : Str := Nat.toDigits 10 n

/-- JS `parseInt` as used on this grammar's integer tokens: optional
sign, then the maximal leading decimal-digit run; `none` (NaN) when that
run is empty.  (`parseInt`'s `0x` hex form cannot occur in the fields the
parser feeds it from this grammar.) -/
def jsParseInt (s : Str) : Option Int :=
  match s with
  | '-' :: t =>
    let ds := t.takeWhile Char.isDigit
    if ds.isEmpty then none else some (-(natOfDigits ds : Int))
  | '+' :: t =>
    let ds := t.takeWhile Char.isDigit
    if ds.isEmpty then none else some ((natOfDigits ds : Int))
  | t =>
    let ds := t.takeWhile Char.isDigit
    if ds.isEmpty then none else some ((natOfDigits ds : Int))

/-- `String.prototype.split(sep)` for a one-character separator. -/
def splitOnChar (sep : Char) : Str → List Str
  | [] => [[]]
  | c :: rest =>
    if c = sep then [] :: splitOnChar sep rest
    else
      match splitOnChar sep rest with
      | [] => [[c]]
      | t :: r => (c :: t) :: r

theorem length_dropWhile_le (p : Char → Bool) (l : List Char) :
    (l.dropWhile p).length ≤ l.length := by
  induction l with
  | nil => simp
  | cons a t ih =>
    rw [List.dropWhile_cons]
    split <;> simp <;> omega

theorem length_takeWhile_le (p : Char → Bool) (l : List Char) :
    (l.takeWhile p).length ≤ l.length := by
  induction l with
  | nil => simp
  | cons a t ih =>
    rw [List.takeWhile_cons]
    split <;> simp <;> omega

/-- Maximal non-whitespace runs of a string (`split(/\\s+/)` on a string
with no leading whitespace produces exactly these); `cur` is the current
word accumulated in reverse. -/
def wordsWSAux (cur : Str) : Str → List Str
  | [] => if cur.isEmpty then [] else [cur.reverse]
  | c :: rest =>
    if isWS c then
      if cur.isEmpty then wordsWSAux [] rest
      else cur.reverse :: wordsWSAux [] rest
    else wordsWSAux (c :: cur) rest

def wordsWS (s : Str) : List Str := wordsWSAux [] s

/-- JS `String.prototype.split(/\\s+/)` on the trimmed strings the parser
feeds it: `[""]` for the empty string, else the maximal non-whitespace
runs. -/
def splitWS (s : Str) : List Str :=
  if s.isEmpty then [[]] else wordsWS s

/-- Case-insensitive literal prefix strip: `pat` is given lowercased;
returns the remainder of `s` after the prefix.  (Models a `/i` regex
literal at the current position.) -/
def stripCI : Str → Str → Option Str
  | [], s => some s
  | _ :: _, [] => none
  | p :: ps, c :: cs => if c.toLower = p then stripCI ps cs else none

/-- Case-insensitive substring test (`/pat/i.test(s)` for a literal). -/
def containsCI (pat : Str) : Str → Bool
  | [] => pat.isEmpty
  | s@(_ :: rest) => (stripCI pat s).isSome || containsCI pat rest

/-- Replace the first occurrence of `sub` (`String.prototype.replace`
with a string pattern). -/
def replaceFirst (sub rep : Str) : Str → Str
  | [] => []
  | c :: rest =>
    if sub.isPrefixOf (c :: rest) then rep ++ (c :: rest).drop sub.length
    else c :: replaceFirst sub rep rest

/-- JS word boundary between a last matched character and the rest. -/
def boundaryAfter (lastChar : Option Char) (rest : Str) : Bool :=
  let a := match lastChar with | some c => isWordCh c | none => false
  let b := match rest with | c :: _ => isWordCh c | [] => false
  a != b

/-- Collapse whitespace runs to single spaces (`replace(/\\s+/g, ' ')`);
`inWS` records whether the previous character was whitespace. -/
def compactWSAux (inWS : Bool) : Str → Str
  | [] => []
  | c :: rest =>
    if isWS c then
      if inWS then compactWSAux true rest
      else ' ' :: compactWSAux true rest
    else c :: compactWSAux false rest

def compactWS (s : Str) : Str := compactWSAux false s


-- ── Header scanners (src: parseHeader's regexes) ──────────────────────

/-- First match of `/\$(\d+)/`: the first `$` immediately followed by a
digit, with the maximal digit run; returns (matched text, digit text). -/
def findDollarNum : Str → Option (Str × Str)
  | [] => none
  | c :: rest =>
    if c = '$' then
      let ds := rest.takeWhile Char.isDigit
      if ds.isEmpty then findDollarNum rest
      else some ('$' :: ds, ds)
    else findDollarNum rest

/-- Match `(5|10)\s*x\s*(5|10)\b` at the start of `s` (the leading `\b`
is the caller's concern); returns (matched text, cols, rows).  The
alternation is decided by the first character, as in the regex engine. -/
def axisTok : Str → Option (Str × Nat × Str)
  | '5' :: rest => some (['5'], 5, rest)
  | '1' :: '0' :: rest => some (['1', '0'], 10, rest)
  | _ => none

theorem axisTok_vals (s : Str) (t : Str) (n : Nat) (r : Str)
    (h : axisTok s = some (t, n, r)) : n = 5 ∨ n = 10 := by
  unfold axisTok at h
  split at h
  · exact Or.inl (by cases h; rfl)
  · exact Or.inr (by cases h; rfl)
  · exact absurd h (by simp)

def matchDimAt (s : Str) : Option (Str × Nat × Nat) :=
  match axisTok s with
  | none => none
  | some (t1, n1, r1) =>
    let ws1 := r1.takeWhile isWS
    let r2 := r1.drop ws1.length
    match r2 with
    | x :: r3 =>
      if x.toLower = 'x' then
        let ws2 := r3.takeWhile isWS
        let r4 := r3.drop ws2.length
        match axisTok r4 with
        | some (t2, n2, r5) =>
          if boundaryAfter (t2.getLast?) r5 then
            some (t1 ++ ws1 ++ [x] ++ ws2 ++ t2, n1, n2)
          else none
        | none => none
      else none
    | [] => none

/-- First match of `/\b(5|10)\s*x\s*(5|10)\b/i`, scanning left to right
with word-boundary tracking. -/
def findDimAux (prevIsWord : Bool) : Str → Option (Str × Nat × Nat)
  | [] => none
  | s@(c :: rest) =>
    if !prevIsWord then
      match matchDimAt s with
      | some r => some r
      | none => findDimAux (isWordCh c) rest
    else findDimAux (isWordCh c) rest

def findDim (s : Str) : Option (Str × Nat × Nat) := findDimAux false s

/-- Match `(25|50|100)\s*squares?\b` at the start of `s`; returns
(matched text, total). -/
def matchSquaresAt (s : Str) : Option (Str × Nat) :=
  let firstTok : Option (Str × Nat × Str) :=
    match s with
    | '2' :: '5' :: rest => some (['2', '5'], 25, rest)
    | '5' :: '0' :: rest => some (['5', '0'], 50, rest)
    | '1' :: '0' :: '0' :: rest => some (['1', '0', '0'], 100, rest)
    | _ => none
  match firstTok with
  | none => none
  | some (t1, n1, r1) =>
    let ws1 := r1.takeWhile isWS
    let r2 := r1.drop ws1.length
    match stripCI "square".data r2 with
    | none => none
    | some r3 =>
      match r3 with
      | c :: r4 =>
        if c.toLower = 's' then
          -- greedy `s?` consumed; if the boundary then fails, the
          -- backtrack (boundary between 'e' and 's') fails too
          if boundaryAfter (some c) r4 then
            some (t1 ++ ws1 ++ (r2.take 6) ++ [c], n1)
          else none
        else
          if boundaryAfter (some 'e') r3 then
            some (t1 ++ ws1 ++ (r2.take 6), n1)
          else none
      | [] => some (t1 ++ ws1 ++ (r2.take 6), n1)

/-- First match of `/\b(25|50|100)\s*squares?\b/i`. -/
def findSquaresAux (prevIsWord : Bool) : Str → Option (Str × Nat)
  | [] => none
  | s@(c :: rest) =>
    if !prevIsWord then
      match matchSquaresAt s with
      | some r => some r
      | none => findSquaresAux (isWordCh c) rest
    else findSquaresAux (isWordCh c) rest

def findSquares (s : Str) : Option (Str × Nat) := findSquaresAux false s

theorem stripCI_length (p : Str) :
    ∀ s r, stripCI p s = some r → r.length + p.length = s.length := by
  induction p with
  | nil =>
    intro s r h
    simp only [stripCI, Option.some.injEq] at h
    subst h
    simp
  | cons p ps ih =>
    intro s r h
    match s with
    | [] => simp [stripCI] at h
    | c :: cs =>
      simp only [stripCI] at h
      split at h
      · have := ih cs r h
        simp only [List.length_cons]
        omega
      · exact absurd h (by simp)

/-- Match `re-?roll\b` at the start of `s`; returns the rest. -/
def matchRerollAt (s : Str) : Option Str :=
  match stripCI "re".data s with
  | none => none
  | some r1 =>
    let r2 := match r1 with
      | '-' :: t => t
      | t => t
    match stripCI "roll".data r2 with
    | none => none
    | some r3 => if boundaryAfter (some 'l') r3 then some r3 else none

theorem matchRerollAt_length (s r : Str) (h : matchRerollAt s = some r) :
    r.length < s.length := by
  unfold matchRerollAt at h
  cases h1 : stripCI "re".data s with
  | none => rw [h1] at h; simp at h
  | some r1 =>
    rw [h1] at h
    dsimp only at h
    have hl1 := stripCI_length _ _ _ h1
    have hre : ("re".data).length = 2 := rfl
    set r2 := (match r1 with | '-' :: t => t | t => t) with hr2def
    have hl2 : r2.length ≤ r1.length := by
      rw [hr2def]
      split
      · simp
      · exact le_refl _
    cases h3 : stripCI "roll".data r2 with
    | none => rw [h3] at h; simp at h
    | some r3 =>
      rw [h3] at h
      dsimp only at h
      have hl3 := stripCI_length _ _ _ h3
      have hroll : ("roll".data).length = 4 := rfl
      split_ifs at h
      have hr : r3 = r := Option.some.inj h
      subst hr
      omega

/-- `/\bre-?roll\b/i.test` — scan with word-boundary tracking. -/
def testReroll (prevIsWord : Bool) : Str → Bool
  | [] => false
  | s@(c :: rest) =>
    (!prevIsWord && (matchRerollAt s).isSome) || testReroll (isWordCh c) rest

/-- `replace(/\bre-?roll\b/gi, ' ')`.  After a match the scan resumes
after the matched text; its last character `l` is a word character, so
the boundary state is `true` there.  `fuel` bounds the number of steps
(any `fuel ≥ s.length` computes the full scan, since every step consumes
at least one character). -/
def removeRerollF : Nat → Bool → Str → Str
  | 0, _, s => s
  | _ + 1, _, [] => []
  | fuel + 1, prevIsWord, c :: rest =>
    if !prevIsWord then
      match matchRerollAt (c :: rest) with
      | some r => ' ' :: removeRerollF fuel true r
      | none => c :: removeRerollF fuel (isWordCh c) rest
    else c :: removeRerollF fuel (isWordCh c) rest

def removeReroll (prevIsWord : Bool) (s : Str) : Str :=
  removeRerollF s.length prevIsWord s

/-- Match the lowercased word `w` at the start of `s` followed by a word
boundary; returns the rest. -/
def matchWordCIAt (w : Str) (s : Str) : Option Str :=
  match stripCI w s with
  | none => none
  | some r => if boundaryAfter (w.getLast?) r then some r else none

theorem matchWordCIAt_length (w s r : Str) (hw : w ≠ [])
    (h : matchWordCIAt w s = some r) : r.length < s.length := by
  unfold matchWordCIAt at h
  cases h1 : stripCI w s with
  | none => rw [h1] at h; simp at h
  | some r1 =>
    rw [h1] at h
    dsimp only at h
    have hl1 := stripCI_length _ _ _ h1
    have hwlen : 0 < w.length := List.length_pos.mpr hw
    split_ifs at h
    have hr : r1 = r := Option.some.inj h
    subst hr
    omega

/-- `replace(/\bfull\b/gi, ' ')` (fueled like `removeRerollF`). -/
def removeFullF : Nat → Bool → Str → Str
  | 0, _, s => s
  | _ + 1, _, [] => []
  | fuel + 1, prevIsWord, c :: rest =>
    if !prevIsWord then
      match matchWordCIAt "full".data (c :: rest) with
      | some r => ' ' :: removeFullF fuel true r
      | none => c :: removeFullF fuel (isWordCh c) rest
    else c :: removeFullF fuel (isWordCh c) rest

def removeFull (prevIsWord : Bool) (s : Str) : Str :=
  removeFullF s.length prevIsWord s


-- ── Header (src: parseHeader) ─────────────────────────────────────────

/-- `parseHeader` — extract `$buyIn`, board size (`NxN` or `<n> squares`),
the reroll flag and the `full` keyword from the header line; whatever
remains, whitespace-compacted and trimmed, is the board name (default
`"Board"`).  Matched tokens are replaced by a space via the source's
`replace(matchedText, ' ')` (first-substring-occurrence semantics). -/
def parseHeader (line : Str) : BoardConfig :=
  let rest0 := line
  let buyRes :=
    match findDollarNum rest0 with
    | some (matched, ds) =>
      (some ((natOfDigits ds : Int)), replaceFirst matched [' '] rest0)
    | none => (none, rest0)
  let buyIn := buyRes.1
  let rest1 := buyRes.2
  let dimRes :=
    match findDim rest1 with
    | some (matched, c, r) => (c, r, replaceFirst matched [' '] rest1)
    | none =>
      match findSquares rest1 with
      | some (matched, total) =>
        if total = 25 then (5, 5, replaceFirst matched [' '] rest1)
        else if total = 100 then (10, 10, replaceFirst matched [' '] rest1)
        else (5, 10, replaceFirst matched [' '] rest1)
      | none => (10, 10, rest1)
  let cols := dimRes.1
  let rows := dimRes.2.1
  let rest2 := dimRes.2.2
  let reroll := testReroll false rest2
  let rest3 := removeReroll false rest2
  let rest4 := removeFull false rest3
  let name0 := trimStr (compactWS rest4)
  let name := if name0.isEmpty then "Board".data else name0
  { name := name, buyIn := buyIn, cols := cols, rows := rows,
    reroll := reroll, topTeam := [], leftTeam := [], payouts := none }

-- ── Teams line (src: parseTeamsLine) ──────────────────────────────────

/-- The `\s+vs\.?\s+(.+)` tail of the teams regex at a fixed split point:
mandatory whitespace, `vs` (case-insensitive, optional dot), mandatory
whitespace, then a non-empty remainder (greedy `\s+` backtracks one
whitespace character into `(.+)` when nothing else is left). -/
def dotStrip : Str → Str
  | '.' :: t => t
  | t => t

def vsTail (rest : Str) : Option Str :=
  let ws1 := rest.takeWhile isWS
  if ws1.isEmpty then none
  else
    let r1 := rest.drop ws1.length
    match stripCI "vs".data r1 with
    | none => none
    | some r2 =>
      let afterDot := dotStrip r2
      let run := afterDot.takeWhile isWS
      let r5 := afterDot.drop run.length
      if run.isEmpty then none
      else if !r5.isEmpty then some r5
      else if run.length ≥ 2 then (run.getLast?).map (fun c => [c])
      else none

/-- The lazy split of `/(.+?)\s+vs\.?\s+(.+)/i`: the shortest non-empty
prefix (group 1) after which `vsTail` succeeds.  (A match of the regex at
a later start position implies one at position 0, with the prefix folded
into the lazy group, so group 1 grows from the left end.) -/
def vsSplitAux (t1rev : Str) : Str → Option (Str × Str)
  | [] => none
  | c :: rest =>
    match vsTail rest with
    | some t2 => some ((c :: t1rev).reverse, t2)
    | none => vsSplitAux (c :: t1rev) rest

def vsSplit (line : Str) : Option (Str × Str) := vsSplitAux [] line

/-- Match `\s*\((top|left)\)\s*` at the current position (for the
annotation-stripping `replace(..., '')`). -/
def matchAnnotAt (s : Str) : Option Str :=
  let r1 := s.dropWhile isWS
  match r1 with
  | '(' :: r2 =>
    let afterWord :=
      match stripCI "top".data r2 with
      | some r3 => some r3
      | none => stripCI "left".data r2
    match afterWord with
    | some r3 =>
      match r3 with
      | ')' :: r4 => some (r4.dropWhile isWS)
      | _ => none
    | none => none
  | _ => none

theorem matchAnnotAt_length (s r : Str) (h : matchAnnotAt s = some r) :
    r.length < s.length := by
  unfold matchAnnotAt at h
  dsimp only at h
  have hdw := length_dropWhile_le isWS s
  split at h
  · rename_i r2 heq
    rw [heq] at hdw
    split at h
    · rename_i r3 heq2
      have hr3 : r3.length ≤ r2.length := by
        rcases h1 : stripCI "top".data r2 with - | x <;> rw [h1] at heq2 <;>
          dsimp only at heq2
        · have := stripCI_length _ _ _ heq2
          have hl : ("left".data).length = 4 := rfl
          omega
        · have hx : x = r3 := Option.some.inj heq2
          subst hx
          have := stripCI_length _ _ _ h1
          have ht : ("top".data).length = 3 := rfl
          omega
      split at h
      · rename_i r4
        have hr : r4.dropWhile isWS = r := Option.some.inj h
        have := length_dropWhile_le isWS r4
        subst hr
        simp only [List.length_cons] at hdw hr3
        omega
      · simp at h
    · simp at h
  · simp at h

/-- `replace(/\s*\((top|left)\)\s*/gi, '')` — strip every annotation
(fueled; any `fuel ≥ s.length` computes the full scan). -/
def cleanAnnotsF : Nat → Str → Str
  | 0, s => s
  | _ + 1, [] => []
  | fuel + 1, c :: rest =>
    match matchAnnotAt (c :: rest) with
    | some r => cleanAnnotsF fuel r
    | none => c :: cleanAnnotsF fuel rest

def cleanAnnots (s : Str) : Str := cleanAnnotsF s.length s

/-- `parseTeamsLine` — split on `vs`, read the `(top)`/`(left)`
annotations, strip them, and swap the mapping when the annotations
disagree with positional order.  Returns `(topTeam, leftTeam)`. -/
def parseTeamsLine (line : Str) : Except Str (Str × Str) :=
  match vsSplit line with
  | none =>
    .error ("Expected \"Team1 vs Team2\", got: \"".data ++ line ++ "\"".data)
  | some (g1, g2) =>
    let t1 := trimStr g1
    let t2 := trimStr g2
    let t1Top := containsCI "(top)".data t1
    let t1Left := containsCI "(left)".data t1
    let t2Top := containsCI "(top)".data t2
    let t2Left := containsCI "(left)".data t2
    let c1 := trimStr (cleanAnnots t1)
    let c2 := trimStr (cleanAnnots t2)
    if t1Left || t2Top then .ok (c2, c1)
    else .ok (c1, c2)

-- ── Payouts (src: parsePayoutsLine) ───────────────────────────────────

/-- `\s+(.+)` with greedy backtracking (shared by the payouts and teams
regexes): mandatory whitespace, then a non-empty remainder. -/
def plusThenRest (r : Str) : Option Str :=
  let run := r.takeWhile isWS
  let r5 := r.drop run.length
  if run.isEmpty then none
  else if !r5.isEmpty then some r5
  else if run.length ≥ 2 then (run.getLast?).map (fun c => [c])
  else none

/-- The `(.+)` group of `/^payouts?\s+(.+)/i`, when the line matches. -/
def payoutsTail (line : Str) : Option Str :=
  match stripCI "payout".data line with
  | none => none
  | some r =>
    match r with
    | c :: t =>
      if c.toLower = 's' then
        match plusThenRest t with
        | some g => some g
        | none => plusThenRest (c :: t)
      else plusThenRest (c :: t)
    | [] => none

/-- `parsePayoutsLine` — whitespace-separated `parseInt`s with NaNs
filtered out (`[]` when the line does not match the payouts regex). -/
def parsePayoutsLine (line : Str) : List Int :=
  match payoutsTail line with
  | none => []
  | some content => (splitWS content).filterMap jsParseInt

/-- `/^payouts?\b/i.test` — payouts-line detection. -/
def isPayoutsLine (line : Str) : Bool :=
  match stripCI "payout".data line with
  | none => false
  | some r =>
    match r with
    | [] => true
    | c :: t =>
      if c.toLower = 's' then
        match t with
        | [] => true
        | c2 :: _ => !isWordCh c2
      else !isWordCh c


-- ── Digit groups and my-squares (src: parseDigitGroup etc.) ───────────

instance {ε α : Type} [DecidableEq ε] [DecidableEq α] :
    DecidableEq (Except ε α) := fun x y =>
  match x, y with
  | .ok a, .ok b =>
    if h : a = b then .isTrue (by rw [h]) else .isFalse (by simp [h])
  | .error a, .error b =>
    if h : a = b then .isTrue (by rw [h]) else .isFalse (by simp [h])
  | .ok _, .error _ => .isFalse (by simp)
  | .error _, .ok _ => .isFalse (by simp)

/-- JS `Array.prototype.map` with a callback that may throw (modelled as
`Except`): the first failing element aborts the whole map. -/
def jsMapExcept (f : α → Except ε β) : List α → Except ε (List β)
  | [] => .ok []
  | a :: t => do
    let b ← f a
    let bs ← jsMapExcept f t
    pure (b :: bs)

/-- `parseDigitGroup` — a 1-character digit token gives `[d]`, a
2-character one `[d0, d1]`; anything else is a `FormatError`. -/
def parseDigitGroup (g : Str) : Except Str (List Nat) :=
  match g with
  | [c] =>
    if c.isDigit then .ok [digitVal c]
    else .error ("Invalid digit group \"".data ++ g ++
      "\": expected 1 or 2 digits".data)
  | [c1, c2] =>
    if c1.isDigit && c2.isDigit then .ok [digitVal c1, digitVal c2]
    else .error ("Invalid digit group \"".data ++ g ++
      "\": expected 1 or 2 digits".data)
  | _ =>
    .error ("Invalid digit group \"".data ++ g ++
      "\": expected 1 or 2 digits".data)

/-- Match `,\s*<leftTeam>\b` (case-insensitive literal) at the current
position. -/
def commaTeamTail (leftTeam : Str) (r : Str) : Bool :=
  let ws := r.takeWhile isWS
  let r1 := r.drop ws.length
  match stripCI (toLowerStr leftTeam) r1 with
  | some r2 =>
    let lastC : Option Char :=
      match leftTeam.getLast? with
      | some c => some c
      | none =>
        match ws.getLast? with
        | some c => some c
        | none => some ','
    boundaryAfter lastC r2
  | none => false

def matchCommaTeamAt (leftTeam : Str) (s : Str) : Bool :=
  match s with
  | ',' :: r => commaTeamTail leftTeam r
  | _ => false

/-- Index of the first match of `,\s*<leftTeam>\b`. -/
def findTeamSplitIdx (leftTeam : Str) : Str → Option Nat
  | [] => none
  | s@(_ :: rest) =>
    if matchCommaTeamAt leftTeam s then some 0
    else (findTeamSplitIdx leftTeam rest).map (· + 1)

/-- `findTeamSplitIndex` — the comma separating the two team clauses:
the annotated search first, else the first comma, else a `FormatError`. -/
def findTeamSplitIndex (line : Str) (config : BoardConfig) :
    Except Str Nat :=
  match findTeamSplitIdx config.leftTeam line with
  | some i => .ok i
  | none =>
    match line.findIdx? (fun c => c = ',') with
    | some i => .ok i
    | none =>
      .error ("No comma separator in square line: \"".data ++ line ++
        "\"".data)

/-- `extractDigitGroups` — strip the team-name prefix (`^team\s+`, a
no-op when it does not match), trim, split on whitespace, parse each
token. -/
def stripTeamPrefix (teamName part : Str) : Str :=
  match stripCI (toLowerStr teamName) part with
  | some r =>
    let ws := r.takeWhile isWS
    if ws.isEmpty then part
    else r.drop ws.length
  | none => part

def extractDigitGroups (part : Str) (teamName : Str) :
    Except Str (List (List Nat)) :=
  jsMapExcept parseDigitGroup (splitWS (trimStr (stripTeamPrefix teamName part)))

/-- `parseMySquareLine` — split the line at the team comma, extract each
side's digit groups, and check the per-mode group count (4 for reroll,
1 otherwise). -/
def parseMySquareLine (line : Str) (config : BoardConfig) :
    Except Str MySquare := do
  let comma ← findTeamSplitIndex line config
  let topPart := trimStr (line.take comma)
  let leftPart := trimStr (line.drop (comma + 1))
  let topGroups ← extractDigitGroups topPart config.topTeam
  let leftGroups ← extractDigitGroups leftPart config.leftTeam
  if config.reroll then
    if topGroups.length ≠ 4 ∨ leftGroups.length ≠ 4 then
      .error ("Reroll board needs 4 digit-groups per team. Got top=".data ++
        natToStr topGroups.length ++ ", left=".data ++
        natToStr leftGroups.length ++ " in: \"".data ++ line ++ "\"".data)
    else
      .ok ⟨(List.range 4).map fun q =>
        { topDigits := topGroups.getD q [], leftDigits := leftGroups.getD q [] }⟩
  else
    if topGroups.length ≠ 1 ∨ leftGroups.length ≠ 1 then
      .error ("Non-reroll board needs 1 digit-group per team. Got top=".data ++
        natToStr topGroups.length ++ ", left=".data ++
        natToStr leftGroups.length ++ " in: \"".data ++ line ++ "\"".data)
    else
      .ok ⟨[{ topDigits := topGroups.getD 0 [],
              leftDigits := leftGroups.getD 0 [] }]⟩

/-- `parseMySquaresBlock` — one square per line. -/
def parseMySquaresBlock (lines : List Str) (config : BoardConfig) :
    Except Str (List MySquare) :=
  jsMapExcept (fun l => parseMySquareLine l config) lines

-- ── Full board (src: parseFullBoardBlock etc.) ────────────────────────

/-- `/^top\s/i` on a line. -/
def matchTopWS (s : Str) : Bool :=
  match stripCI "top".data s with
  | some (c :: _) => isWS c
  | _ => false

/-- `/^q[1-4]\s/i` on a line. -/
def matchQnWS (s : Str) : Bool :=
  match s with
  | c :: d :: e :: _ =>
    (c.toLower = 'q' : Bool) && (d = '1' || d = '2' || d = '3' || d = '4')
      && isWS e
  | _ => false

/-- `isFullBoardBlock` — the first body line decides the mode. -/
def isFullBoardBlock (lines : List Str) : Bool :=
  match lines with
  | first :: _ => matchTopWS first || matchQnWS first
  | [] => false

/-- `stripTeamName` — drop everything before the first digit (no-op when
the first digit is at position 0 or there is none). -/
def stripTeamName (s : Str) : Str :=
  match s.findIdx? Char.isDigit with
  | none => s
  | some 0 => s
  | some i => trimStr (s.drop i)

/-- Strip `^(top|left)\s+` (case-insensitive), if present. -/
def stripTopLeftWS (line : Str) : Option Str :=
  let tryWord := fun (w : Str) =>
    match stripCI w line with
    | some r =>
      let ws := r.takeWhile isWS
      if ws.isEmpty then none else some (r.drop ws.length)
    | none => none
  match tryWord "top".data with
  | some r => some r
  | none => tryWord "left".data

/-- Strip `^q[1-4]\s+` (case-insensitive), if present. -/
def stripQnWS (line : Str) : Option Str :=
  match line with
  | c :: d :: r =>
    if (c.toLower = 'q' : Bool) && (d = '1' || d = '2' || d = '3' || d = '4')
    then
      let ws := r.takeWhile isWS
      if ws.isEmpty then none else some (r.drop ws.length)
    else none
  | _ => none

/-- The `\s*,\s*left\s+(.*)` tail of the quarter-line regex at the
current position. -/
def commaLeftTailAt (s : Str) : Option Str :=
  let r1 := s.dropWhile isWS
  match r1 with
  | ',' :: r2 =>
    let r3 := r2.dropWhile isWS
    match stripCI "left".data r3 with
    | some r4 =>
      let run := r4.takeWhile isWS
      if run.isEmpty then none else some (r4.drop run.length)
    | none => none
  | _ => none

/-- The lazy `(.*?)` of `^top\s+(.*?)\s*,\s*left\s+(.*)`: the shortest
(possibly empty) prefix after which `commaLeftTailAt` succeeds. -/
def lazyCommaLeft (acc : Str) : Str → Option (Str × Str)
  | [] => none
  | c :: rest =>
    match commaLeftTailAt (c :: rest) with
    | some g2 => some (acc.reverse, g2)
    | none => lazyCommaLeft (c :: acc) rest

/-- Anchored match of `^top\s+(.*?)\s*,\s*left\s+(.*)` (case-insensitive);
returns (group 1, group 2). -/
def topLeftSplit (content : Str) : Option (Str × Str) :=
  match stripCI "top".data content with
  | some r =>
    let ws := r.takeWhile isWS
    if ws.isEmpty then none
    else lazyCommaLeft [] (r.drop ws.length)
  | none => none

/-- `parseNumbersLine` — strip the `Top`/`Left` keyword and optional team
name, split into digit groups, check the count against the axis size. -/
def parseNumbersLine (line : Str) (axisSize : Nat) :
    Except Str (List (List Nat)) := do
  let content0 :=
    match stripTopLeftWS line with
    | some r => r
    | none => line
  let content := stripTeamName (trimStr content0)
  let groups ← jsMapExcept parseDigitGroup (splitWS content)
  if groups.length ≠ axisSize then
    .error ("Expected ".data ++ natToStr axisSize ++
      " number groups, got ".data ++ natToStr groups.length ++
      " in: \"".data ++ line ++ "\"".data)
  else .ok groups

/-- `parseQuarterLine` — `Q<n> Top <tokens>, Left <tokens>`; the quarter
label is not cross-checked against the position. -/
def parseQuarterLine (line : Str) (config : BoardConfig) :
    Except Str QuarterNumbers := do
  let content0 :=
    match stripQnWS line with
    | some r => r
    | none => line
  let content := trimStr content0
  match topLeftSplit content with
  | none =>
    .error ("Expected \"Q_ Top ..., Left ...\" format in: \"".data ++
      line ++ "\"".data)
  | some (g1, g2) =>
    let topStr := stripTeamName (trimStr g1)
    let leftStr := stripTeamName (trimStr g2)
    let topNumbers ← jsMapExcept parseDigitGroup (splitWS topStr)
    let leftNumbers ← jsMapExcept parseDigitGroup (splitWS leftStr)
    if topNumbers.length ≠ config.cols then
      .error ("Expected ".data ++ natToStr config.cols ++
        " top numbers, got ".data ++ natToStr topNumbers.length)
    else if leftNumbers.length ≠ config.rows then
      .error ("Expected ".data ++ natToStr config.rows ++
        " left numbers, got ".data ++ natToStr leftNumbers.length)
    else .ok ⟨topNumbers, leftNumbers⟩

/-- `parseGridRow` — prefer the comma split when it yields exactly `cols`
names, fall back to the whitespace split, else a `FormatError`. -/
def parseGridRow (line : Str) (expectedCols : Nat) :
    Except Str (List Str) :=
  let commaTry : Option (List Str) :=
    if line.contains ',' then
      let names := ((splitOnChar ',' line).map trimStr).filter
        (fun n => !n.isEmpty)
      if names.length = expectedCols then some names else none
    else none
  match commaTry with
  | some names => .ok names
  | none =>
    let names := (splitWS line).filter (fun n => !n.isEmpty)
    if names.length = expectedCols then .ok names
    else
      .error ("Grid row needs ".data ++ natToStr expectedCols ++
        " names, couldn't parse: \"".data ++ line ++ "\"".data)

/-- The reroll quarter-line loop (`for q in 0..3`), consuming one line
per quarter. -/
def parseQuarterLoop (config : BoardConfig) :
    Nat → List Str → Except Str (List QuarterNumbers × List Str)
  | 0, lines => .ok ([], lines)
  | n + 1, lines =>
    match lines with
    | [] => .error ("Missing Q".data ++ natToStr (4 - n) ++ " line".data)
    | l :: rest => do
      let qn ← parseQuarterLine l config
      let (qs, rest2) ← parseQuarterLoop config n rest
      .ok (qn :: qs, rest2)

/-- The grid-row loop (`for r in 0..rows-1`). -/
def parseGridLoop (cols total : Nat) :
    Nat → List Str → Except Str (List (List Str) × List Str)
  | 0, lines => .ok ([], lines)
  | n + 1, lines =>
    match lines with
    | [] => .error ("Missing grid row ".data ++ natToStr (total - n))
    | l :: rest => do
      let row ← parseGridRow l cols
      let (rows, rest2) ← parseGridLoop cols total n rest
      .ok (row :: rows, rest2)

/-- `/^mine\b/i.test`. -/
def isMineLine (line : Str) : Bool :=
  match stripCI "mine".data line with
  | some r => boundaryAfter (some 'e') r
  | none => false

/-- `replace(/^mine\s+/i, '')` — a no-op when the regex does not match. -/
def stripMineWS (line : Str) : Str :=
  match stripCI "mine".data line with
  | some r =>
    let ws := r.takeWhile isWS
    if ws.isEmpty then line else r.drop ws.length
  | none => line

/-- The optional `Mine <names>` trailer. -/
def parseMineTrailer (lines : List Str) : List Str :=
  match lines with
  | l :: _ =>
    if isMineLine l then
      ((splitOnChar ',' (stripMineWS l)).map trimStr).filter
        (fun n => !n.isEmpty)
    else []
  | [] => []

/-- `parseFullBoardBlock` — quarter numbers (4 `Q<n>` lines when reroll,
else a `Top` and a `Left` line), then `rows` grid lines, then the
optional `Mine` trailer. -/
def parseFullBoardBlock (lines : List Str) (config : BoardConfig) :
    Except Str FullBoardData :=
  (if config.reroll then parseQuarterLoop config 4 lines
   else
     match lines with
     | l1 :: l2 :: rest => do
       let topNums ← parseNumbersLine l1 config.cols
       let leftNums ← parseNumbersLine l2 config.rows
       .ok ([⟨topNums, leftNums⟩], rest)
     | _ => .error "Need Top and Left lines".data) >>= fun (quarters, rest) =>
  (parseGridLoop config.cols config.rows config.rows rest) >>= fun (grid, rest2) =>
  .ok ⟨quarters, grid, parseMineTrailer rest2⟩

-- ── Whole boards (src: parseSingleBoard, parseBoards) ─────────────────

/-- `parseSingleBoard` — header, teams, optional payouts, then the body
in whichever mode `isFullBoardBlock` detects. -/
def parseSingleBoard (block : Str) : Except Str Board := do
  let lines := ((splitOnChar '\n' block).map trimStr).filter
    (fun l => !l.isEmpty && !(l.take 1 = ['#'] : Bool))
  match lines with
  | headerLine :: teamsLine :: rest => do
    let config0 := parseHeader headerLine
    let teams ← parseTeamsLine teamsLine
    let config1 := { config0 with topTeam := teams.1, leftTeam := teams.2 }
    let cr :=
      match rest with
      | l :: rest3 =>
        if isPayoutsLine l then
          ({ config1 with payouts := some (parsePayoutsLine l) }, rest3)
        else (config1, rest)
      | [] => (config1, rest)
    let config2 := cr.1
    let rest2 := cr.2
    if rest2.isEmpty then
      .error "Board must have square data or full board data".data
    else if isFullBoardBlock rest2 then do
      let fb ← parseFullBoardBlock rest2 config2
      .ok { config := config2, fullBoard := some fb, mySquares := none }
    else do
      let sqs ← parseMySquaresBlock rest2 config2
      .ok { config := config2, fullBoard := none, mySquares := some sqs }
  | _ => .error "Board needs at least a header and teams line".data

/-- The tail of the board-separator regex `/\n\s*---\s*\n/` right after
its leading `\n`: greedy `\s*`, the literal `---`, then whitespace up to
and including a final `\n` (the greedy `\s*\n` backtracks to the last
newline of the run).  Returns the text after the match. -/
def sepTailAt (s : Str) : Option Str :=
  let r1 := s.dropWhile isWS
  match r1 with
  | '-' :: '-' :: '-' :: r2 =>
    let wsRun := r2.takeWhile isWS
    let after := r2.drop wsRun.length
    match (wsRun.reverse.findIdx? (fun x => x = '\n')) with
    | some j => some ((wsRun.reverse.take j).reverse ++ after)
    | none => none
  | _ => none

theorem sepTailAt_length (s r : Str) (h : sepTailAt s = some r) :
    r.length < s.length := by
  unfold sepTailAt at h
  dsimp only at h
  have hdw := length_dropWhile_le isWS s
  split at h
  · rename_i r2 heq
    rw [heq] at hdw
    split at h
    · rename_i j hj
      have hr : (((r2.takeWhile isWS).reverse.take j).reverse ++
          r2.drop ((r2.takeWhile isWS).length)) = r := Option.some.inj h
      have hj2 := List.findIdx?_eq_some_iff_findIdx_eq.mp hj
      have hjlt : j < (r2.takeWhile isWS).reverse.length := hj2.1
      have h1 : ((r2.takeWhile isWS).reverse.take j).length ≤ j := by
        simp [List.length_take]
      have h2 := length_takeWhile_le isWS r2
      have h3 : (r2.drop ((r2.takeWhile isWS).length)).length
          = r2.length - (r2.takeWhile isWS).length := by
        simp
      subst hr
      simp only [List.length_append, List.length_reverse,
        List.length_take, List.length_cons] at *
      omega
    · simp at h
  · simp at h

/-- `parseBoards` — split the input on the `---` separator, trim, drop
empty blocks, and parse each block (the first failure aborts the batch).
The separator scan is fueled; any `fuel ≥ s.length` computes it fully. -/
def splitSepF : Nat → Str → Str → List Str
  | 0, acc, s => [(acc.reverse ++ s)]
  | _ + 1, acc, [] => [acc.reverse]
  | fuel + 1, acc, c :: rest =>
    if c = '\n' then
      match sepTailAt rest with
      | some rest2 => acc.reverse :: splitSepF fuel [] rest2
      | none => splitSepF fuel (c :: acc) rest
    else splitSepF fuel (c :: acc) rest

def splitSep (input : Str) : List Str := splitSepF input.length [] input

def parseBoards (input : Str) : Except Str (List Board) :=
  let blocks := ((splitSep input).map trimStr).filter (fun b => !b.isEmpty)
  jsMapExcept parseSingleBoard blocks


-- ── C10: header size default ──────────────────────────────────────────

/-- **C10**: when the header line (after buy-in extraction) matches
neither the `<5|10>x<5|10>` size token nor the `<25|50|100> squares`
shorthand, `parseHeader` does not fail (it is a total function of this
model) and silently defaults the size to 10×10. -/
theorem parseHeader_default_size (line : Str)
    (hd : findDim (match findDollarNum line with
      | some (matched, _) => replaceFirst matched [' '] line
      | none => line) = none)
    (hs : findSquares (match findDollarNum line with
      | some (matched, _) => replaceFirst matched [' '] line
      | none => line) = none) :
    (parseHeader line).cols = 10 ∧ (parseHeader line).rows = 10 := by
  unfold parseHeader
  dsimp only
  cases h0 : findDollarNum line with
  | none =>
    rw [h0] at hd hs
    simp only [h0, hd, hs]
    exact ⟨trivial, trivial⟩
  | some m =>
    obtain ⟨matched, ds⟩ := m
    rw [h0] at hd hs
    simp only [h0, hd, hs]
    exact ⟨trivial, trivial⟩

/-- Witness for C10 at a concrete sizeless header line. -/
theorem parseHeader_default_size_witness :
    (parseHeader "The Office Pool $25".data).cols = 10 ∧
    (parseHeader "The Office Pool $25".data).rows = 10 :=
  parseHeader_default_size _ (by decide) (by decide)

-- ── C9: failure atomicity and rejection ───────────────────────────────

/-- `jsMapExcept` errors exactly when some element errors, with the first
failing element's error. -/
theorem jsMapExcept_error_of_mem (f : α → Except ε β) :
    ∀ (l : List α) (i : Nat) (a : α) (e : ε),
      l.get? i = some a → f a = .error e →
      (∀ j b, j < i → l.get? j = some b → (f b).isOk = true) →
      jsMapExcept f l = .error e := by
  intro l
  induction l with
  | nil => intro i a e h; simp at h
  | cons x t ih =>
    intro i a e hget hfa hok
    match i with
    | 0 =>
      simp only [List.get?_cons_zero, Option.some.injEq] at hget
      subst hget
      simp only [jsMapExcept, hfa]
      rfl
    | n + 1 =>
      simp only [List.get?_cons_succ] at hget
      have hx : (f x).isOk = true := hok 0 x (by omega) rfl
      obtain ⟨bx, hbx⟩ : ∃ b, f x = .ok b := by
        cases hfx : f x with
        | ok b => exact ⟨b, rfl⟩
        | error ex => rw [hfx] at hx; simp [Except.isOk, Except.toBool] at hx
      have ht := ih n a e hget hfa
        (fun j b hj hgj => hok (j + 1) b (by omega) (by simpa using hgj))
      simp only [jsMapExcept, hbx, ht]
      rfl

/-- **C9**: parse-failure atomicity — `parseSingleBoard` returns a whole
`Board` or an error (its `Except` type), and `parseBoards` fails with the
first failing block's error whenever any block fails; in particular a
my-squares line with 2 digit-groups per side on a non-reroll board is
rejected, as is a teams line lacking `vs`. -/
theorem parseBoards_error_propagation :
    (∀ (input : Str) (i : Nat) (blk : Str) (e : Str),
      (((splitSep input).map trimStr).filter (fun b => !b.isEmpty)).get? i
        = some blk →
      parseSingleBoard blk = .error e →
      (∀ j b, j < i →
        (((splitSep input).map trimStr).filter (fun b => !b.isEmpty)).get? j
          = some b →
        (parseSingleBoard b).isOk = true) →
      parseBoards input = .error e) ∧
    (∃ e, parseSingleBoard
      "sq 10x10\nA vs B\nA 1 2, B 3 4".data = .error e) ∧
    (∃ e, parseSingleBoard
      "sq 10x10\nA and B\nA 1, B 3".data = .error e) := by
  refine ⟨?_, ?_, ?_⟩
  · intro input i blk e hget herr hok
    exact jsMapExcept_error_of_mem parseSingleBoard _ i blk e hget herr hok
  · exact ⟨("Non-reroll board needs 1 digit-group per team. " ++
      "Got top=2, left=2 in: \"A 1 2, B 3 4\"").data, by decide⟩
  · exact ⟨("Expected \"Team1 vs Team2\", got: \"A and B\"").data, by decide⟩

/-- Witness for C9: a two-block input whose second block fails makes the
whole batch fail with that block's error. -/
theorem parseBoards_error_propagation_witness :
    (parseBoards "ok 10x10\nA vs B\nA 1, B 3\n---\nbad 10x10\nA vs B\nA 1 2, B 3 4".data).isOk
      = false := by
  have h := parseBoards_error_propagation
  have h2 := h.1 "ok 10x10\nA vs B\nA 1, B 3\n---\nbad 10x10\nA vs B\nA 1 2, B 3 4".data
    1 "bad 10x10\nA vs B\nA 1 2, B 3 4".data
    ("Non-reroll board needs 1 digit-group per team. Got top=2, left=2 in: \"A 1 2, B 3 4\"".data)
    (by decide) (by decide)
    (by
      intro j b hj hget
      interval_cases j
      · have hb : b = "ok 10x10\nA vs B\nA 1, B 3".data := by
          have := hget
          simp only [show (((splitSep
            "ok 10x10\nA vs B\nA 1, B 3\n---\nbad 10x10\nA vs B\nA 1 2, B 3 4".data).map
              trimStr).filter (fun b => !b.isEmpty)).get? 0
            = some "ok 10x10\nA vs B\nA 1, B 3".data from by decide] at this
          exact (Option.some.inj this).symm
        rw [hb]
        decide)
  rw [h2]
  rfl


-- ── C2: parser-output invariants ──────────────────────────────────────

theorem digitVal_lt_10 (c : Char) (h : c.isDigit = true) : digitVal c < 10 := by
  simp only [Char.isDigit, Bool.and_eq_true, decide_eq_true_eq] at h
  obtain ⟨h1, h2⟩ := h
  have h1n : ('0').toNat ≤ c.toNat := h1
  have h2n : c.toNat ≤ ('9').toNat := h2
  unfold digitVal
  have hn : ('9').toNat = 57 := rfl
  have h0 : ('0').toNat = 48 := rfl
  omega

/-- What `parseDigitGroup` actually guarantees about a group: 1 or 2
digits, each in `[0,9]` — without the per-axis size or distinctness of
§3 invariant 2. -/
def digitGroupWeakOk (ds : List Nat) : Prop :=
  (ds.length = 1 ∨ ds.length = 2) ∧ ∀ d ∈ ds, d < 10

instance (ds : List Nat) : Decidable (digitGroupWeakOk ds) := by
  unfold digitGroupWeakOk; infer_instance

/-- §3 invariants with invariant 2 weakened to `digitGroupWeakOk` — the
invariant the parser actually establishes. -/
def mySquaresWeakOk (reroll : Bool) (sqs : List MySquare) : Prop :=
  ∀ sq ∈ sqs,
    quartersLenOk reroll sq.quarters.length ∧
    ∀ qd ∈ sq.quarters,
      digitGroupWeakOk qd.topDigits ∧ digitGroupWeakOk qd.leftDigits

def fullBoardWeakOk (cols rows : Nat) (reroll : Bool)
    (fb : FullBoardData) : Prop :=
  quartersLenOk reroll fb.quarters.length ∧
  (∀ qn ∈ fb.quarters,
    qn.topNumbers.length = cols ∧
    qn.leftNumbers.length = rows ∧
    (∀ g ∈ qn.topNumbers, digitGroupWeakOk g) ∧
    (∀ g ∈ qn.leftNumbers, digitGroupWeakOk g)) ∧
  fb.grid.length = rows ∧
  (∀ row ∈ fb.grid, row.length = cols)

def ParsedInvariant (b : Board) : Prop :=
  (b.config.cols = 5 ∨ b.config.cols = 10) ∧
  (b.config.rows = 5 ∨ b.config.rows = 10) ∧
  optionProp (mySquaresWeakOk b.config.reroll) b.mySquares ∧
  optionProp (fullBoardWeakOk b.config.cols b.config.rows b.config.reroll)
    b.fullBoard ∧
  (b.fullBoard.isSome ↔ b.mySquares = none)

theorem listGetD_mem {α : Type} (l : List α) (i : Nat) (d : α)
    (h : i < l.length) : l.getD i d ∈ l := by
  rw [List.getD_eq_getElem?_getD, List.getElem?_eq_getElem h]
  simp

theorem exceptBind_ok {ε α β : Type} (x : Except ε α) (f : α → Except ε β)
    (b : β) (h : (x >>= f) = .ok b) : ∃ a, x = .ok a ∧ f a = .ok b := by
  cases x with
  | error e => exact absurd h (by simp [Except.bind, Bind.bind])
  | ok a => exact ⟨a, rfl, by simpa [Except.bind, Bind.bind] using h⟩

theorem jsMapExcept_ok_mem {ε α β : Type} (f : α → Except ε β) :
    ∀ (l : List α) (bs : List β), jsMapExcept f l = .ok bs →
      ∀ b ∈ bs, ∃ a ∈ l, f a = .ok b := by
  intro l
  induction l with
  | nil =>
    intro bs h b hb
    simp only [jsMapExcept, Except.ok.injEq] at h
    subst h
    simp at hb
  | cons x t ih =>
    intro bs h b hb
    simp only [jsMapExcept] at h
    obtain ⟨bx, hbx, h2⟩ := exceptBind_ok _ _ _ h
    obtain ⟨bts, hbts, h3⟩ := exceptBind_ok _ _ _ h2
    simp only [pure, Except.pure, Except.ok.injEq] at h3
    subst h3
    rcases List.mem_cons.mp hb with rfl | hmem
    · exact ⟨x, by simp, hbx⟩
    · obtain ⟨a, ha, hfa⟩ := ih bts hbts b hmem
      exact ⟨a, by simp [ha], hfa⟩

theorem parseDigitGroup_ok (g : Str) (ds : List Nat)
    (h : parseDigitGroup g = .ok ds) : digitGroupWeakOk ds := by
  unfold parseDigitGroup at h
  split at h
  · split_ifs at h with hc
    have : [digitVal _] = ds := Except.ok.inj h
    subst this
    exact ⟨Or.inl rfl, by simpa using digitVal_lt_10 _ hc⟩
  · split_ifs at h with hc
    rename_i c1 c2
    have : [digitVal c1, digitVal c2] = ds := Except.ok.inj h
    subst this
    simp only [Bool.and_eq_true] at hc
    refine ⟨Or.inr rfl, ?_⟩
    intro d hd
    rcases List.mem_cons.mp hd with rfl | hd2
    · exact digitVal_lt_10 _ hc.1
    · rcases List.mem_singleton.mp hd2 with rfl
      exact digitVal_lt_10 _ hc.2
  · exact absurd h (by simp)

theorem extractDigitGroups_ok (part teamName : Str) (gs : List (List Nat))
    (h : extractDigitGroups part teamName = .ok gs) :
    ∀ g ∈ gs, digitGroupWeakOk g := by
  unfold extractDigitGroups at h
  intro g hg
  obtain ⟨a, -, hfa⟩ := jsMapExcept_ok_mem parseDigitGroup _ gs h g hg
  exact parseDigitGroup_ok _ _ hfa

theorem parseMySquareLine_ok (line : Str) (config : BoardConfig)
    (sq : MySquare) (h : parseMySquareLine line config = .ok sq) :
    quartersLenOk config.reroll sq.quarters.length ∧
    ∀ qd ∈ sq.quarters,
      digitGroupWeakOk qd.topDigits ∧ digitGroupWeakOk qd.leftDigits := by
  unfold parseMySquareLine at h
  obtain ⟨comma, -, h⟩ := exceptBind_ok _ _ _ h
  obtain ⟨topGroups, htg, h⟩ := exceptBind_ok _ _ _ h
  obtain ⟨leftGroups, hlg, h⟩ := exceptBind_ok _ _ _ h
  have htw := extractDigitGroups_ok _ _ _ htg
  have hlw := extractDigitGroups_ok _ _ _ hlg
  by_cases hr : config.reroll = true
  · rw [if_pos hr] at h
    split_ifs at h with hlen
    push_neg at hlen
    have hsq : _ = sq := Except.ok.inj h
    subst hsq
    constructor
    · simp [quartersLenOk, hr]
    · intro qd hqd
      simp only [List.mem_map, List.mem_range] at hqd
      obtain ⟨q, hq, rfl⟩ := hqd
      constructor
      · refine htw _ (listGetD_mem _ _ _ ?_)
        omega
      · refine hlw _ (listGetD_mem _ _ _ ?_)
        omega
  · rw [if_neg hr] at h
    split_ifs at h with hlen
    push_neg at hlen
    have hsq : _ = sq := Except.ok.inj h
    subst hsq
    constructor
    · simp [quartersLenOk, hr]
    · intro qd hqd
      rcases List.mem_singleton.mp hqd with rfl
      constructor
      · refine htw _ (listGetD_mem _ _ _ ?_)
        omega
      · refine hlw _ (listGetD_mem _ _ _ ?_)
        omega


theorem matchDimAt_vals (s : Str) (m : Str) (c r : Nat)
    (h : matchDimAt s = some (m, c, r)) :
    (c = 5 ∨ c = 10) ∧ (r = 5 ∨ r = 10) := by
  unfold matchDimAt at h
  split at h
  · exact absurd h (by simp)
  · rename_i t1 n1 r1 h1
    dsimp only at h
    split at h
    · split_ifs at h
      split at h
      · rename_i t2 n2 r5 h2
        split_ifs at h
        have hmk := Option.some.inj h
        rw [Prod.mk.injEq, Prod.mk.injEq] at hmk
        obtain ⟨-, hc, hr⟩ := hmk
        subst hc
        subst hr
        exact ⟨axisTok_vals _ _ _ _ h1, axisTok_vals _ _ _ _ h2⟩
      · exact absurd h (by simp)
    · exact absurd h (by simp)

theorem findDimAux_vals (s : Str) :
    ∀ (p : Bool) (m : Str) (c r : Nat),
      findDimAux p s = some (m, c, r) →
      (c = 5 ∨ c = 10) ∧ (r = 5 ∨ r = 10) := by
  induction s with
  | nil => intro p m c r h; simp [findDimAux] at h
  | cons x rest ih =>
    intro p m c r h
    unfold findDimAux at h
    split_ifs at h
    · split at h
      · rename_i hm
        cases h
        exact matchDimAt_vals _ _ _ _ hm
      · exact ih _ _ _ _ h
    · exact ih _ _ _ _ h

/-- `parseHeader` only ever produces axis sizes in `{5, 10}` (§3
invariant 1). -/
theorem parseHeader_axis (line : Str) :
    ((parseHeader line).cols = 5 ∨ (parseHeader line).cols = 10) ∧
    ((parseHeader line).rows = 5 ∨ (parseHeader line).rows = 10) := by
  unfold parseHeader
  dsimp only
  cases h0 : findDollarNum line with
  | none =>
    try dsimp only
    cases h1 : findDim line with
    | some v =>
      obtain ⟨m, c, r⟩ := v
      try dsimp only
      simpa using findDimAux_vals _ _ _ _ _ h1
    | none =>
      try dsimp only
      cases h2 : findSquares line with
      | some v =>
        obtain ⟨m, total⟩ := v
        try dsimp only
        split_ifs <;> simp
      | none => simp
  | some v =>
    obtain ⟨matched, ds⟩ := v
    try dsimp only
    cases h1 : findDim (replaceFirst matched [' '] line) with
    | some v2 =>
      obtain ⟨m, c, r⟩ := v2
      try dsimp only
      simpa using findDimAux_vals _ _ _ _ _ h1
    | none =>
      try dsimp only
      cases h2 : findSquares (replaceFirst matched [' '] line) with
      | some v2 =>
        obtain ⟨m, total⟩ := v2
        try dsimp only
        split_ifs <;> simp
      | none => simp

theorem parseNumbersLine_ok (line : Str) (axisSize : Nat)
    (groups : List (List Nat)) (h : parseNumbersLine line axisSize = .ok groups) :
    groups.length = axisSize ∧ ∀ g ∈ groups, digitGroupWeakOk g := by
  unfold parseNumbersLine at h
  obtain ⟨gs, hgs, h2⟩ := exceptBind_ok _ _ _ h
  split_ifs at h2 with hlen
  have hg : gs = groups := Except.ok.inj h2
  subst hg
  refine ⟨by omega, ?_⟩
  intro g hg2
  obtain ⟨a, -, hfa⟩ := jsMapExcept_ok_mem parseDigitGroup _ _ hgs g hg2
  exact parseDigitGroup_ok _ _ hfa

theorem parseQuarterLine_ok (line : Str) (config : BoardConfig)
    (qn : QuarterNumbers) (h : parseQuarterLine line config = .ok qn) :
    qn.topNumbers.length = config.cols ∧
    qn.leftNumbers.length = config.rows ∧
    (∀ g ∈ qn.topNumbers, digitGroupWeakOk g) ∧
    (∀ g ∈ qn.leftNumbers, digitGroupWeakOk g) := by
  unfold parseQuarterLine at h
  dsimp only at h
  split at h
  · exact absurd h (by simp)
  · rename_i p g1 g2
    obtain ⟨tn, htn, h2⟩ := exceptBind_ok _ _ _ h
    obtain ⟨ln, hln, h3⟩ := exceptBind_ok _ _ _ h2
    split_ifs at h3 with hc hr
    have hq : (⟨tn, ln⟩ : QuarterNumbers) = qn := Except.ok.inj h3
    subst hq
    refine ⟨by simpa using hc, by simpa using hr, ?_, ?_⟩
    · intro g hg
      obtain ⟨a, -, hfa⟩ := jsMapExcept_ok_mem parseDigitGroup _ _ htn g hg
      exact parseDigitGroup_ok _ _ hfa
    · intro g hg
      obtain ⟨a, -, hfa⟩ := jsMapExcept_ok_mem parseDigitGroup _ _ hln g hg
      exact parseDigitGroup_ok _ _ hfa

theorem parseQuarterLoop_ok (config : BoardConfig) :
    ∀ (n : Nat) (lines : List Str) (qs : List QuarterNumbers)
      (rest : List Str),
      parseQuarterLoop config n lines = .ok (qs, rest) →
      qs.length = n ∧
      ∀ qn ∈ qs,
        qn.topNumbers.length = config.cols ∧
        qn.leftNumbers.length = config.rows ∧
        (∀ g ∈ qn.topNumbers, digitGroupWeakOk g) ∧
        (∀ g ∈ qn.leftNumbers, digitGroupWeakOk g) := by
  intro n
  induction n with
  | zero =>
    intro lines qs rest h
    simp only [parseQuarterLoop, Except.ok.injEq, Prod.mk.injEq] at h
    obtain ⟨h1, -⟩ := h
    subst h1
    simp
  | succ k ih =>
    intro lines qs rest h
    unfold parseQuarterLoop at h
    split at h
    · exact absurd h (by simp)
    · rename_i l rest0
      obtain ⟨qn, hqn, h2⟩ := exceptBind_ok _ _ _ h
      obtain ⟨pr, hpr, h3⟩ := exceptBind_ok _ _ _ h2
      obtain ⟨qs0, rest1⟩ := pr
      have hq : (⟨qn :: qs0, rest1⟩ : List QuarterNumbers × List Str)
          = (qs, rest) := Except.ok.inj h3
      rw [Prod.mk.injEq] at hq
      obtain ⟨hq1, -⟩ := hq
      subst hq1
      obtain ⟨hlen, hall⟩ := ih _ _ _ hpr
      refine ⟨by simp [hlen], ?_⟩
      intro q hq2
      rcases List.mem_cons.mp hq2 with rfl | hm
      · exact parseQuarterLine_ok _ _ _ hqn
      · exact hall _ hm

theorem parseGridRow_ok (line : Str) (cols : Nat) (names : List Str)
    (h : parseGridRow line cols = .ok names) : names.length = cols := by
  unfold parseGridRow at h
  dsimp only at h
  split at h
  · rename_i ns hns
    have he : ns = names := Except.ok.inj h
    subst he
    split_ifs at hns with hc hl
    exact (Option.some.inj hns) ▸ hl
  · split_ifs at h with hl
    have he : _ = names := Except.ok.inj h
    subst he
    exact hl

theorem parseGridLoop_ok (cols total : Nat) :
    ∀ (n : Nat) (lines : List Str) (rows : List (List Str))
      (rest : List Str),
      parseGridLoop cols total n lines = .ok (rows, rest) →
      rows.length = n ∧ ∀ row ∈ rows, row.length = cols := by
  intro n
  induction n with
  | zero =>
    intro lines rows rest h
    simp only [parseGridLoop, Except.ok.injEq, Prod.mk.injEq] at h
    obtain ⟨h1, -⟩ := h
    subst h1
    simp
  | succ k ih =>
    intro lines rows rest h
    unfold parseGridLoop at h
    split at h
    · exact absurd h (by simp)
    · rename_i l rest0
      obtain ⟨row, hrow, h2⟩ := exceptBind_ok _ _ _ h
      obtain ⟨pr, hpr, h3⟩ := exceptBind_ok _ _ _ h2
      obtain ⟨rows0, rest1⟩ := pr
      have hq : (⟨row :: rows0, rest1⟩ : List (List Str) × List Str)
          = (rows, rest) := Except.ok.inj h3
      rw [Prod.mk.injEq] at hq
      obtain ⟨hq1, -⟩ := hq
      subst hq1
      obtain ⟨hlen, hall⟩ := ih _ _ _ hpr
      refine ⟨by simp [hlen], ?_⟩
      intro r hr
      rcases List.mem_cons.mp hr with rfl | hm
      · exact parseGridRow_ok _ _ _ hrow
      · exact hall _ hm

theorem parseFullBoardBlock_ok (lines : List Str) (config : BoardConfig)
    (fb : FullBoardData) (h : parseFullBoardBlock lines config = .ok fb) :
    fullBoardWeakOk config.cols config.rows config.reroll fb := by
  unfold parseFullBoardBlock at h
  obtain ⟨pr, hpr, h2⟩ := exceptBind_ok _ _ _ h
  obtain ⟨quarters, rest⟩ := pr
  dsimp only at h2
  obtain ⟨pr2, hpr2, h3⟩ := exceptBind_ok _ _ _ h2
  obtain ⟨grid, rest2⟩ := pr2
  dsimp only at h3
  have hfb : (⟨quarters, grid, parseMineTrailer rest2⟩ : FullBoardData) = fb :=
    Except.ok.inj h3
  subst hfb
  obtain ⟨hglen, hgall⟩ := parseGridLoop_ok _ _ _ _ _ _ hpr2
  by_cases hr : config.reroll = true
  · rw [if_pos hr] at hpr
    obtain ⟨hqlen, hqall⟩ := parseQuarterLoop_ok _ _ _ _ _ hpr
    exact ⟨by simp [quartersLenOk, hr, hqlen], hqall, hglen, hgall⟩
  · rw [if_neg hr] at hpr
    split at hpr
    · rename_i l1 l2 rest0
      obtain ⟨tn, htn, hq2⟩ := exceptBind_ok _ _ _ hpr
      obtain ⟨ln, hln, hq3⟩ := exceptBind_ok _ _ _ hq2
      have hq : (⟨[⟨tn, ln⟩], rest0⟩ : List QuarterNumbers × List Str)
          = (quarters, rest) := Except.ok.inj hq3
      rw [Prod.mk.injEq] at hq
      obtain ⟨hq1, -⟩ := hq
      subst hq1
      obtain ⟨htl, htw⟩ := parseNumbersLine_ok _ _ _ htn
      obtain ⟨hll, hlw⟩ := parseNumbersLine_ok _ _ _ hln
      refine ⟨by simp [quartersLenOk, hr], ?_, hglen, hgall⟩
      intro qn hqn
      rcases List.mem_singleton.mp hqn with rfl
      exact ⟨htl, hll, htw, hlw⟩
    · exact absurd hpr (by simp)


theorem parseSingleBoard_tail_ok (config2 : BoardConfig) (rest2 : List Str)
    (b : Board)
    (hc : config2.cols = 5 ∨ config2.cols = 10)
    (hr : config2.rows = 5 ∨ config2.rows = 10)
    (h : (if rest2.isEmpty then
            (.error "Board must have square data or full board data".data :
              Except Str Board)
          else if isFullBoardBlock rest2 then
            (parseFullBoardBlock rest2 config2) >>= fun fb =>
              .ok { config := config2, fullBoard := some fb,
                    mySquares := none }
          else
            (parseMySquaresBlock rest2 config2) >>= fun sqs =>
              .ok { config := config2, fullBoard := none,
                    mySquares := some sqs }) = .ok b) :
    ParsedInvariant b := by
  split_ifs at h with he hfb
  · obtain ⟨fb, hfb2, h2⟩ := exceptBind_ok _ _ _ h
    have hb : ({ config := config2, fullBoard := some fb,
                 mySquares := none } : Board) = b := Except.ok.inj h2
    subst hb
    exact ⟨hc, hr, trivial, parseFullBoardBlock_ok _ _ _ hfb2, by simp⟩
  · obtain ⟨sqs, hsqs, h2⟩ := exceptBind_ok _ _ _ h
    have hb : ({ config := config2, fullBoard := none,
                 mySquares := some sqs } : Board) = b := Except.ok.inj h2
    subst hb
    refine ⟨hc, hr, ?_, trivial, by simp⟩
    intro sq hsq
    obtain ⟨line, -, hf⟩ := jsMapExcept_ok_mem _ _ _ hsqs sq hsq
    exact parseMySquareLine_ok _ _ _ hf

theorem parseSingleBoard_ok (block : Str) (b : Board)
    (h : parseSingleBoard block = .ok b) : ParsedInvariant b := by
  unfold parseSingleBoard at h
  dsimp only at h
  split at h
  · rename_i headerLine teamsLine rest heq
    obtain ⟨teams, hteams, h⟩ := exceptBind_ok _ _ _ h
    refine parseSingleBoard_tail_ok _ _ _ ?_ ?_ h
    · split
      · split_ifs
        · exact (parseHeader_axis headerLine).1
        · exact (parseHeader_axis headerLine).1
      · exact (parseHeader_axis headerLine).1
    · split
      · split_ifs
        · exact (parseHeader_axis headerLine).2
        · exact (parseHeader_axis headerLine).2
      · exact (parseHeader_axis headerLine).2
  · exact absurd h (by simp)


/-- C2: amended parser-output invariant.  Every `Board` returned by
`parseBoards` satisfies §3 invariants 1, 3, 4, 5 and 6, and a weakened
invariant 2: every digit-group has 1 or 2 digits, each in `[0,9]`.  The
parser never checks a group's size against the axis size, nor digit
distinctness, so the full §3 invariant 2 can fail on parser output (see
the counterexample). -/
theorem parseBoards_invariants (input : Str) (bs : List Board)
    (h : parseBoards input = .ok bs) : ∀ b ∈ bs, ParsedInvariant b := by
  intro b hb
  unfold parseBoards at h
  obtain ⟨blk, -, hf⟩ := jsMapExcept_ok_mem _ _ _ h b hb
  exact parseSingleBoard_ok _ _ hf

/-- C2 counterexample to the original claim: the input
`"Board 5x5\nA vs B\nA 7, B 3"` parses successfully to a 5x5 board whose
only digit-group on each axis has a single digit, so the board violates
§3 invariant 2 (`ValidBoard` fails): `parseBoards` output need not
satisfy all six §3 invariants. -/
theorem parseBoards_ValidBoard_cex :
    parseBoards "Board 5x5\nA vs B\nA 7, B 3".data =
      .ok [{ config := { name := "Board".data, buyIn := none, cols := 5,
                         rows := 5, reroll := false, topTeam := "A".data,
                         leftTeam := "B".data, payouts := none },
             fullBoard := none,
             mySquares := some [{ quarters := [{ topDigits := [7],
                                                 leftDigits := [3] }] }] }] ∧
    ¬ ValidBoard
      { config := { name := "Board".data, buyIn := none, cols := 5,
                    rows := 5, reroll := false, topTeam := "A".data,
                    leftTeam := "B".data, payouts := none },
        fullBoard := none,
        mySquares := some [{ quarters := [{ topDigits := [7],
                                            leftDigits := [3] }] }] } :=
  ⟨by decide, by decide⟩

/-- Witness for C2 at a concrete input. -/
theorem parseBoards_invariants_witness :
    ParsedInvariant
      { config := { name := "Game".data, buyIn := none, cols := 10,
                    rows := 10, reroll := false, topTeam := "A".data,
                    leftTeam := "B".data, payouts := none },
        fullBoard := none,
        mySquares := some [{ quarters := [{ topDigits := [7],
                                            leftDigits := [3] }] }] } :=
  parseBoards_invariants "Game 10x10\nA vs B\nA 7, B 3".data _ (by decide)
    { config := { name := "Game".data, buyIn := none, cols := 10,
                  rows := 10, reroll := false, topTeam := "A".data,
                  leftTeam := "B".data, payouts := none },
      fullBoard := none,
      mySquares := some [{ quarters := [{ topDigits := [7],
                                          leftDigits := [3] }] }] }
    (List.mem_singleton_self _)


-- ── C8: teams-line annotation override ────────────────────────────────

/-- Input-construction helper for the teams-line property: no
annotation, or a `(top)` / `(left)` annotation attached after a space. -/
def annotText : Option Bool → Str
  | none => []
  | some true => " (top)".data
  | some false => " (left)".data

/-- A plain team name: nonempty, no whitespace, and every character
lowercases to a letter (so it can neither start an annotation nor a
separator match). -/
def goodWord (w : Str) : Prop :=
  w ≠ [] ∧ ∀ c ∈ w, c.toLower.isAlpha = true ∧ isWS c = false

instance (w : Str) : Decidable (goodWord w) := by
  unfold goodWord; infer_instance

theorem vsTail_nonWS (c : Char) (r : Str) (hc : isWS c = false) :
    vsTail (c :: r) = none := by
  unfold vsTail
  simp [List.takeWhile_cons, hc]

theorem vsTail_space_paren (r : Str) : vsTail (' ' :: '(' :: r) = none := by
  unfold vsTail
  dsimp only
  rw [show List.takeWhile isWS (' ' :: '(' :: r) = [' '] from by
    rw [List.takeWhile_cons_of_pos (by decide)]
    rw [List.takeWhile_cons_of_neg (by decide)]]
  rw [show (' ' :: '(' :: r).drop ([' '] : Str).length = '(' :: r from rfl]
  rw [show stripCI "vs".data ('(' :: r) = none from rfl]
  simp

theorem vsTail_sep (c : Char) (u : Str) (hc : isWS c = false) :
    vsTail (' ' :: 'v' :: 's' :: ' ' :: c :: u) = some (c :: u) := by
  unfold vsTail
  dsimp only
  rw [show List.takeWhile isWS (' ' :: 'v' :: 's' :: ' ' :: c :: u) = [' ']
    from by
      rw [List.takeWhile_cons_of_pos (by decide)]
      rw [List.takeWhile_cons_of_neg (by decide)]]
  rw [show (' ' :: 'v' :: 's' :: ' ' :: c :: u).drop ([' '] : Str).length
      = 'v' :: 's' :: ' ' :: c :: u from rfl]
  rw [show stripCI "vs".data ('v' :: 's' :: ' ' :: c :: u)
      = some (' ' :: c :: u) from rfl]
  dsimp only
  rw [show dotStrip (' ' :: c :: u) = ' ' :: c :: u from rfl]
  rw [show List.takeWhile isWS (' ' :: c :: u) = [' '] from by
    rw [List.takeWhile_cons_of_pos (by decide)]
    rw [List.takeWhile_cons_of_neg (by simp [hc])]]
  simp

theorem suffix_append_cases {α : Type} (y a b : List α)
    (h : y <:+ a ++ b) :
    y <:+ b ∨ ∃ w, w ≠ [] ∧ w <:+ a ∧ y = w ++ b := by
  induction a with
  | nil => exact Or.inl (by simpa using h)
  | cons x a ih =>
    rw [List.cons_append] at h
    rcases List.suffix_cons_iff.mp h with rfl | h2
    · exact Or.inr ⟨x :: a, by simp, List.suffix_refl _, by simp⟩
    · rcases ih h2 with h3 | ⟨w, hw1, hw2, hw3⟩
      · exact Or.inl h3
      · exact Or.inr ⟨w, hw1, hw2.trans (List.suffix_cons x a), hw3⟩

theorem vsTail_annot_suffix_none (b : Bool) (y r : Str)
    (hy : y ≠ []) (hs : y <:+ annotText (some b)) :
    vsTail (y ++ r) = none := by
  cases b
  · rcases List.suffix_cons_iff.mp hs with rfl | hs
    · exact vsTail_space_paren _
    rcases List.suffix_cons_iff.mp hs with rfl | hs
    · exact vsTail_nonWS _ _ (by decide)
    rcases List.suffix_cons_iff.mp hs with rfl | hs
    · exact vsTail_nonWS _ _ (by decide)
    rcases List.suffix_cons_iff.mp hs with rfl | hs
    · exact vsTail_nonWS _ _ (by decide)
    rcases List.suffix_cons_iff.mp hs with rfl | hs
    · exact vsTail_nonWS _ _ (by decide)
    rcases List.suffix_cons_iff.mp hs with rfl | hs
    · exact vsTail_nonWS _ _ (by decide)
    rcases List.suffix_cons_iff.mp hs with rfl | hs
    · exact vsTail_nonWS _ _ (by decide)
    · exact absurd (List.suffix_nil.mp hs) hy
  · rcases List.suffix_cons_iff.mp hs with rfl | hs
    · exact vsTail_space_paren _
    rcases List.suffix_cons_iff.mp hs with rfl | hs
    · exact vsTail_nonWS _ _ (by decide)
    rcases List.suffix_cons_iff.mp hs with rfl | hs
    · exact vsTail_nonWS _ _ (by decide)
    rcases List.suffix_cons_iff.mp hs with rfl | hs
    · exact vsTail_nonWS _ _ (by decide)
    rcases List.suffix_cons_iff.mp hs with rfl | hs
    · exact vsTail_nonWS _ _ (by decide)
    rcases List.suffix_cons_iff.mp hs with rfl | hs
    · exact vsTail_nonWS _ _ (by decide)
    · exact absurd (List.suffix_nil.mp hs) hy

theorem vsSplitAux_append (u : Str)
    (hsep : vsTail (" vs ".data ++ u) = some u) :
    ∀ (w acc : Str), w ≠ [] →
      (∀ y, y ≠ [] → y ≠ w → y <:+ w →
        vsTail (y ++ " vs ".data ++ u) = none) →
      vsSplitAux acc (w ++ " vs ".data ++ u) = some (acc.reverse ++ w, u) := by
  intro w
  induction w with
  | nil => intro acc hw _; exact absurd rfl hw
  | cons c w ih =>
    intro acc _ hno
    rw [List.cons_append, List.cons_append]
    cases hw0 : w with
    | nil =>
      subst hw0
      rw [List.nil_append]
      unfold vsSplitAux
      rw [hsep]
      simp
    | cons d w2 =>
      rw [← hw0]
      unfold vsSplitAux
      rw [hno w (by simp [hw0]) (by simp) (List.suffix_cons c w)]
      have hihPre : ∀ y, y ≠ [] → y ≠ w → y <:+ w →
          vsTail (y ++ " vs ".data ++ u) = none := by
        intro y hy1 hy2 hy3
        refine hno y hy1 ?_ (hy3.trans (List.suffix_cons c w))
        intro he
        subst he
        have h4 := hy3.length_le
        simp only [List.length_cons] at h4
        omega
      have hrec := ih (c :: acc) (by simp [hw0]) hihPre
      show vsSplitAux (c :: acc) (w ++ " vs ".data ++ u)
        = some (acc.reverse ++ (c :: w), u)
      rw [hrec]
      simp


theorem dropWhile_eq_self (p : Char → Bool) (w : Str)
    (h : ∀ c, w.head? = some c → p c = false) :
    w.dropWhile p = w := by
  cases w with
  | nil => rfl
  | cons c r =>
    rw [List.dropWhile_cons, h c rfl]
    simp

theorem trimStr_eq_self (w : Str)
    (hh : ∀ c, w.head? = some c → isWS c = false)
    (hl : ∀ c, w.getLast? = some c → isWS c = false) :
    trimStr w = w := by
  unfold trimStr
  rw [dropWhile_eq_self _ _ hh]
  rw [dropWhile_eq_self _ _ (fun c hc =>
    hl c (by rwa [List.head?_reverse] at hc))]
  exact List.reverse_reverse w

theorem stripCI_cons_ne (p0 c : Char) (ps r : Str) (h : c.toLower ≠ p0) :
    stripCI (p0 :: ps) (c :: r) = none := by
  unfold stripCI
  rw [if_neg h]

theorem containsCI_cons (pat : Str) (c : Char) (r : Str) :
    containsCI pat (c :: r) =
      ((stripCI pat (c :: r)).isSome || containsCI pat r) := rfl

theorem containsCI_append_skip (p0 : Char) (ps w u : Str)
    (hw : ∀ c ∈ w, c.toLower ≠ p0) :
    containsCI (p0 :: ps) (w ++ u) = containsCI (p0 :: ps) u := by
  induction w with
  | nil => rfl
  | cons c r ih =>
    rw [List.cons_append, containsCI_cons,
      stripCI_cons_ne p0 c ps _ (hw c (by simp)),
      ih (fun d hd => hw d (by simp [hd]))]
    simp

theorem containsCI_word_annot (p0 : Char) (ps T u : Str)
    (hT : ∀ c ∈ T, c.toLower.isAlpha = true) (hp0 : p0.isAlpha = false) :
    containsCI (p0 :: ps) (T ++ u) = containsCI (p0 :: ps) u :=
  containsCI_append_skip p0 ps T u (fun c hc he => by
    have h2 := hT c hc
    rw [he, hp0] at h2
    exact absurd h2 (by simp))

theorem cleanAnnotsF_nil (fuel : Nat) : cleanAnnotsF fuel [] = [] := by
  cases fuel <;> rfl

theorem cleanAnnotsF_cons (fuel : Nat) (c : Char) (rest : Str) :
    cleanAnnotsF (fuel + 1) (c :: rest) =
      match matchAnnotAt (c :: rest) with
      | some r => cleanAnnotsF fuel r
      | none => c :: cleanAnnotsF fuel rest := rfl

theorem matchAnnotAt_cons_plain (c : Char) (r : Str)
    (h1 : isWS c = false) (h2 : c ≠ '\x28') :
    matchAnnotAt (c :: r) = none := by
  unfold matchAnnotAt
  rw [dropWhile_eq_self _ _ (fun d hd => by
    rw [Option.some.inj hd] at h1; exact h1)]
  dsimp only
  split
  · rename_i r2 heq
    simp only [List.cons.injEq] at heq
    exact absurd heq.1 h2
  · rfl

theorem cleanAnnotsF_congr : ∀ (n : Nat) (s : Str) (f1 f2 : Nat),
    s.length ≤ n → s.length ≤ f1 → s.length ≤ f2 →
    cleanAnnotsF f1 s = cleanAnnotsF f2 s := by
  intro n
  induction n with
  | zero =>
    intro s f1 f2 h1 _ _
    have hs : s = [] := List.eq_nil_of_length_eq_zero (Nat.le_zero.mp h1)
    subst hs
    rw [cleanAnnotsF_nil, cleanAnnotsF_nil]
  | succ k ih =>
    intro s f1 f2 h1 hf1 hf2
    cases s with
    | nil => rw [cleanAnnotsF_nil, cleanAnnotsF_nil]
    | cons c rest =>
      cases f1 with
      | zero => simp at hf1
      | succ g1 =>
        cases f2 with
        | zero => simp at hf2
        | succ g2 =>
          rw [cleanAnnotsF_cons, cleanAnnotsF_cons]
          cases hm : matchAnnotAt (c :: rest) with
          | some r =>
            have hr := matchAnnotAt_length _ _ hm
            simp only [List.length_cons] at h1 hf1 hf2 hr
            exact ih r g1 g2 (by omega) (by omega) (by omega)
          | none =>
            simp only [List.length_cons] at h1 hf1 hf2
            show c :: cleanAnnotsF g1 rest = c :: cleanAnnotsF g2 rest
            rw [ih rest g1 g2 (by omega) (by omega) (by omega)]



theorem cleanAnnotsF_word_keep : ∀ (w u : Str) (fuel : Nat),
    (∀ c ∈ w, isWS c = false ∧ c ≠ '\x28') →
    w.length ≤ fuel →
    cleanAnnotsF fuel (w ++ u) = w ++ cleanAnnotsF (fuel - w.length) u := by
  intro w
  induction w with
  | nil => intro u fuel _ _; simp
  | cons c r ih =>
    intro u fuel hw hlen
    cases fuel with
    | zero => simp at hlen
    | succ g =>
      rw [List.cons_append, cleanAnnotsF_cons]
      rw [matchAnnotAt_cons_plain c _ (hw c (by simp)).1 (hw c (by simp)).2]
      show c :: cleanAnnotsF g (r ++ u)
        = (c :: r) ++ cleanAnnotsF (g + 1 - (c :: r).length) u
      rw [ih u g (fun d hd => hw d (by simp [hd])) (by simpa using hlen)]
      have he : g + 1 - (c :: r).length = g - r.length := by
        simp only [List.length_cons]
        omega
      rw [he, List.cons_append]

theorem cleanAnnotsF_annot (a : Option Bool) (fuel : Nat)
    (hf : (annotText a).length ≤ fuel) :
    cleanAnnotsF fuel (annotText a) = [] := by
  cases a with
  | none => exact cleanAnnotsF_nil fuel
  | some b =>
    cases b
    · cases fuel with
      | zero => simp [annotText] at hf
      | succ g =>
        rw [show annotText (some false) = ' ' :: "(left)".data from rfl]
        rw [cleanAnnotsF_cons]
        rw [show matchAnnotAt (' ' :: "(left)".data) = some [] from by decide]
        exact cleanAnnotsF_nil g
    · cases fuel with
      | zero => simp [annotText] at hf
      | succ g =>
        rw [show annotText (some true) = ' ' :: "(top)".data from rfl]
        rw [cleanAnnotsF_cons]
        rw [show matchAnnotAt (' ' :: "(top)".data) = some [] from by decide]
        exact cleanAnnotsF_nil g

theorem goodWord_not_paren (c : Char) (h : c.toLower.isAlpha = true) :
    c ≠ '\x28' := by
  intro he
  subst he
  exact absurd h (by decide)

/-- `cleanAnnots` on a plain word followed by an optional annotation
returns the bare word. -/
theorem cleanAnnots_word_annot (T : Str) (a : Option Bool)
    (hT : ∀ c ∈ T, c.toLower.isAlpha = true ∧ isWS c = false) :
    cleanAnnots (T ++ annotText a) = T := by
  unfold cleanAnnots
  rw [cleanAnnotsF_word_keep T (annotText a) _
    (fun c hc => ⟨(hT c hc).2, goodWord_not_paren c (hT c hc).1⟩)
    (by simp [List.length_append])]
  rw [show (T ++ annotText a).length - T.length = (annotText a).length from by
    simp [List.length_append]]
  rw [cleanAnnotsF_annot a _ (Nat.le_refl _)]
  simp


theorem trimStr_word_annot (T : Str) (a : Option Bool)
    (hne : T ≠ []) (hT : ∀ c ∈ T, isWS c = false) :
    trimStr (T ++ annotText a) = T ++ annotText a := by
  apply trimStr_eq_self
  · intro c hc
    cases T with
    | nil => exact absurd rfl hne
    | cons d r =>
      rw [List.cons_append] at hc
      simp only [List.head?_cons, Option.some.injEq] at hc
      subst hc
      exact hT d (by simp)
  · intro c hc
    cases a with
    | none =>
      rw [show annotText none = [] from rfl, List.append_nil] at hc
      obtain ⟨hne2, he⟩ := List.mem_getLast?_eq_getLast hc
      rw [he]
      exact hT _ (List.getLast_mem hne2)
    | some b =>
      rw [List.getLast?_append] at hc
      cases b
      · rw [show Option.or (annotText (some false)).getLast? T.getLast?
            = some ')' from rfl] at hc
        rw [← Option.some.inj hc]
        decide
      · rw [show Option.or (annotText (some true)).getLast? T.getLast?
            = some ')' from rfl] at hc
        rw [← Option.some.inj hc]
        decide

theorem vsSplit_teams (T1 T2 : Str) (a1 a2 : Option Bool)
    (h1 : goodWord T1) (h2 : goodWord T2) :
    vsSplit (T1 ++ annotText a1 ++ " vs ".data ++ (T2 ++ annotText a2))
      = some (T1 ++ annotText a1, T2 ++ annotText a2) := by
  obtain ⟨hT1ne, hT1⟩ := h1
  obtain ⟨hT2ne, hT2⟩ := h2
  have hsep : vsTail (" vs ".data ++ (T2 ++ annotText a2))
      = some (T2 ++ annotText a2) := by
    cases T2 with
    | nil => exact absurd rfl hT2ne
    | cons c r =>
      rw [List.cons_append]
      exact vsTail_sep c _ (hT2 c (by simp)).2
  have hno : ∀ y, y ≠ [] → y ≠ T1 ++ annotText a1 →
      y <:+ T1 ++ annotText a1 →
      vsTail (y ++ " vs ".data ++ (T2 ++ annotText a2)) = none := by
    intro y hy1 _ hy3
    rcases suffix_append_cases y T1 (annotText a1) hy3 with
      hs | ⟨w, hw1, hw2, rfl⟩
    · cases a1 with
      | none =>
        rw [show annotText none = [] from rfl] at hs
        exact absurd (List.suffix_nil.mp hs) hy1
      | some b =>
        rw [List.append_assoc]
        exact vsTail_annot_suffix_none b y _ hy1 hs
    · cases w with
      | nil => exact absurd rfl hw1
      | cons c t =>
        rw [List.cons_append, List.cons_append, List.cons_append]
        exact vsTail_nonWS c _ (hT1 c (hw2.subset (by simp))).2
  unfold vsSplit
  have hmain := vsSplitAux_append (T2 ++ annotText a2) hsep
    (T1 ++ annotText a1) []
    (fun h => hT1ne (List.append_eq_nil.mp h).1) hno
  simpa using hmain


/-- C8: teams-line annotation override.  For a teams line
`Team1[annot1] vs Team2[annot2]` (plain team names, each optionally
carrying one ` (top)` / ` (left)` annotation), `parseTeamsLine` assigns
Team1 to `topTeam` and Team2 to `leftTeam` by default, and swaps the
assignment exactly when Team1 carries `(left)` or Team2 carries `(top)`;
the annotations are stripped from the stored names in every case
(`annotText (some true)` is ` (top)`, `annotText (some false)` is
` (left)`, `annotText none` is empty). -/
theorem parseTeamsLine_annotation_override (T1 T2 : Str) (a1 a2 : Option Bool)
    (h1 : goodWord T1) (h2 : goodWord T2) :
    parseTeamsLine (T1 ++ annotText a1 ++ " vs ".data ++ (T2 ++ annotText a2))
      = if a1 = some false ∨ a2 = some true then Except.ok (T2, T1)
        else Except.ok (T1, T2) := by
  obtain ⟨hT1ne, hT1⟩ := h1
  obtain ⟨hT2ne, hT2⟩ := h2
  unfold parseTeamsLine
  rw [vsSplit_teams T1 T2 a1 a2 ⟨hT1ne, hT1⟩ ⟨hT2ne, hT2⟩]
  dsimp only
  rw [trimStr_word_annot T1 a1 hT1ne (fun c hc => (hT1 c hc).2)]
  rw [trimStr_word_annot T2 a2 hT2ne (fun c hc => (hT2 c hc).2)]
  rw [cleanAnnots_word_annot T1 a1 hT1]
  rw [cleanAnnots_word_annot T2 a2 hT2]
  have htrimT1 : trimStr T1 = T1 := by
    have h3 := trimStr_word_annot T1 none hT1ne (fun c hc => (hT1 c hc).2)
    rw [show annotText none = [] from rfl, List.append_nil] at h3
    exact h3
  have htrimT2 : trimStr T2 = T2 := by
    have h3 := trimStr_word_annot T2 none hT2ne (fun c hc => (hT2 c hc).2)
    rw [show annotText none = [] from rfl, List.append_nil] at h3
    exact h3
  rw [htrimT1, htrimT2]
  rw [containsCI_word_annot '\x28' ['l', 'e', 'f', 't', ')'] T1 (annotText a1)
    (fun c hc => (hT1 c hc).1) (by decide)]
  rw [containsCI_word_annot '\x28' ['t', 'o', 'p', ')'] T2 (annotText a2)
    (fun c hc => (hT2 c hc).1) (by decide)]
  rcases a1 with - | b1
  · rcases a2 with - | b2
    · rw [if_neg (by decide), if_neg (by decide)]
    · cases b2
      · rw [if_neg (by decide), if_neg (by decide)]
      · rw [if_pos (by decide), if_pos (by decide)]
  · cases b1
    · rcases a2 with - | b2
      · rw [if_pos (by decide), if_pos (by decide)]
      · cases b2
        · rw [if_pos (by decide), if_pos (by decide)]
        · rw [if_pos (by decide), if_pos (by decide)]
    · rcases a2 with - | b2
      · rw [if_neg (by decide), if_neg (by decide)]
      · cases b2
        · rw [if_neg (by decide), if_neg (by decide)]
        · rw [if_pos (by decide), if_pos (by decide)]

/-- Witness for C8 at concrete inputs: `"Rams (left) vs Bengals"` swaps
(`topTeam = "Bengals"`, `leftTeam = "Rams"`). -/
theorem parseTeamsLine_annotation_override_witness :
    goodWord "Rams".data ∧ goodWord "Bengals".data ∧
    parseTeamsLine ("Rams".data ++ annotText (some false) ++ " vs ".data ++
        ("Bengals".data ++ annotText none))
      = Except.ok ("Bengals".data, "Rams".data) :=
  ⟨by decide, by decide,
    by
      rw [parseTeamsLine_annotation_override "Rams".data "Bengals".data
        (some false) none (by decide) (by decide)]
      rw [if_pos (Or.inl rfl)]⟩


-- ── Serializer (src: core/serializer.ts) ──────────────────────────────

/-- JS `Array.prototype.join(sep)`. -/
def joinSep (sep : Str) : List Str → Str
  | [] => []
  | [l] => l
  | l :: ls => l ++ sep ++ joinSep sep ls

/-- JS number-to-string for the integers this grammar carries. -/
def intToStr (n : Int) : Str :=
  if n < 0 then '-' :: natToStr n.natAbs else natToStr n.toNat

/-- `serializeMySquares` — one line per square: team name, digit
groups, comma, team name, digit groups.  (The source indexes
`sq.quarters[0]` unguarded on non-reroll boards; it is meaningful only
under §3 invariant 3, which every claim about it assumes.) -/
def mySquareLine (config : BoardConfig) (sq : MySquare) : Str :=
  if config.reroll then
    (config.topTeam ++ ' ' ::
      joinSep [' '] (sq.quarters.map (fun q => formatDigits q.topDigits))) ++
    ',' :: ' ' :: (config.leftTeam ++ ' ' ::
      joinSep [' '] (sq.quarters.map (fun q => formatDigits q.leftDigits)))
  else
    let q := sq.quarters.getD 0 ⟨[], []⟩
    (config.topTeam ++ ' ' :: formatDigits q.topDigits) ++
    ',' :: ' ' :: (config.leftTeam ++ ' ' :: formatDigits q.leftDigits)

def serializeMySquares (squares : List MySquare) (config : BoardConfig) :
    List Str :=
  squares.map (mySquareLine config)

/-- `serializeFullBoard` — quarter lines, grid rows, optional Mine. -/
def serializeFullBoard (fb : FullBoardData) (config : BoardConfig) :
    List Str :=
  let qLines :=
    if fb.quarters.length = 1 then
      let qn := fb.quarters.getD 0 ⟨[], []⟩
      ["Top ".data ++ config.topTeam ++ [' '] ++
         joinSep [' '] (qn.topNumbers.map formatDigits),
       "Left ".data ++ config.leftTeam ++ [' '] ++
         joinSep [' '] (qn.leftNumbers.map formatDigits)]
    else
      (List.range fb.quarters.length).map (fun q =>
        let qn := fb.quarters.getD q ⟨[], []⟩
        ['Q'] ++ natToStr (q + 1) ++ " Top ".data ++
          joinSep [' '] (qn.topNumbers.map formatDigits) ++
          ", Left ".data ++ joinSep [' '] (qn.leftNumbers.map formatDigits))
  let gridLines := fb.grid.map (fun row => joinSep [',', ' '] row)
  let mineLines :=
    if fb.mySquareNames.length > 0 then
      ["Mine ".data ++ joinSep [',', ' '] fb.mySquareNames]
    else []
  qLines ++ gridLines ++ mineLines

/-- `serializeBoard` — header, teams, optional payouts, data lines,
joined with newlines. -/
def serializeBoard (board : Board) : Str :=
  let c := board.config
  let header0 := c.name ++
    (match c.buyIn with
     | some n => [' ', '$'] ++ intToStr n
     | none => [])
  let header1 := header0 ++ [' '] ++ natToStr c.cols ++ ['x'] ++
    natToStr c.rows
  let header2 := if c.reroll then header1 ++ " reroll".data else header1
  let header := if board.fullBoard.isSome then header2 ++ " full".data
    else header2
  let teams :=
    if board.fullBoard.isSome then
      c.topTeam ++ " (top) vs ".data ++ c.leftTeam ++ " (left)".data
    else c.topTeam ++ " vs ".data ++ c.leftTeam
  let payoutLines :=
    match c.payouts with
    | some ps =>
      if ps.length > 0 then
        ["Payouts ".data ++ joinSep [' '] (ps.map intToStr)]
      else []
    | none => []
  let dataLines :=
    match board.fullBoard with
    | some fb => serializeFullBoard fb c
    | none =>
      match board.mySquares with
      | some sqs => serializeMySquares sqs c
      | none => []
  joinSep ['\n'] ([header] ++ [teams] ++ payoutLines ++ dataLines)

def serializeBoards (boards : List Board) : Str :=
  joinSep "\n---\n".data (boards.map serializeBoard)


theorem stripCI_toLower_self : ∀ (w rest : Str),
    stripCI (toLowerStr w) (w ++ rest) = some rest := by
  intro w
  induction w with
  | nil => intro rest; rfl
  | cons c t ih =>
    intro rest
    show stripCI (c.toLower :: toLowerStr t) (c :: (t ++ rest)) = some rest
    unfold stripCI
    rw [if_pos rfl]
    exact ih rest

theorem stripCI_some_decomp (pat : Str) : ∀ (s r : Str),
    stripCI pat s = some r → ∃ w, s = w ++ r ∧ toLowerStr w = pat := by
  induction pat with
  | nil =>
    intro s r h
    simp only [stripCI, Option.some.injEq] at h
    exact ⟨[], by simp [h], rfl⟩
  | cons p ps ih =>
    intro s r h
    cases s with
    | nil => simp [stripCI] at h
    | cons c cs =>
      unfold stripCI at h
      split_ifs at h with hc
      obtain ⟨w, hw1, hw2⟩ := ih cs r h
      refine ⟨c :: w, by simp [hw1], ?_⟩
      show c.toLower :: toLowerStr w = p :: ps
      rw [hc, hw2]

theorem splitOnChar_ne_nil (sep : Char) : ∀ (s : Str),
    splitOnChar sep s ≠ [] := by
  intro s
  cases s with
  | nil => simp [splitOnChar]
  | cons c rest =>
    unfold splitOnChar
    split_ifs
    · simp
    · cases h : splitOnChar sep rest <;> simp

theorem splitOnChar_no_sep (sep : Char) : ∀ (s : Str), sep ∉ s →
    splitOnChar sep s = [s] := by
  intro s
  induction s with
  | nil => intro _; rfl
  | cons c rest ih =>
    intro hn
    unfold splitOnChar
    rw [if_neg (fun he => hn (by simp [he]))]
    rw [ih (fun hm => hn (by simp [hm]))]

theorem splitOnChar_append_sep (sep : Char) : ∀ (l rest : Str), sep ∉ l →
    splitOnChar sep (l ++ sep :: rest) = l :: splitOnChar sep rest := by
  intro l
  induction l with
  | nil =>
    intro rest _
    show (if sep = sep then [] :: splitOnChar sep rest
          else match splitOnChar sep rest with
            | [] => [[sep]]
            | t2 :: r => (sep :: t2) :: r)
      = [] :: splitOnChar sep rest
    rw [if_pos rfl]
  | cons c t ih =>
    intro rest hn
    rw [List.cons_append]
    show (if c = sep then [] :: splitOnChar sep (t ++ sep :: rest)
          else match splitOnChar sep (t ++ sep :: rest) with
            | [] => [[c]]
            | t2 :: r => (c :: t2) :: r)
      = (c :: t) :: splitOnChar sep rest
    rw [if_neg (fun he => hn (by simp [he]))]
    rw [ih rest (fun hm => hn (by simp [hm]))]

theorem splitOnChar_join (sep : Char) : ∀ (ls : List Str), ls ≠ [] →
    (∀ l ∈ ls, sep ∉ l) →
    splitOnChar sep (joinSep [sep] ls) = ls := by
  intro ls
  induction ls with
  | nil => intro h _; exact absurd rfl h
  | cons l ls ih =>
    intro _ hl
    cases ls with
    | nil => exact splitOnChar_no_sep sep l (hl l (by simp))
    | cons l2 ls2 =>
      show splitOnChar sep ((l ++ [sep]) ++ joinSep [sep] (l2 :: ls2))
        = l :: l2 :: ls2
      rw [List.append_assoc, List.singleton_append]
      rw [splitOnChar_append_sep sep l _ (hl l (by simp))]
      rw [ih (by simp) (fun x hx => hl x (by simp [hx]))]

theorem wordsWSAux_word : ∀ (tok : Str) (cur rest : Str),
    (∀ c ∈ tok, isWS c = false) →
    wordsWSAux cur (tok ++ rest) = wordsWSAux (tok.reverse ++ cur) rest := by
  intro tok
  induction tok with
  | nil => intro cur rest _; simp
  | cons c t ih =>
    intro cur rest htok
    rw [List.cons_append]
    show (if isWS c then _ else wordsWSAux (c :: cur) (t ++ rest))
      = wordsWSAux ((c :: t).reverse ++ cur) rest
    rw [if_neg (by rw [htok c (by simp)]; simp)]
    rw [ih (c :: cur) rest (fun d hd => htok d (by simp [hd]))]
    simp

theorem wordsWS_join : ∀ (toks : List Str), toks ≠ [] →
    (∀ t ∈ toks, t ≠ [] ∧ ∀ c ∈ t, isWS c = false) →
    wordsWSAux [] (joinSep [' '] toks) = toks := by
  intro toks
  induction toks with
  | nil => intro h _; exact absurd rfl h
  | cons t ts ih =>
    intro _ hl
    cases ts with
    | nil =>
      have h0 := wordsWSAux_word t [] [] (hl t (by simp)).2
      rw [List.append_nil, List.append_nil] at h0
      show wordsWSAux [] t = [t]
      rw [h0]
      show (if t.reverse.isEmpty then [] else [t.reverse.reverse]) = [t]
      rw [if_neg (by simp [(hl t (by simp)).1])]
      simp
    | cons t2 ts2 =>
      show wordsWSAux [] ((t ++ [' ']) ++ joinSep [' '] (t2 :: ts2))
        = t :: t2 :: ts2
      rw [List.append_assoc, List.singleton_append]
      rw [wordsWSAux_word t [] _ (hl t (by simp)).2]
      rw [List.append_nil]
      show (if isWS ' ' then
              if t.reverse.isEmpty then wordsWSAux [] _
              else t.reverse.reverse :: wordsWSAux [] _
            else _) = t :: t2 :: ts2
      rw [if_pos (by decide)]
      rw [if_neg (by simp [(hl t (by simp)).1])]
      rw [ih (by simp) (fun x hx => hl x (by simp [hx]))]
      simp

theorem splitWS_join (toks : List Str) (hne : toks ≠ [])
    (hl : ∀ t ∈ toks, t ≠ [] ∧ ∀ c ∈ t, isWS c = false) :
    splitWS (joinSep [' '] toks) = toks := by
  have hemp : (joinSep [' '] toks).isEmpty = false := by
    cases toks with
    | nil => exact absurd rfl hne
    | cons t ts =>
      have ht := (hl t (by simp)).1
      cases ts with
      | nil =>
        show (t : Str).isEmpty = false
        simp [ht]
      | cons t2 ts2 =>
        show ((t ++ [' ']) ++ joinSep [' '] (t2 :: ts2)).isEmpty = false
        simp [ht]
  unfold splitWS
  rw [hemp, if_neg (show ¬(false = true) by decide)]
  show wordsWSAux [] (joinSep [' '] toks) = toks
  exact wordsWS_join toks hne hl


/-- Team names for the amended round trip: nonempty word-character text
(every character lowercases to a letter and is a JS word character). -/
def TeamName (w : Str) : Prop :=
  w ≠ [] ∧ ∀ c ∈ w, c.toLower.isAlpha = true ∧ isWS c = false ∧
    isWordCh c = true

instance (w : Str) : Decidable (TeamName w) := by
  unfold TeamName; infer_instance

theorem teamChar_ne (c : Char) (h : c.toLower.isAlpha = true) (d : Char)
    (hd : d.toLower.isAlpha = false) : c ≠ d := fun he => by
  subst he
  rw [h] at hd
  exact absurd hd (by simp)

theorem isWS_not_digit (c : Char) (h : isWS c = true) : c.isDigit = false := by
  simp only [isWS, Bool.or_eq_true, decide_eq_true_eq] at h
  rcases h with ((((h | h) | h) | h) | h) | h <;> subst h <;> decide

theorem digit_not_WS (c : Char) (h : c.isDigit = true) : isWS c = false := by
  cases hw : isWS c
  · rfl
  · rw [isWS_not_digit c hw] at h
    exact absurd h (by simp)

theorem toDigits_digit (d : Nat) (h : d < 10) :
    Nat.toDigits 10 d = [Nat.digitChar d] := by
  interval_cases d <;> rfl

theorem digitChar_isDigit (d : Nat) (h : d < 10) :
    (Nat.digitChar d).isDigit = true := by
  interval_cases d <;> decide

theorem digitVal_digitChar (d : Nat) (h : d < 10) :
    digitVal (Nat.digitChar d) = d := by
  interval_cases d <;> decide

theorem formatDigits_one (d : Nat) : formatDigits [d] = Nat.toDigits 10 d := by
  simp [formatDigits]

theorem formatDigits_two (d1 d2 : Nat) :
    formatDigits [d1, d2] = Nat.toDigits 10 d1 ++ Nat.toDigits 10 d2 := by
  simp [formatDigits]

theorem digitGroup_shape (g : List Nat) (h : digitGroupWeakOk g) :
    (∃ d, d < 10 ∧ g = [d]) ∨
    (∃ d1 d2, d1 < 10 ∧ d2 < 10 ∧ g = [d1, d2]) := by
  obtain ⟨hlen, hd⟩ := h
  rcases g with - | ⟨d1, - | ⟨d2, g3⟩⟩
  · rcases hlen with h1 | h1 <;> simp at h1
  · exact Or.inl ⟨d1, hd d1 (by simp), rfl⟩
  · rcases hlen with h1 | h1
    · simp at h1
    · rcases g3 with - | ⟨d3, g4⟩
      · exact Or.inr ⟨d1, d2, hd d1 (by simp), hd d2 (by simp), rfl⟩
      · simp at h1

theorem parseDigitGroup_formatDigits (g : List Nat) (h : digitGroupWeakOk g) :
    parseDigitGroup (formatDigits g) = .ok g := by
  rcases digitGroup_shape g h with ⟨d, hd, rfl⟩ | ⟨d1, d2, hd1, hd2, rfl⟩
  · rw [formatDigits_one, toDigits_digit d hd]
    show (if (Nat.digitChar d).isDigit then
            Except.ok [digitVal (Nat.digitChar d)]
          else Except.error _) = Except.ok [d]
    rw [if_pos (digitChar_isDigit d hd), digitVal_digitChar d hd]
  · rw [formatDigits_two, toDigits_digit d1 hd1, toDigits_digit d2 hd2]
    show (if (Nat.digitChar d1).isDigit && (Nat.digitChar d2).isDigit then
            Except.ok [digitVal (Nat.digitChar d1), digitVal (Nat.digitChar d2)]
          else Except.error _) = Except.ok [d1, d2]
    rw [if_pos (by rw [digitChar_isDigit d1 hd1, digitChar_isDigit d2 hd2]; rfl),
      digitVal_digitChar d1 hd1, digitVal_digitChar d2 hd2]

theorem formatDigits_chars (g : List Nat) (h : digitGroupWeakOk g) :
    formatDigits g ≠ [] ∧ ∀ c ∈ formatDigits g, c.isDigit = true := by
  rcases digitGroup_shape g h with ⟨d, hd, rfl⟩ | ⟨d1, d2, hd1, hd2, rfl⟩
  · rw [formatDigits_one, toDigits_digit d hd]
    refine ⟨by simp, ?_⟩
    intro c hc
    rw [List.mem_singleton.mp hc]
    exact digitChar_isDigit d hd
  · rw [formatDigits_two, toDigits_digit d1 hd1, toDigits_digit d2 hd2]
    refine ⟨by simp, ?_⟩
    intro c hc
    rcases List.mem_append.mp hc with hc1 | hc1
    · rw [List.mem_singleton.mp hc1]
      exact digitChar_isDigit d1 hd1
    · rw [List.mem_singleton.mp hc1]
      exact digitChar_isDigit d2 hd2

theorem jsMapExcept_map {ε α β : Type} (f : β → Except ε α) (g : α → β) :
    ∀ (l : List α), (∀ x ∈ l, f (g x) = .ok x) →
      jsMapExcept f (l.map g) = .ok l := by
  intro l
  induction l with
  | nil => intro _; rfl
  | cons x t ih =>
    intro hl
    show (do
      let b ← f (g x)
      let bs ← jsMapExcept f (t.map g)
      pure (b :: bs)) = Except.ok (x :: t)
    rw [hl x (by simp), ih (fun y hy => hl y (by simp [hy]))]
    rfl

theorem joinSep_head? (sep : Str) (l : Str) (ls : List Str) (h : l ≠ []) :
    (joinSep sep (l :: ls)).head? = l.head? := by
  cases ls with
  | nil => rfl
  | cons l2 ls2 =>
    show ((l ++ sep) ++ joinSep sep (l2 :: ls2)).head? = l.head?
    cases l with
    | nil => exact absurd rfl h
    | cons c t => rfl

theorem joinSep_getLast?_mem (sep : Str) : ∀ (ls : List Str), ls ≠ [] →
    (∀ l ∈ ls, l ≠ []) →
    ∃ l, l ∈ ls ∧ (joinSep sep ls).getLast? = l.getLast? := by
  intro ls
  induction ls with
  | nil => intro h _; exact absurd rfl h
  | cons l ls ih =>
    intro _ hl
    cases ls with
    | nil => exact ⟨l, by simp, rfl⟩
    | cons l2 ls2 =>
      obtain ⟨l3, hm, he⟩ := ih (by simp) (fun x hx => hl x (by simp [hx]))
      refine ⟨l3, by simp [List.mem_cons.mp hm], ?_⟩
      show ((l ++ sep) ++ joinSep sep (l2 :: ls2)).getLast? = l3.getLast?
      rw [List.getLast?_append, he,
        List.getLast?_eq_getLast_of_ne_nil (hl l3 (by simp [List.mem_cons.mp hm]))]
      rfl


theorem digit_ne (c : Char) (h : c.isDigit = true) (d : Char)
    (hd : d.isDigit = false) : c ≠ d := fun he => by
  subst he
  rw [h] at hd
  exact absurd hd (by simp)



theorem matchTopWS_team (T rest : Str) (hT : TeamName T)
    (htop : toLowerStr T ≠ "top".data) :
    matchTopWS (T ++ ' ' :: rest) = false := by
  obtain ⟨hne, hch⟩ := hT
  unfold matchTopWS
  cases hs : stripCI "top".data (T ++ ' ' :: rest) with
  | none => rfl
  | some r =>
    obtain ⟨w, hw1, hw2⟩ := stripCI_some_decomp _ _ _ hs
    have hpre1 : w <+: T ++ ' ' :: rest := ⟨r, hw1.symm⟩
    have hpre2 : T <+: T ++ ' ' :: rest := ⟨' ' :: rest, rfl⟩
    rcases List.prefix_or_prefix_of_prefix hpre1 hpre2 with hp | hp
    · obtain ⟨T2, hT2⟩ := hp
      cases T2 with
      | nil =>
        rw [List.append_nil] at hT2
        exact absurd (hT2 ▸ hw2) htop
      | cons c T3 =>
        rw [← hT2, List.append_assoc] at hw1
        have hr : (c :: T3) ++ ' ' :: rest = r := List.append_cancel_left hw1
        rw [← hr, List.cons_append]
        show isWS c = false
        exact (hch c (by rw [← hT2]; simp)).2.1
    · obtain ⟨w2, hw2e⟩ := hp
      cases w2 with
      | nil =>
        rw [List.append_nil] at hw2e
        exact absurd (hw2e ▸ hw2) htop
      | cons c w3 =>
        rw [← hw2e, List.append_assoc] at hw1
        have hc : ' ' :: rest = (c :: w3) ++ r := List.append_cancel_left hw1
        rw [List.cons_append] at hc
        injection hc with hsp htail
        subst hsp
        have hmem : (' ' : Char) ∈ w := by rw [← hw2e]; simp
        have hmap := List.mem_map_of_mem Char.toLower hmem
        rw [show toLowerStr w = List.map Char.toLower w from rfl] at hw2
        rw [hw2] at hmap
        exact absurd hmap (by decide)

theorem matchQnWS_team (T rest : Str) (hT : TeamName T) :
    matchQnWS (T ++ ' ' :: rest) = false := by
  obtain ⟨hne, hch⟩ := hT
  cases T with
  | nil => exact absurd rfl hne
  | cons a T2 =>
    cases T2 with
    | nil =>
      cases rest with
      | nil => rfl
      | cons e rest2 =>
        show ((a.toLower = 'q' : Bool) &&
          ((' ' = '1' : Bool) || ' ' = '2' || ' ' = '3' || ' ' = '4') &&
          isWS e) = false
        rw [show ((' ' = '1' : Bool) || ' ' = '2' || ' ' = '3' || ' ' = '4')
            = false from by decide]
        simp
    | cons b T3 =>
      have hb := (hch b (by simp)).1
      have h1 : b ≠ '1' := teamChar_ne b hb '1' (by decide)
      have h2 : b ≠ '2' := teamChar_ne b hb '2' (by decide)
      have h3 : b ≠ '3' := teamChar_ne b hb '3' (by decide)
      have h4 : b ≠ '4' := teamChar_ne b hb '4' (by decide)
      cases T3 with
      | nil =>
        show ((a.toLower = 'q' : Bool) &&
          ((b = '1' : Bool) || b = '2' || b = '3' || b = '4') &&
          isWS ' ') = false
        simp [h1, h2, h3, h4]
      | cons c2 T4 =>
        show ((a.toLower = 'q' : Bool) &&
          ((b = '1' : Bool) || b = '2' || b = '3' || b = '4') &&
          isWS c2) = false
        simp [h1, h2, h3, h4]

theorem isPayoutsLine_team (T rest : Str) (hT : TeamName T)
    (h1 : toLowerStr T ≠ "payout".data)
    (h2 : toLowerStr T ≠ "payouts".data) :
    isPayoutsLine (T ++ ' ' :: rest) = false := by
  obtain ⟨hne, hch⟩ := hT
  unfold isPayoutsLine
  cases hs : stripCI "payout".data (T ++ ' ' :: rest) with
  | none => rfl
  | some r =>
    obtain ⟨w, hw1, hw2⟩ := stripCI_some_decomp _ _ _ hs
    have hpre1 : w <+: T ++ ' ' :: rest := ⟨r, hw1.symm⟩
    have hpre2 : T <+: T ++ ' ' :: rest := ⟨' ' :: rest, rfl⟩
    rcases List.prefix_or_prefix_of_prefix hpre1 hpre2 with hp | hp
    · obtain ⟨T2, hT2⟩ := hp
      cases T2 with
      | nil =>
        rw [List.append_nil] at hT2
        exact absurd (hT2 ▸ hw2) h1
      | cons c T3 =>
        rw [← hT2, List.append_assoc] at hw1
        have hr : (c :: T3) ++ ' ' :: rest = r := List.append_cancel_left hw1
        rw [← hr, List.cons_append]
        show (if c.toLower = 's' then
                match T3 ++ ' ' :: rest with
                | [] => true
                | c2 :: _ => !isWordCh c2
              else !isWordCh c) = false
        have hcw : isWordCh c = true := (hch c (by rw [← hT2]; simp)).2.2
        by_cases hcs : c.toLower = 's'
        · rw [if_pos hcs]
          cases T3 with
          | nil =>
            exfalso
            apply h2
            rw [← hT2]
            show toLowerStr (w ++ [c]) = "payouts".data
            rw [show toLowerStr (w ++ [c])
                = List.map Char.toLower w ++ [c.toLower] from by
                  simp [toLowerStr]]
            rw [show List.map Char.toLower w = "payout".data from hw2, hcs]
            rfl
          | cons c2 T4 =>
            show (!isWordCh c2) = false
            rw [(hch c2 (by rw [← hT2]; simp)).2.2]
            rfl
        · rw [if_neg hcs, hcw]
          rfl
    · obtain ⟨w2, hw2e⟩ := hp
      cases w2 with
      | nil =>
        rw [List.append_nil] at hw2e
        exact absurd (hw2e ▸ hw2) h1
      | cons c w3 =>
        rw [← hw2e, List.append_assoc] at hw1
        have hc : ' ' :: rest = (c :: w3) ++ r := List.append_cancel_left hw1
        rw [List.cons_append] at hc
        injection hc with hsp htail
        subst hsp
        have hmem : (' ' : Char) ∈ w := by rw [← hw2e]; simp
        have hmap := List.mem_map_of_mem Char.toLower hmem
        rw [show toLowerStr w = List.map Char.toLower w from rfl] at hw2
        rw [hw2] at hmap
        exact absurd hmap (by decide)

theorem matchCommaTeamAt_nonComma (T2 : Str) (c : Char) (r : Str)
    (hc : c ≠ ',') : matchCommaTeamAt T2 (c :: r) = false := by
  unfold matchCommaTeamAt
  split
  · rename_i r2 heq
    simp only [List.cons.injEq] at heq
    exact absurd heq.1 hc
  · rfl

theorem commaTeamTail_hit (T2 rest : Str) (hT2 : TeamName T2) :
    commaTeamTail T2 (' ' :: (T2 ++ ' ' :: rest)) = true := by
  obtain ⟨hne, hch⟩ := hT2
  unfold commaTeamTail
  dsimp only
  rw [show List.takeWhile isWS (' ' :: (T2 ++ ' ' :: rest)) = [' '] from by
    rw [List.takeWhile_cons_of_pos (by decide)]
    cases T2 with
    | nil => exact absurd rfl hne
    | cons a T2x =>
      rw [List.cons_append,
        List.takeWhile_cons_of_neg (by simp [(hch a (by simp)).2.1])]]
  rw [show List.drop ([' '] : Str).length (' ' :: (T2 ++ ' ' :: rest))
      = T2 ++ ' ' :: rest from rfl]
  rw [stripCI_toLower_self T2 (' ' :: rest)]
  cases hg : T2.getLast? with
  | none => exact absurd (List.getLast?_eq_none.mp hg) hne
  | some z =>
    have hzm : z ∈ T2 := by
      obtain ⟨hx, he⟩ := List.mem_getLast?_eq_getLast
        (show z ∈ T2.getLast? from hg)
      rw [he]
      exact List.getLast_mem hx
    show boundaryAfter _ (' ' :: rest) = true
    unfold boundaryAfter
    dsimp only
    rw [(hch z hzm).2.2]
    rfl

theorem findTeamSplitIdx_append (T2 : Str) : ∀ (P rest : Str),
    (∀ c ∈ P, c ≠ ',') →
    findTeamSplitIdx T2 (P ++ rest)
      = (findTeamSplitIdx T2 rest).map (· + P.length) := by
  intro P
  induction P with
  | nil =>
    intro rest _
    show findTeamSplitIdx T2 rest = _
    cases findTeamSplitIdx T2 rest <;> simp
  | cons c P2 ih =>
    intro rest hP
    rw [List.cons_append]
    show (if matchCommaTeamAt T2 (c :: (P2 ++ rest)) then some 0
          else (findTeamSplitIdx T2 (P2 ++ rest)).map (· + 1))
      = (findTeamSplitIdx T2 rest).map (· + (c :: P2).length)
    rw [matchCommaTeamAt_nonComma T2 c _ (hP c (by simp)),
      if_neg (show ¬(false = true) by decide)]
    rw [ih rest (fun d hd => hP d (by simp [hd]))]
    cases findTeamSplitIdx T2 rest with
    | none => rfl
    | some i => simp [Nat.add_assoc]

theorem findTeamSplitIdx_hit (T2 : Str) (hT2 : TeamName T2) (P D2 : Str)
    (hP : ∀ c ∈ P, c ≠ ',') :
    findTeamSplitIdx T2 (P ++ ',' :: ' ' :: (T2 ++ ' ' :: D2))
      = some P.length := by
  rw [findTeamSplitIdx_append T2 P _ hP]
  show ((if matchCommaTeamAt T2 (',' :: ' ' :: (T2 ++ ' ' :: D2)) then some 0
         else (findTeamSplitIdx T2 (' ' :: (T2 ++ ' ' :: D2))).map
           (· + 1))).map (· + P.length) = some P.length
  rw [show matchCommaTeamAt T2 (',' :: ' ' :: (T2 ++ ' ' :: D2))
      = commaTeamTail T2 (' ' :: (T2 ++ ' ' :: D2)) from rfl]
  rw [commaTeamTail_hit T2 _ hT2, if_pos rfl]
  simp


theorem takeWhile_nil_of_head (p : Char → Bool) (l : Str)
    (h : ∀ c, l.head? = some c → p c = false) : l.takeWhile p = [] := by
  cases l with
  | nil => rfl
  | cons c r =>
    rw [List.takeWhile_cons_of_neg (by simp [h c rfl])]

theorem joinSep_ne_nil (sep : Str) (ls : List Str) (h1 : ls ≠ [])
    (h2 : ∀ l ∈ ls, l ≠ []) : joinSep sep ls ≠ [] := by
  cases ls with
  | nil => exact absurd rfl h1
  | cons t ts =>
    cases ts with
    | nil => exact h2 t (by simp)
    | cons t2 ts2 =>
      show (t ++ sep) ++ joinSep sep (t2 :: ts2) ≠ []
      simp [h2 t (by simp)]

theorem joinSep_space_mem : ∀ (toks : List Str) (c : Char),
    c ∈ joinSep [' '] toks → c = ' ' ∨ ∃ t ∈ toks, c ∈ t := by
  intro toks
  induction toks with
  | nil =>
    intro c hc
    simp [joinSep] at hc
  | cons t ts ih =>
    intro c hc
    cases ts with
    | nil => exact Or.inr ⟨t, by simp, hc⟩
    | cons t2 ts2 =>
      rw [show joinSep [' '] (t :: t2 :: ts2)
          = (t ++ [' ']) ++ joinSep [' '] (t2 :: ts2) from rfl] at hc
      rcases List.mem_append.mp hc with hc1 | hc1
      · rcases List.mem_append.mp hc1 with hc2 | hc2
        · exact Or.inr ⟨t, by simp, hc2⟩
        · exact Or.inl (by simpa using hc2)
      · rcases ih c hc1 with h | ⟨t3, hm, hcm⟩
        · exact Or.inl h
        · exact Or.inr ⟨t3, by simp [hm], hcm⟩

theorem trimStr_cons_space (w : Str) : trimStr (' ' :: w) = trimStr w := by
  unfold trimStr
  rw [List.dropWhile_cons_of_pos (by decide)]

theorem bind_ok {ε α β : Type} (a : α) (f : α → Except ε β) :
    ((Except.ok a : Except ε α) >>= f) = f a := rfl

theorem stripTeamPrefix_hit (T D : Str)
    (hD : ∀ c, D.head? = some c → isWS c = false) :
    stripTeamPrefix T (T ++ ' ' :: D) = D := by
  unfold stripTeamPrefix
  rw [stripCI_toLower_self T _]
  dsimp only
  rw [show List.takeWhile isWS (' ' :: D) = [' '] from by
    rw [List.takeWhile_cons_of_pos (by decide)]
    rw [takeWhile_nil_of_head isWS D hD]]
  rfl

theorem extractDigitGroups_round (T : Str) (groups : List (List Nat))
    (hg : groups ≠ []) (hgw : ∀ g ∈ groups, digitGroupWeakOk g) :
    extractDigitGroups
      (T ++ ' ' :: joinSep [' '] (groups.map formatDigits)) T
      = .ok groups := by
  have htoks : ∀ t ∈ groups.map formatDigits,
      t ≠ [] ∧ ∀ c ∈ t, isWS c = false := by
    intro t ht
    obtain ⟨g, hgmem, rfl⟩ := List.mem_map.mp ht
    obtain ⟨hne, hch⟩ := formatDigits_chars g (hgw g hgmem)
    exact ⟨hne, fun c hc => digit_not_WS c (hch c hc)⟩
  have hmapne : groups.map formatDigits ≠ [] := by
    intro h
    exact hg (List.map_eq_nil.mp h)
  have hDhead : ∀ c,
      (joinSep [' '] (groups.map formatDigits)).head? = some c →
      isWS c = false := by
    intro c hc
    cases hm : groups.map formatDigits with
    | nil => exact absurd hm hmapne
    | cons t ts =>
      rw [hm, joinSep_head? [' '] t ts ((htoks t (by rw [hm]; simp)).1)] at hc
      cases ht0 : t with
      | nil => exact absurd ht0 ((htoks t (by rw [hm]; simp)).1)
      | cons c0 t0 =>
        rw [ht0] at hc
        simp only [List.head?_cons, Option.some.injEq] at hc
        rw [← hc]
        exact (htoks t (by rw [hm]; simp)).2 c0 (by rw [ht0]; simp)
  have hDlast : ∀ c,
      (joinSep [' '] (groups.map formatDigits)).getLast? = some c →
      isWS c = false := by
    intro c hc
    obtain ⟨l, hlm, he⟩ := joinSep_getLast?_mem [' '] _ hmapne
      (fun l hl => (htoks l hl).1)
    rw [he] at hc
    obtain ⟨hx, he2⟩ := List.mem_getLast?_eq_getLast
      (show c ∈ l.getLast? from hc)
    have hcm : c ∈ l := by
      rw [he2]
      exact List.getLast_mem hx
    exact (htoks l hlm).2 c hcm
  unfold extractDigitGroups
  rw [stripTeamPrefix_hit T _ hDhead]
  rw [trimStr_eq_self _ hDhead hDlast]
  rw [splitWS_join _ hmapne htoks]
  exact jsMapExcept_map parseDigitGroup formatDigits groups
    (fun g hgm => parseDigitGroup_formatDigits g (hgw g hgm))


theorem drop_append_succ (P g : Str) :
    (P ++ g).drop (P.length + 1) = g.drop 1 := by
  have h1 : (P ++ g).drop (P.length + 1)
      = ((P ++ g).drop P.length).drop 1 := by
    rw [List.drop_drop, Nat.add_comm]
  rw [h1, List.drop_left]

theorem quarters_eta1 (qs : List QuarterDigits) (h : qs.length = 1) :
    [(⟨(qs.map (fun x => x.topDigits)).getD 0 [],
       (qs.map (fun x => x.leftDigits)).getD 0 []⟩ : QuarterDigits)] = qs := by
  rcases qs with - | ⟨a, qs⟩
  · simp at h
  rcases qs with - | ⟨b, qs⟩
  · rfl
  · simp at h

theorem quarters_eta4 (qs : List QuarterDigits) (h : qs.length = 4) :
    (List.range 4).map (fun q =>
      (⟨(qs.map (fun x => x.topDigits)).getD q [],
        (qs.map (fun x => x.leftDigits)).getD q []⟩ : QuarterDigits)) = qs := by
  rcases qs with - | ⟨a, qs⟩
  · simp at h
  rcases qs with - | ⟨b, qs⟩
  · simp at h
  rcases qs with - | ⟨c, qs⟩
  · simp at h
  rcases qs with - | ⟨d, qs⟩
  · simp at h
  rcases qs with - | ⟨e, qs⟩
  · rfl
  · simp at h



theorem getLast?_append_right (l1 l2 : Str) (h : l2 ≠ []) :
    (l1 ++ l2).getLast? = l2.getLast? := by
  rw [List.getLast?_append, List.getLast?_eq_getLast_of_ne_nil h]
  rfl

theorem teamDigits_head (T : Str) (hT : TeamName T) (rest : Str) :
    ∀ c, (T ++ ' ' :: rest).head? = some c → isWS c = false := by
  intro c hc
  obtain ⟨hne1, hch1⟩ := hT
  cases hc0 : T with
  | nil => exact absurd hc0 hne1
  | cons a T0 =>
    rw [hc0, List.cons_append] at hc
    simp only [List.head?_cons, Option.some.injEq] at hc
    rw [← hc]
    exact (hch1 a (by rw [hc0]; simp)).2.1

theorem teamDigits_last (T : Str) (g0 : List (List Nat))
    (h0 : ∀ g ∈ g0, digitGroupWeakOk g) (hne : g0 ≠ []) :
    ∀ c, (T ++ ' ' :: joinSep [' '] (g0.map formatDigits)).getLast? = some c →
      isWS c = false := by
  intro c hc
  have hmapne : g0.map formatDigits ≠ [] :=
    fun h => hne (List.map_eq_nil.mp h)
  have htoks : ∀ t ∈ g0.map formatDigits, t ≠ [] := by
    intro t ht
    obtain ⟨g, hgm, rfl⟩ := List.mem_map.mp ht
    exact (formatDigits_chars g (h0 g hgm)).1
  rw [getLast?_append_right _ _ (by simp)] at hc
  rw [show (' ' :: joinSep [' '] (g0.map formatDigits)).getLast?
      = ([' '] ++ joinSep [' '] (g0.map formatDigits)).getLast? from rfl] at hc
  rw [getLast?_append_right _ _ (joinSep_ne_nil [' '] _ hmapne htoks)] at hc
  obtain ⟨l, hlm, he⟩ := joinSep_getLast?_mem [' '] _ hmapne htoks
  rw [he] at hc
  obtain ⟨hx, he2⟩ := List.mem_getLast?_eq_getLast
    (show c ∈ l.getLast? from hc)
  have hcm : c ∈ l := by
    rw [he2]
    exact List.getLast_mem hx
  obtain ⟨g, hgm, rfl⟩ := List.mem_map.mp hlm
  exact digit_not_WS c ((formatDigits_chars g (h0 g hgm)).2 c hcm)

/-- `parseMySquareLine` on a serialized square line in canonical form. -/
theorem parseMySquareLine_canon (cfg : BoardConfig)
    (g1 g2 : List (List Nat))
    (hT1 : TeamName cfg.topTeam) (hT2 : TeamName cfg.leftTeam)
    (hg1ne : g1 ≠ []) (hg2ne : g2 ≠ [])
    (h1w : ∀ g ∈ g1, digitGroupWeakOk g) (h2w : ∀ g ∈ g2, digitGroupWeakOk g)
    (hlen : if cfg.reroll then g1.length = 4 ∧ g2.length = 4
            else g1.length = 1 ∧ g2.length = 1) :
    parseMySquareLine
      ((cfg.topTeam ++ ' ' :: joinSep [' '] (g1.map formatDigits)) ++
        ',' :: ' ' ::
        (cfg.leftTeam ++ ' ' :: joinSep [' '] (g2.map formatDigits)))
      cfg
      = .ok ⟨if cfg.reroll then
               (List.range 4).map (fun q => ⟨g1.getD q [], g2.getD q []⟩)
             else [⟨g1.getD 0 [], g2.getD 0 []⟩]⟩ := by
  have hJchars : ∀ (g0 : List (List Nat)), (∀ g ∈ g0, digitGroupWeakOk g) →
      ∀ c ∈ joinSep [' '] (g0.map formatDigits),
        c = ' ' ∨ c.isDigit = true := by
    intro g0 h0 c hc
    rcases joinSep_space_mem _ c hc with h | ⟨t, htm, hct⟩
    · exact Or.inl h
    · obtain ⟨g, hgm, rfl⟩ := List.mem_map.mp htm
      exact Or.inr ((formatDigits_chars g (h0 g hgm)).2 c hct)
  have hPcomma : ∀ c ∈ cfg.topTeam ++ ' ' ::
      joinSep [' '] (g1.map formatDigits), c ≠ ',' := by
    intro c hc
    rcases List.mem_append.mp hc with h | h
    · exact teamChar_ne c ((hT1.2 c h)).1 ',' (by decide)
    · rcases List.mem_cons.mp h with rfl | h2
      · decide
      · rcases hJchars g1 h1w c h2 with rfl | hd
        · decide
        · exact digit_ne c hd ',' (by decide)
  unfold parseMySquareLine
  rw [show findTeamSplitIndex
      ((cfg.topTeam ++ ' ' :: joinSep [' '] (g1.map formatDigits)) ++
        ',' :: ' ' ::
        (cfg.leftTeam ++ ' ' :: joinSep [' '] (g2.map formatDigits)))
      cfg
      = .ok (cfg.topTeam ++ ' ' ::
          joinSep [' '] (g1.map formatDigits)).length from by
    unfold findTeamSplitIndex
    rw [findTeamSplitIdx_hit cfg.leftTeam hT2 _ _ hPcomma]]
  rw [bind_ok]
  dsimp only
  rw [List.take_left, drop_append_succ]
  rw [show ((',' :: ' ' :: (cfg.leftTeam ++ ' ' ::
      joinSep [' '] (g2.map formatDigits))).drop 1)
      = ' ' :: (cfg.leftTeam ++ ' ' :: joinSep [' '] (g2.map formatDigits))
    from rfl]
  rw [trimStr_cons_space]
  rw [trimStr_eq_self _ (teamDigits_head cfg.topTeam hT1 _)
    (teamDigits_last cfg.topTeam g1 h1w hg1ne)]
  rw [trimStr_eq_self _ (teamDigits_head cfg.leftTeam hT2 _)
    (teamDigits_last cfg.leftTeam g2 h2w hg2ne)]
  rw [extractDigitGroups_round cfg.topTeam g1 hg1ne h1w]
  rw [bind_ok]
  try dsimp only
  rw [extractDigitGroups_round cfg.leftTeam g2 hg2ne h2w]
  rw [bind_ok]
  try dsimp only
  by_cases hr : cfg.reroll = true
  · rw [if_pos hr] at hlen
    rw [if_pos hr, if_neg (by simp [hlen.1, hlen.2]), if_pos hr]
  · rw [if_neg hr] at hlen
    rw [if_neg hr, if_neg (by simp [hlen.1, hlen.2]), if_neg hr]


theorem getD_singleton (qs : List QuarterDigits) (h : qs.length = 1) :
    [qs.getD 0 ⟨[], []⟩] = qs := by
  rcases qs with - | ⟨a, qs⟩
  · simp at h
  rcases qs with - | ⟨b, qs⟩
  · rfl
  · simp at h

/-- Round trip for one serialized my-squares line. -/
theorem parseMySquareLine_round (cfg : BoardConfig) (sq : MySquare)
    (hT1 : TeamName cfg.topTeam) (hT2 : TeamName cfg.leftTeam)
    (hq : quartersLenOk cfg.reroll sq.quarters.length)
    (hgw : ∀ qd ∈ sq.quarters,
      digitGroupWeakOk qd.topDigits ∧ digitGroupWeakOk qd.leftDigits) :
    parseMySquareLine (mySquareLine cfg sq) cfg = .ok sq := by
  unfold quartersLenOk at hq
  by_cases hr : cfg.reroll = true
  · have hq4 : sq.quarters.length = 4 := by
      rw [if_pos hr] at hq
      exact hq
    have hqne : sq.quarters ≠ [] := by
      intro h
      rw [h] at hq4
      simp at hq4
    unfold mySquareLine
    rw [if_pos hr]
    rw [show sq.quarters.map (fun q => formatDigits q.topDigits)
        = (sq.quarters.map (fun x => x.topDigits)).map formatDigits from by
      rw [List.map_map]
      rfl]
    rw [show sq.quarters.map (fun q => formatDigits q.leftDigits)
        = (sq.quarters.map (fun x => x.leftDigits)).map formatDigits from by
      rw [List.map_map]
      rfl]
    rw [parseMySquareLine_canon cfg _ _ hT1 hT2
      (fun h => hqne (List.map_eq_nil.mp h))
      (fun h => hqne (List.map_eq_nil.mp h))
      (by
        intro g hg
        obtain ⟨qd, hqd, rfl⟩ := List.mem_map.mp hg
        exact (hgw qd hqd).1)
      (by
        intro g hg
        obtain ⟨qd, hqd, rfl⟩ := List.mem_map.mp hg
        exact (hgw qd hqd).2)
      (by
        rw [if_pos hr]
        constructor <;> simp [hq4])]
    rw [if_pos hr, quarters_eta4 sq.quarters hq4]
  · have hq1 : sq.quarters.length = 1 := by
      rw [if_neg hr] at hq
      exact hq
    have hmem : sq.quarters.getD 0 ⟨[], []⟩ ∈ sq.quarters :=
      listGetD_mem _ 0 _ (by omega)
    unfold mySquareLine
    rw [if_neg hr]
    dsimp only
    rw [show formatDigits (sq.quarters.getD 0 ⟨[], []⟩).topDigits
        = joinSep [' ']
            ([(sq.quarters.getD 0 ⟨[], []⟩).topDigits].map formatDigits)
      from rfl]
    rw [show formatDigits (sq.quarters.getD 0 ⟨[], []⟩).leftDigits
        = joinSep [' ']
            ([(sq.quarters.getD 0 ⟨[], []⟩).leftDigits].map formatDigits)
      from rfl]
    rw [parseMySquareLine_canon cfg _ _ hT1 hT2 (by simp) (by simp)
      (by
        intro g hg
        rw [List.mem_singleton.mp hg]
        exact (hgw _ hmem).1)
      (by
        intro g hg
        rw [List.mem_singleton.mp hg]
        exact (hgw _ hmem).2)
      (by
        rw [if_neg hr]
        constructor <;> rfl)]
    rw [if_neg hr]
    show Except.ok (⟨[sq.quarters.getD 0 ⟨[], []⟩]⟩ : MySquare) = .ok sq
    rw [getD_singleton sq.quarters hq1]


theorem digitGroupOk_weak (axis : Nat) (ds : List Nat)
    (h : digitGroupOk axis ds) : digitGroupWeakOk ds := by
  obtain ⟨h1, h2⟩ := h
  refine ⟨?_, h1⟩
  split_ifs at h2
  · exact Or.inr h2.1
  · exact Or.inl h2

theorem mySquareLine_shape (cfg : BoardConfig) (sq : MySquare)
    (hT2 : TeamName cfg.leftTeam) (hqne : sq.quarters ≠ [])
    (hgw : ∀ qd ∈ sq.quarters, digitGroupWeakOk qd.topDigits ∧
      digitGroupWeakOk qd.leftDigits) :
    ∃ rest, mySquareLine cfg sq = cfg.topTeam ++ ' ' :: rest ∧ rest ≠ [] ∧
      (∀ c ∈ rest, c = ' ' ∨ c = ',' ∨ c.isDigit = true ∨ c ∈ cfg.leftTeam) ∧
      (∀ c, rest.getLast? = some c → isWS c = false) := by
  have hJchars : ∀ (g0 : List (List Nat)), (∀ g ∈ g0, digitGroupWeakOk g) →
      ∀ c ∈ joinSep [' '] (g0.map formatDigits),
        c = ' ' ∨ c.isDigit = true := by
    intro g0 h0 c hc
    rcases joinSep_space_mem _ c hc with h | ⟨t, htm, hct⟩
    · exact Or.inl h
    · obtain ⟨g, hgm, rfl⟩ := List.mem_map.mp htm
      exact Or.inr ((formatDigits_chars g (h0 g hgm)).2 c hct)
  have hj1 : sq.quarters.map (fun q => formatDigits q.topDigits)
      = (sq.quarters.map (fun x => x.topDigits)).map formatDigits := by
    rw [List.map_map]
    rfl
  have hj2 : sq.quarters.map (fun q => formatDigits q.leftDigits)
      = (sq.quarters.map (fun x => x.leftDigits)).map formatDigits := by
    rw [List.map_map]
    rfl
  have h1w : ∀ g ∈ sq.quarters.map (fun x => x.topDigits),
      digitGroupWeakOk g := by
    intro g hg
    obtain ⟨qd, hqd, rfl⟩ := List.mem_map.mp hg
    exact (hgw qd hqd).1
  have h2w : ∀ g ∈ sq.quarters.map (fun x => x.leftDigits),
      digitGroupWeakOk g := by
    intro g hg
    obtain ⟨qd, hqd, rfl⟩ := List.mem_map.mp hg
    exact (hgw qd hqd).2
  by_cases hr : cfg.reroll = true
  · refine ⟨joinSep [' '] (sq.quarters.map (fun q => formatDigits q.topDigits))
      ++ ',' :: ' ' :: (cfg.leftTeam ++ ' ' ::
        joinSep [' '] (sq.quarters.map (fun q => formatDigits q.leftDigits))),
      ?_, ?_, ?_, ?_⟩
    · unfold mySquareLine
      rw [if_pos hr, List.append_assoc, List.cons_append]
    · simp
    · intro c hc
      rcases List.mem_append.mp hc with h | h
      · rw [hj1] at h
        rcases hJchars _ h1w c h with h2 | h2
        · exact Or.inl h2
        · exact Or.inr (Or.inr (Or.inl h2))
      · rcases List.mem_cons.mp h with rfl | h
        · exact Or.inr (Or.inl rfl)
        rcases List.mem_cons.mp h with rfl | h
        · exact Or.inl rfl
        rcases List.mem_append.mp h with h2 | h2
        · exact Or.inr (Or.inr (Or.inr h2))
        · rcases List.mem_cons.mp h2 with rfl | h2
          · exact Or.inl rfl
          · rw [hj2] at h2
            rcases hJchars _ h2w c h2 with h3 | h3
            · exact Or.inl h3
            · exact Or.inr (Or.inr (Or.inl h3))
    · intro c hc
      rw [getLast?_append_right _ _ (by simp)] at hc
      rw [show (',' :: ' ' :: (cfg.leftTeam ++ ' ' ::
          joinSep [' '] (sq.quarters.map (fun q => formatDigits q.leftDigits)))).getLast?
          = ([',', ' '] ++ (cfg.leftTeam ++ ' ' ::
          joinSep [' '] (sq.quarters.map (fun q => formatDigits q.leftDigits)))).getLast?
        from rfl] at hc
      rw [getLast?_append_right _ _ (by
        intro h
        exact hT2.1 (List.append_eq_nil.mp h).1)] at hc
      rw [hj2] at hc
      exact teamDigits_last cfg.leftTeam _ h2w
        (fun h => hqne (List.map_eq_nil.mp h)) c hc
  · have hmem : sq.quarters.getD 0 ⟨[], []⟩ ∈ sq.quarters :=
      listGetD_mem _ 0 _ (List.length_pos.mpr hqne)
    refine ⟨formatDigits (sq.quarters.getD 0 ⟨[], []⟩).topDigits ++
      ',' :: ' ' :: (cfg.leftTeam ++ ' ' ::
        formatDigits (sq.quarters.getD 0 ⟨[], []⟩).leftDigits), ?_, ?_, ?_, ?_⟩
    · unfold mySquareLine
      rw [if_neg hr]
      dsimp only
      rw [List.append_assoc, List.cons_append]
    · simp
    · intro c hc
      rcases List.mem_append.mp hc with h | h
      · exact Or.inr (Or.inr (Or.inl
          ((formatDigits_chars _ (hgw _ hmem).1).2 c h)))
      · rcases List.mem_cons.mp h with rfl | h
        · exact Or.inr (Or.inl rfl)
        rcases List.mem_cons.mp h with rfl | h
        · exact Or.inl rfl
        rcases List.mem_append.mp h with h2 | h2
        · exact Or.inr (Or.inr (Or.inr h2))
        · rcases List.mem_cons.mp h2 with rfl | h2
          · exact Or.inl rfl
          · exact Or.inr (Or.inr (Or.inl
              ((formatDigits_chars _ (hgw _ hmem).2).2 c h2)))
    · intro c hc
      rw [getLast?_append_right _ _ (by simp)] at hc
      rw [show (',' :: ' ' :: (cfg.leftTeam ++ ' ' ::
          formatDigits (sq.quarters.getD 0 ⟨[], []⟩).leftDigits)).getLast?
          = ([',', ' '] ++ (cfg.leftTeam ++ ' ' ::
          formatDigits (sq.quarters.getD 0 ⟨[], []⟩).leftDigits)).getLast?
        from rfl] at hc
      rw [getLast?_append_right _ _ (by
        intro h
        exact hT2.1 (List.append_eq_nil.mp h).1)] at hc
      rw [show formatDigits (sq.quarters.getD 0 ⟨[], []⟩).leftDigits
          = joinSep [' ']
              ([(sq.quarters.getD 0 ⟨[], []⟩).leftDigits].map formatDigits)
        from rfl] at hc
      exact teamDigits_last cfg.leftTeam _ (by
          intro g hg
          rw [List.mem_singleton.mp hg]
          exact (hgw _ hmem).2)
        (by simp) c hc


theorem sepTailAt_head_none (t : Str) (c : Char) (h : t.head? = some c)
    (h1 : isWS c = false) (h2 : c ≠ '-') : sepTailAt t = none := by
  cases t with
  | nil => simp at h
  | cons c0 r =>
    simp only [List.head?_cons, Option.some.injEq] at h
    subst h
    unfold sepTailAt
    dsimp only
    rw [show List.dropWhile isWS (c0 :: r) = c0 :: r from by
      rw [List.dropWhile_cons_of_neg (by simp [h1])]]
    split
    · rename_i r2 heq
      simp only [List.cons.injEq] at heq
      exact absurd heq.1 h2
    · rfl

theorem splitSepF_no_sep : ∀ (fuel : Nat) (acc s : Str),
    (∀ t, ('\n' :: t) <:+ s → sepTailAt t = none) →
    splitSepF fuel acc s = [acc.reverse ++ s] := by
  intro fuel
  induction fuel with
  | zero => intro acc s _; rfl
  | succ f ih =>
    intro acc s hno
    cases s with
    | nil =>
      show [acc.reverse] = [acc.reverse ++ []]
      simp
    | cons c rest =>
      show (if c = '\n' then
              match sepTailAt rest with
              | some rest2 => acc.reverse :: splitSepF f [] rest2
              | none => splitSepF f (c :: acc) rest
            else splitSepF f (c :: acc) rest) = [acc.reverse ++ c :: rest]
      by_cases hc : c = '\n'
      · subst hc
        rw [if_pos rfl]
        rw [hno rest (List.suffix_refl _)]
        rw [ih ('\n' :: acc) rest
          (fun t ht => hno t (ht.trans (List.suffix_cons '\n' rest)))]
        simp
      · rw [if_neg hc]
        rw [ih (c :: acc) rest
          (fun t ht => hno t (ht.trans (List.suffix_cons c rest)))]
        simp

theorem joinSep_nl_no_sep : ∀ (ls : List Str),
    (∀ l ∈ ls, l ≠ [] ∧ '\n' ∉ l ∧
      (∀ c, l.head? = some c → isWS c = false ∧ c ≠ '-')) →
    ∀ t, ('\n' :: t) <:+ joinSep ['\n'] ls → sepTailAt t = none := by
  intro ls
  induction ls with
  | nil =>
    intro _ t ht
    have := List.suffix_nil.mp (show ('\n' :: t) <:+ [] from ht)
    simp at this
  | cons l ls ih =>
    intro hl t ht
    cases ls with
    | nil =>
      exact absurd (ht.subset (by simp)) (hl l (by simp)).2.1
    | cons l2 ls2 =>
      rw [show joinSep ['\n'] (l :: l2 :: ls2)
          = (l ++ ['\n']) ++ joinSep ['\n'] (l2 :: ls2) from rfl] at ht
      rw [List.append_assoc, List.singleton_append] at ht
      rcases suffix_append_cases _ l _ ht with hs | ⟨w, hw1, hw2, hw3⟩
      · rcases List.suffix_cons_iff.mp hs with he | hs2
        · have ht2 : t = joinSep ['\n'] (l2 :: ls2) := by
            injection he
          obtain ⟨hne2, hnl2, hhead2⟩ := hl l2 (by simp)
          cases hh : l2.head? with
          | none => exact absurd (List.head?_eq_none_iff.mp hh) hne2
          | some c =>
            refine sepTailAt_head_none t c ?_ (hhead2 c hh).1 (hhead2 c hh).2
            rw [ht2, joinSep_head? ['\n'] l2 ls2 hne2]
            exact hh
        · exact ih (fun x hx => hl x (by simp [hx])) t hs2
      · exfalso
        cases w with
        | nil => exact absurd rfl hw1
        | cons c w3 =>
          rw [List.cons_append] at hw3
          injection hw3 with hh1 hh2
          apply (hl l (by simp)).2.1
          exact hw2.subset (by rw [hh1]; simp)

theorem splitSep_join_single (lines : List Str)
    (hl : ∀ l ∈ lines, l ≠ [] ∧ '\n' ∉ l ∧
      (∀ c, l.head? = some c → isWS c = false ∧ c ≠ '-')) :
    splitSep (joinSep ['\n'] lines) = [joinSep ['\n'] lines] := by
  unfold splitSep
  rw [splitSepF_no_sep _ [] _ (joinSep_nl_no_sep lines hl)]
  rfl


theorem head?_append_of_ne_nil (T X : Str) (hT : T ≠ []) :
    (T ++ X).head? = T.head? := by
  cases T with
  | nil => exact absurd rfl hT
  | cons a T0 => rfl

theorem mySquareLine_facts (cfg : BoardConfig) (sq : MySquare)
    (hT1 : TeamName cfg.topTeam) (hT2 : TeamName cfg.leftTeam)
    (hT1top : toLowerStr cfg.topTeam ≠ "top".data)
    (hT1pay : toLowerStr cfg.topTeam ≠ "payout".data)
    (hT1pays : toLowerStr cfg.topTeam ≠ "payouts".data)
    (hqne : sq.quarters ≠ [])
    (hgw : ∀ qd ∈ sq.quarters, digitGroupWeakOk qd.topDigits ∧
      digitGroupWeakOk qd.leftDigits) :
    mySquareLine cfg sq ≠ [] ∧
    trimStr (mySquareLine cfg sq) = mySquareLine cfg sq ∧
    '\n' ∉ mySquareLine cfg sq ∧
    (∀ c, (mySquareLine cfg sq).head? = some c →
      isWS c = false ∧ c ≠ '-') ∧
    (mySquareLine cfg sq).take 1 ≠ ['#'] ∧
    isPayoutsLine (mySquareLine cfg sq) = false ∧
    matchTopWS (mySquareLine cfg sq) = false ∧
    matchQnWS (mySquareLine cfg sq) = false := by
  obtain ⟨rest, heq, hrne, hchars, hlast⟩ :=
    mySquareLine_shape cfg sq hT2 hqne hgw
  obtain ⟨hT1ne, hT1ch⟩ := hT1
  rw [heq]
  have hhead : ∀ c, (cfg.topTeam ++ ' ' :: rest).head? = some c →
      c ∈ cfg.topTeam := by
    intro c hc
    cases h0 : cfg.topTeam with
    | nil => exact absurd h0 hT1ne
    | cons a T0 =>
      rw [h0, List.cons_append] at hc
      simp only [List.head?_cons, Option.some.injEq] at hc
      rw [← hc]
      simp [h0]
  refine ⟨by simp, ?_, ?_, ?_, ?_, ?_, ?_, ?_⟩
  · refine trimStr_eq_self _ ?_ ?_
    · intro c hc
      exact (hT1ch c (hhead c hc)).2.1
    · intro c hc
      rw [getLast?_append_right _ _ (by simp)] at hc
      rw [show (' ' :: rest).getLast? = ([' '] ++ rest).getLast? from rfl,
        getLast?_append_right _ _ hrne] at hc
      exact hlast c hc
  · intro hmem
    rcases List.mem_append.mp hmem with h | h
    · exact absurd (hT1ch _ h).1 (by decide)
    · rcases List.mem_cons.mp h with he | h2
      · exact absurd he (by decide)
      · rcases hchars _ h2 with he | he | he | he
        · exact absurd he (by decide)
        · exact absurd he (by decide)
        · exact absurd he (by decide)
        · exact absurd (hT2.2 _ he).1 (by decide)
  · intro c hc
    have hcm := hhead c hc
    exact ⟨(hT1ch c hcm).2.1, teamChar_ne c (hT1ch c hcm).1 '-' (by decide)⟩
  · cases h0 : cfg.topTeam with
    | nil => exact absurd h0 hT1ne
    | cons a T0 =>
      rw [List.cons_append]
      intro hcon
      have ha : a = '#' := by simpa using hcon
      exact absurd ((hT1ch a (by simp [h0])).1) (by rw [ha]; decide)
  · exact isPayoutsLine_team cfg.topTeam rest ⟨hT1ne, hT1ch⟩ hT1pay hT1pays
  · exact matchTopWS_team cfg.topTeam rest ⟨hT1ne, hT1ch⟩ hT1top
  · exact matchQnWS_team cfg.topTeam rest ⟨hT1ne, hT1ch⟩

theorem teamsLine_facts (T1 T2 : Str) (h1 : TeamName T1) (h2 : TeamName T2) :
    (T1 ++ " vs ".data ++ T2) ≠ [] ∧
    trimStr (T1 ++ " vs ".data ++ T2) = T1 ++ " vs ".data ++ T2 ∧
    '\n' ∉ (T1 ++ " vs ".data ++ T2) ∧
    (∀ c, (T1 ++ " vs ".data ++ T2).head? = some c →
      isWS c = false ∧ c ≠ '-') ∧
    (T1 ++ " vs ".data ++ T2).take 1 ≠ ['#'] := by
  obtain ⟨h1ne, h1ch⟩ := h1
  obtain ⟨h2ne, h2ch⟩ := h2
  have hhead : ∀ c, (T1 ++ " vs ".data ++ T2).head? = some c → c ∈ T1 := by
    intro c hc
    rw [head?_append_of_ne_nil _ _ (by simp [h1ne]),
      head?_append_of_ne_nil _ _ h1ne] at hc
    cases h0 : T1 with
    | nil => exact absurd h0 h1ne
    | cons a T0 =>
      rw [h0] at hc
      simp only [List.head?_cons, Option.some.injEq] at hc
      rw [← hc]
      simp [h0]
  refine ⟨by simp, ?_, ?_, ?_, ?_⟩
  · refine trimStr_eq_self _ ?_ ?_
    · intro c hc
      exact (h1ch c (hhead c hc)).2.1
    · intro c hc
      rw [getLast?_append_right _ _ h2ne] at hc
      obtain ⟨hx, he2⟩ := List.mem_getLast?_eq_getLast
        (show c ∈ T2.getLast? from hc)
      have hcm : c ∈ T2 := by
        rw [he2]
        exact List.getLast_mem hx
      exact (h2ch c hcm).2.1
  · intro hmem
    rcases List.mem_append.mp hmem with h | h
    · rcases List.mem_append.mp h with h3 | h3
      · exact absurd (h1ch _ h3).1 (by decide)
      · exact absurd h3 (by decide)
    · exact absurd (h2ch _ h).1 (by decide)
  · intro c hc
    have hcm := hhead c hc
    exact ⟨(h1ch c hcm).2.1, teamChar_ne c (h1ch c hcm).1 '-' (by decide)⟩
  · rw [show T1 ++ " vs ".data ++ T2 = T1 ++ (" vs ".data ++ T2) from by
      rw [List.append_assoc]]
    cases h0 : T1 with
    | nil => exact absurd h0 h1ne
    | cons a T0 =>
      rw [List.cons_append]
      intro hcon
      have ha : a = '#' := by simpa using hcon
      exact absurd ((h1ch a (by simp [h0])).1) (by rw [ha]; decide)


theorem parseTeamsLine_plain (T1 T2 : Str)
    (h1 : TeamName T1) (h2 : TeamName T2) :
    parseTeamsLine (T1 ++ " vs ".data ++ T2) = .ok (T1, T2) := by
  have gw1 : goodWord T1 := ⟨h1.1, fun c hc => ⟨(h1.2 c hc).1, (h1.2 c hc).2.1⟩⟩
  have gw2 : goodWord T2 := ⟨h2.1, fun c hc => ⟨(h2.2 c hc).1, (h2.2 c hc).2.1⟩⟩
  have hvs : vsSplit (T1 ++ " vs ".data ++ T2) = some (T1, T2) := by
    have h0 := vsSplit_teams T1 T2 none none gw1 gw2
    rw [show annotText none = [] from rfl, List.append_nil,
      List.append_nil] at h0
    exact h0
  have htrim1 : trimStr T1 = T1 := by
    have h0 := trimStr_word_annot T1 none gw1.1
      (fun c hc => (gw1.2 c hc).2)
    rwa [show annotText none = [] from rfl, List.append_nil] at h0
  have htrim2 : trimStr T2 = T2 := by
    have h0 := trimStr_word_annot T2 none gw2.1
      (fun c hc => (gw2.2 c hc).2)
    rwa [show annotText none = [] from rfl, List.append_nil] at h0
  have hclean1 : cleanAnnots T1 = T1 := by
    have h0 := cleanAnnots_word_annot T1 none gw1.2
    rwa [show annotText none = [] from rfl, List.append_nil] at h0
  have hclean2 : cleanAnnots T2 = T2 := by
    have h0 := cleanAnnots_word_annot T2 none gw2.2
    rwa [show annotText none = [] from rfl, List.append_nil] at h0
  have hc1 : containsCI ['\x28', 'l', 'e', 'f', 't', ')'] T1 = false := by
    have h0 := containsCI_word_annot '\x28' ['l', 'e', 'f', 't', ')'] T1 []
      (fun c hc => (gw1.2 c hc).1) (by decide)
    rw [List.append_nil] at h0
    rw [h0]
    decide
  have hc2 : containsCI ['\x28', 't', 'o', 'p', ')'] T2 = false := by
    have h0 := containsCI_word_annot '\x28' ['t', 'o', 'p', ')'] T2 []
      (fun c hc => (gw2.2 c hc).1) (by decide)
    rw [List.append_nil] at h0
    rw [h0]
    decide
  unfold parseTeamsLine
  rw [hvs]
  dsimp only
  rw [htrim1, htrim2, hclean1, hclean2, htrim1, htrim2, hc1, hc2]
  rw [if_neg (by decide)]


theorem map_id_of_eq {α : Type} (f : α → α) : ∀ (l : List α),
    (∀ x ∈ l, f x = x) → l.map f = l := by
  intro l
  induction l with
  | nil => intro _; rfl
  | cons x t ih =>
    intro h
    rw [List.map_cons, h x (by simp), ih (fun y hy => h y (by simp [hy]))]

theorem line_filter_true (l : Str) (h1 : l ≠ []) (h2 : l.take 1 ≠ ['#']) :
    (!l.isEmpty && !(l.take 1 = ['#'] : Bool)) = true := by
  cases l with
  | nil => exact absurd rfl h1
  | cons c r =>
    have h3 : c ≠ '#' := by
      intro he
      exact h2 (by simp [he])
    simp [h3]

/-- The board configuration of the amended round-trip family. -/
def mkConfig (cols rows : Nat) (R : Bool) (T1 T2 : Str) : BoardConfig :=
  { name := "Board".data, buyIn := none, cols := cols, rows := rows,
    reroll := R, topTeam := T1, leftTeam := T2, payouts := none }

/-- `parseSingleBoard` on a serialized my-squares block (header behavior
given by hypothesis). -/
theorem parseSingleBoard_round
    (cols rows : Nat) (R : Bool) (T1 T2 : Str) (sqs : List MySquare)
    (hL : Str)
    (hT1 : TeamName T1) (hT2 : TeamName T2)
    (hdr : parseHeader hL = mkConfig cols rows R [] [])
    (hLne : hL ≠ []) (hLtrim : trimStr hL = hL) (hLnl : '\n' ∉ hL)
    (hLhash : hL.take 1 ≠ ['#'])
    (hsqs : sqs ≠ [])
    (hq : ∀ sq ∈ sqs, quartersLenOk R sq.quarters.length ∧
      ∀ qd ∈ sq.quarters, digitGroupWeakOk qd.topDigits ∧
        digitGroupWeakOk qd.leftDigits)
    (hT1top : toLowerStr T1 ≠ "top".data)
    (hT1pay : toLowerStr T1 ≠ "payout".data)
    (hT1pays : toLowerStr T1 ≠ "payouts".data) :
    parseSingleBoard (joinSep ['\n']
      (hL :: (T1 ++ " vs ".data ++ T2) ::
        sqs.map (mySquareLine (mkConfig cols rows R T1 T2))))
      = .ok { config := mkConfig cols rows R T1 T2,
              fullBoard := none, mySquares := some sqs } := by
  rcases sqs with - | ⟨sq0, sqs0⟩
  · exact absurd rfl hsqs
  obtain ⟨hTLne, hTLtrim, hTLnl, hTLhead, hTLhash⟩ :=
    teamsLine_facts T1 T2 hT1 hT2
  have hqne : ∀ sq ∈ sq0 :: sqs0, sq.quarters ≠ [] := by
    intro sq hs
    have h0 := (hq sq hs).1
    unfold quartersLenOk at h0
    intro he
    rw [he] at h0
    split_ifs at h0 <;> simp at h0
  have hSQ := fun (sq : MySquare) (hs : sq ∈ sq0 :: sqs0) =>
    mySquareLine_facts (mkConfig cols rows R T1 T2) sq hT1 hT2
      hT1top hT1pay hT1pays (hqne sq hs) (hq sq hs).2
  unfold parseSingleBoard
  dsimp only
  rw [splitOnChar_join '\n' _ (by simp) (by
    intro l hl
    rcases List.mem_cons.mp hl with rfl | hl
    · exact hLnl
    rcases List.mem_cons.mp hl with rfl | hl
    · exact hTLnl
    obtain ⟨sq, hs, rfl⟩ := List.mem_map.mp hl
    exact (hSQ sq hs).2.2.1)]
  rw [map_id_of_eq trimStr _ (by
    intro l hl
    rcases List.mem_cons.mp hl with rfl | hl
    · exact hLtrim
    rcases List.mem_cons.mp hl with rfl | hl
    · exact hTLtrim
    obtain ⟨sq, hs, rfl⟩ := List.mem_map.mp hl
    exact (hSQ sq hs).2.1)]
  rw [List.filter_eq_self.mpr (by
    intro l hl
    rcases List.mem_cons.mp hl with rfl | hl
    · exact line_filter_true l hLne hLhash
    rcases List.mem_cons.mp hl with rfl | hl
    · exact line_filter_true _ hTLne hTLhash
    obtain ⟨sq, hs, rfl⟩ := List.mem_map.mp hl
    exact line_filter_true _ (hSQ sq hs).1 (hSQ sq hs).2.2.2.2.1)]
  dsimp only
  rw [hdr, parseTeamsLine_plain T1 T2 hT1 hT2, bind_ok]
  dsimp only
  rw [List.map_cons]
  dsimp only
  rw [(hSQ sq0 (by simp)).2.2.2.2.2.1]
  rw [if_neg (show ¬(false = true) by decide)]
  dsimp only
  rw [show (mySquareLine (mkConfig cols rows R T1 T2) sq0 ::
      sqs0.map (mySquareLine (mkConfig cols rows R T1 T2))).isEmpty = false
    from rfl]
  rw [if_neg (show ¬(false = true) by decide)]
  rw [show isFullBoardBlock (mySquareLine (mkConfig cols rows R T1 T2) sq0 ::
      sqs0.map (mySquareLine (mkConfig cols rows R T1 T2)))
      = (matchTopWS (mySquareLine (mkConfig cols rows R T1 T2) sq0) ||
         matchQnWS (mySquareLine (mkConfig cols rows R T1 T2) sq0))
    from rfl]
  rw [(hSQ sq0 (by simp)).2.2.2.2.2.2.1, (hSQ sq0 (by simp)).2.2.2.2.2.2.2]
  rw [if_neg (show ¬((false || false) = true) by decide)]
  have hblock : parseMySquaresBlock
      ((sq0 :: sqs0).map (mySquareLine (mkConfig cols rows R T1 T2)))
      (mkConfig cols rows R T1 T2) = .ok (sq0 :: sqs0) :=
    jsMapExcept_map _ _ _ (fun sq hs =>
      parseMySquareLine_round _ sq hT1 hT2 (hq sq hs).1 (hq sq hs).2)
  show (parseMySquaresBlock
      ((sq0 :: sqs0).map (mySquareLine (mkConfig cols rows R T1 T2)))
      (mkConfig cols rows R T1 T2)) >>= (fun sqs2 =>
        (Except.ok ⟨mkConfig cols rows R T1 T2, none, some sqs2⟩ :
          Except Str Board))
    = Except.ok ⟨mkConfig cols rows R T1 T2, none, some (sq0 :: sqs0)⟩
  rw [hblock, bind_ok]


def headOk (s : Str) : Prop :=
  ∀ c, s.head? = some c → isWS c = false ∧ c ≠ '-'

instance : (s : Str) → Decidable (headOk s)
  | [] => isTrue (fun c hc => by simp at hc)
  | c0 :: r =>
    if h : isWS c0 = false ∧ c0 ≠ '-' then
      isTrue (fun c hc => by
        simp only [List.head?_cons, Option.some.injEq] at hc
        rw [← hc]
        exact h)
    else
      isFalse (fun hall => h (hall c0 rfl))

def lastNonWS (s : Str) : Prop :=
  ∀ c, s.getLast? = some c → isWS c = false

theorem lastNonWS_iff (s : Str) :
    lastNonWS s ↔ optionProp (fun c => isWS c = false) s.getLast? := by
  constructor
  · intro h
    cases hg : s.getLast? with
    | none => exact trivial
    | some c => exact h c hg
  · intro h c hc
    rw [hc] at h
    exact h

instance (s : Str) : Decidable (lastNonWS s) :=
  decidable_of_iff _ (lastNonWS_iff s).symm

/-- The header line `serializeBoard` writes for the amended round-trip
family. -/
def boardHeaderLine (cols rows : Nat) (R : Bool) : Str :=
  if R = true then
    ((("Board ".data ++ natToStr cols) ++ ['x']) ++ natToStr rows) ++
      " reroll".data
  else (("Board ".data ++ natToStr cols) ++ ['x']) ++ natToStr rows

theorem header_line_facts (cols rows : Nat) (R : Bool)
    (hc : cols = 5 ∨ cols = 10) (hr : rows = 5 ∨ rows = 10) :
    boardHeaderLine cols rows R ≠ [] ∧
    trimStr (boardHeaderLine cols rows R) = boardHeaderLine cols rows R ∧
    '\n' ∉ boardHeaderLine cols rows R ∧
    (boardHeaderLine cols rows R).take 1 ≠ ['#'] ∧
    headOk (boardHeaderLine cols rows R) ∧
    lastNonWS (boardHeaderLine cols rows R) := by
  rcases hc with rfl | rfl <;> rcases hr with rfl | rfl <;> cases R <;> decide

theorem parseHeader_board (cols rows : Nat) (R : Bool)
    (hc : cols = 5 ∨ cols = 10) (hr : rows = 5 ∨ rows = 10) :
    parseHeader (boardHeaderLine cols rows R) = mkConfig cols rows R [] [] := by
  rcases hc with rfl | rfl <;> rcases hr with rfl | rfl <;> cases R <;> decide

theorem mySquareLine_lastNonWS (cfg : BoardConfig) (sq : MySquare)
    (hT2 : TeamName cfg.leftTeam) (hqne : sq.quarters ≠ [])
    (hgw : ∀ qd ∈ sq.quarters, digitGroupWeakOk qd.topDigits ∧
      digitGroupWeakOk qd.leftDigits) :
    lastNonWS (mySquareLine cfg sq) := by
  obtain ⟨rest, heq, hrne, hchars, hlast⟩ :=
    mySquareLine_shape cfg sq hT2 hqne hgw
  intro c hc
  rw [heq, getLast?_append_right _ _ (by simp),
    show (' ' :: rest).getLast? = ([' '] ++ rest).getLast? from rfl,
    getLast?_append_right _ _ hrne] at hc
  exact hlast c hc

theorem teamsLine_lastNonWS (T1 T2 : Str) (h2 : TeamName T2) :
    lastNonWS (T1 ++ " vs ".data ++ T2) := by
  intro c hc
  rw [getLast?_append_right _ _ h2.1] at hc
  obtain ⟨hx, he2⟩ := List.mem_getLast?_eq_getLast
    (show c ∈ T2.getLast? from hc)
  have : c ∈ T2 := by
    rw [he2]
    exact List.getLast_mem hx
  exact (h2.2 c this).2.1


theorem jsMapExcept_cons {ε α β : Type} (f : α → Except ε β) (a : α)
    (t : List α) :
    jsMapExcept f (a :: t) =
      f a >>= fun b => jsMapExcept f t >>= fun bs => pure (b :: bs) := rfl

/-- The block of lines `serializeBoard` emits for a my-squares board of
the amended round-trip family. -/
def myBoardLines (cols rows : Nat) (R : Bool) (T1 T2 : Str)
    (sqs : List MySquare) : List Str :=
  boardHeaderLine cols rows R :: (T1 ++ " vs ".data ++ T2) ::
    sqs.map (mySquareLine (mkConfig cols rows R T1 T2))

end SBS
